import Mathlib

/-! umake: a shallow embedding of `src/cmd/umake/umake.c`

The build engine of `umake` consists of four C functions: `older`, `docmd`,
`make` and `makebyname`.  They are embedded here as Lean functions over an
explicit program state.

* C strings are lists of characters (`Str`); the terminating NUL is implicit.
  A `char *` that may be `NULL` is an `Option Str`.
* The static variables `depth` and `fail` and the rule list `rules` are fields
  of `State`; `struct rule *` values are positions in the rule list.
* The operating system (`stat`, `access`, `system`) is an oracle `OS W` over an
  arbitrary environment type `W`; `system` may change the environment.
* Everything written to `stderr` and every `system` call is recorded, in
  order, in `State.log`.
* Behaviour the C text leaves undefined (a `NULL` dereference, a write past
  `buf`, a read of a byte of `buf` that was never written, signed overflow) is
  an explicit `Fault`.
* `make` and `makebyname` are mutually recursive; the embedding is indexed by
  a bound on the nesting of `make` calls.
-/

namespace Umake

/-- A C string without its terminating NUL. -/
abbrev Str := List Char

/-- The two fields of `struct timespec`. -/
structure Timespec where
  tv_sec : Int
  tv_nsec : Int
deriving DecidableEq, Repr

/-- Ways in which a run leaves the defined behaviour of the C text. -/
inductive Fault where
  /-- a `NULL` pointer is dereferenced (`strcpy` from `NULL`, `*input` with `r->input == NULL`) -/
  | nullDeref
  /-- the template ends in a lone `$`: the scan steps over the terminator -/
  | readPastEnd
  /-- a write beyond `buf[4095]` -/
  | bufferOverflow
  /-- the modifier scan reads a byte of `buf` that was never written -/
  | uninitRead
  /-- `++depth` at `INT_MAX` -/
  | intOverflow
  /-- a rule position outside the rule list -/
  | badRule
  /-- the nesting bound of the embedding is exhausted -/
  | fuel
deriving DecidableEq, Repr

/-- Modelled from the spec: `struct rule` is declared in `umake.h`, which is not
among the sources.  The fields are those `umake.c` uses: `output`, the
NULL-terminated arrays `input` and `cmds` (either pointer may itself be
`NULL`, hence `Option`), and the completion flag `done`.  The `next` link is
the order of the rule list. -/
structure Rule where
  output : Str
  input : Option (List Str)
  cmds : Option (List Str)
  done : Bool
deriving DecidableEq, Repr

/-- What the program writes to `stderr`, and the commands it hands to `system`. -/
inductive Event where
  /-- `fputs(sp, stderr); fputc('\n', stderr)` in `docmd` -/
  | echo (line : Str)
  /-- `system(sp)` in `docmd` -/
  | exec (line : Str)
  /-- `warnx("recursion limit exceeded")` -/
  | recursionLimit
  /-- `warnx("%s: No rule to make target", name)` -/
  | noRule (name : Str)
  /-- `warnx("making %s: %s (%s)", target, src, r->output)` -/
  | making (target src output : Str)
  /-- `warnx("making %s: input %s", target, *input)` -/
  | makingInput (target input : Str)
  /-- `errx(1, "no default target")` in `main` -/
  | noDefaultTarget
deriving DecidableEq, Repr

/-- The option flags `sflag`, `nflag`, `vflag`, set once by `main`. -/
structure Flags where
  sflag : Bool
  nflag : Bool
  vflag : Bool
deriving DecidableEq, Repr

/-- The system calls `umake` relies on, over an environment of type `W`.
`stat` yields `st_mtim` when it succeeds, `access` tells whether
`access(name, 0)` returns 0, `system` yields the exit status and the
environment the command leaves behind. -/
structure OS (W : Type) where
  stat : W → Str → Option Timespec
  access : W → Str → Bool
  system : W → Str → Int × W

/-- The mutable program state: the rule list with its `done` flags, the
static counters `depth` and `fail`, the environment and the output so far. -/
structure State (W : Type) where
  rules : List Rule
  depth : Int
  fail : Int
  world : W
  log : List Event

/-- The result of a call: a fault, or the returned value with the new state. -/
abbrev Res (W : Type) := Except Fault (Int × State W)

/-! ## `older` (lines 111-118) -/

/-- `older(ts1, ts2)`: seconds first, then nanoseconds. -/
def older (ts1 ts2 : Timespec) : Bool :=
  if ts1.tv_sec < ts2.tv_sec then true
  else if ts2.tv_sec < ts1.tv_sec then false
  else decide (ts1.tv_nsec < ts2.tv_nsec)

/-! ## `docmd` (lines 35-93) -/

/-- The size of `buf` in `docmd`. -/
def BUFSIZE : Nat := 4096

/-- The expansion loop of `docmd` (lines 44-65).  `buf` holds the bytes
written so far (`dp - buf = buf.length`); `term` tells whether `buf[dp]`
holds a NUL, which is the case exactly after a `strcpy`. -/
def expand (src target : Option Str) : Str → Str → Bool → Except Fault (Str × Bool)
  | [], buf, term => .ok (buf, term)
  | c :: rest, buf, _ =>
    if c = '$' then
      match rest with
      | [] =>
        -- `*++sp` is the terminator: `$` and NUL are stored, then `sp++` leaves the string
        if BUFSIZE < buf.length + 2 then .error .bufferOverflow else .error .readPastEnd
      | d :: rest' =>
        if d = '@' then
          match target with
          | none => .error .nullDeref
          | some t =>
            if BUFSIZE < buf.length + t.length + 1 then .error .bufferOverflow
            else expand src target rest' (buf ++ t) true
        else if d = '<' then
          match src with
          | none => .error .nullDeref
          | some t =>
            if BUFSIZE < buf.length + t.length + 1 then .error .bufferOverflow
            else expand src target rest' (buf ++ t) true
        else
          if BUFSIZE < buf.length + 2 then .error .bufferOverflow
          else expand src target rest' (buf ++ [c, d]) false
    else
      if BUFSIZE < buf.length + 1 then .error .bufferOverflow
      else expand src target rest (buf ++ [c]) false

/-- The modifier scan of `docmd` (lines 67-77), over the bytes of `buf` from
`sp` on.  The terminator is stored only afterwards (line 78), so at the end
of the written bytes the scan reads `buf[dp]`, which holds a NUL only when
`term` is set.  Yields `iexit`, `noecho` and the string at `sp`. -/
def scan (term : Bool) : Str → Bool → Bool → Except Fault (Bool × Bool × Str)
  | [], iexit, noecho => if term then .ok (iexit, noecho, []) else .error .uninitRead
  | c :: rest, iexit, noecho =>
    if c = '-' then scan term rest true noecho
    else if c = '@' then scan term rest iexit true
    else .ok (iexit, noecho, c :: rest)

/-- Lines 44-78 of `docmd`: expansion, modifier scan, terminator. -/
def prepare (cmd : Str) (src target : Option Str) : Except Fault (Bool × Bool × Str) :=
  match expand src target cmd [] false with
  | .error e => .error e
  | .ok (buf, term) =>
    match scan term buf false false with
    | .error e => .error e
    | .ok r => if BUFSIZE < buf.length + 1 then .error .bufferOverflow else .ok r

/-- `docmd(cmd, src, target)`. -/
def docmd {W : Type} (os : OS W) (fl : Flags) (cmd : Str) (src target : Option Str)
    (s : State W) : Res W :=
  match prepare cmd src target with
  | .error e => .error e
  | .ok (iexit, noecho, sp) =>
    let s1 := if !noecho && !fl.sflag then { s with log := s.log ++ [Event.echo sp] } else s
    if fl.nflag then .ok (0, s1)
    else
      let st := os.system s1.world sp
      let s2 := { s1 with world := st.2, log := s1.log ++ [Event.exec sp] }
      let f : Int := if st.1 = 0 then 0 else 1
      if iexit then .ok (0, s2) else .ok (f, s2)

/-! ## `trace` (lines 95-109) -/

/-- `trace(r, src, target)`. -/
def trace {W : Type} (fl : Flags) (r : Rule) (src : Option Str) (target : Str)
    (s : State W) : State W :=
  if !fl.vflag then s
  else
    let s1 := { s with log := s.log ++ [Event.making target (src.getD ['-']) r.output] }
    match r.input with
    | none => s1
    | some ins => { s1 with log := s1.log ++ ins.map (Event.makingInput target) }

/-! ## `make` (lines 120-174) -/

/-- `stat(name, &st)`; with `name == NULL` the call fails (`EFAULT`). -/
def statOpt {W : Type} (os : OS W) (w : W) (name : Option Str) : Option Timespec :=
  match name with
  | none => none
  | some n => os.stat w n

/-- `if (!stat(x, &st) && older(&stv, &st.st_mtim)) stv = st.st_mtim;` -/
def newest (stv : Timespec) (st : Option Timespec) : Timespec :=
  match st with
  | none => stv
  | some m => if older stv m then m else stv

/-- The prerequisite loop of `make` (lines 144-149): `f` is kept as the
truth value of the C integer `f`, which is only ever tested against zero. -/
def prereqs {W : Type} (os : OS W) (mkbn : Str → State W → Res W) :
    List Str → Bool → Timespec → State W → Except Fault (Bool × Timespec × State W)
  | [], f, stv, s => .ok (f, stv, s)
  | x :: xs, f, stv, s =>
    match mkbn x s with
    | .error e => .error e
    | .ok (ret, s1) =>
      prereqs os mkbn xs (f || decide (ret ≠ 0)) (newest stv (os.stat s1.world x)) s1

/-- The command loop of `make` (lines 166-167); the value of `docmd` is dropped. -/
def runcmds {W : Type} (os : OS W) (fl : Flags) (src target : Option Str) :
    List Str → State W → Except Fault (State W)
  | [], s => .ok s
  | c :: cs, s =>
    match docmd os fl c src target s with
    | .error e => .error e
    | .ok (_, s1) => runcmds os fl src target cs s1

/-- The rule a `struct rule *` points to: the entry at position `i` of the list. -/
def ruleAt : List Rule → Nat → Option Rule
  | [], _ => none
  | r :: _, 0 => some r
  | _ :: rs, i + 1 => ruleAt rs i

/-- `r->done = 1` for the rule at position `i`. -/
def setDone : List Rule → Nat → List Rule
  | [], _ => []
  | r :: rs, 0 => { r with done := true } :: rs
  | r :: rs, i + 1 => r :: setDone rs i

/-- `*r->output != '.'`. -/
def isExplicit (r : Rule) : Bool := decide (r.output.head? ≠ some '.')

/-- The value of `INT_MAX`. -/
def INT_MAX : Int := 2147483647

/-- Lines 137-138: `if (src == NULL && r->input) src = r->input[0];` (the
first entry of an empty array is its `NULL` sentinel). -/
def defaultSrc (r : Rule) (src : Option Str) : Option Str :=
  match src, r.input with
  | none, some ins => ins.head?
  | _, _ => src

/-- Lines 139-140: `if (target == NULL) target = r->output;`. -/
def defaultTarget (r : Rule) (target : Option Str) : Str := target.getD r.output

/-- The state in which the prerequisite loop starts: `depth` incremented
(line 131) and the rule traced (line 142). -/
def enter {W : Type} (fl : Flags) (r : Rule) (src target : Option Str) (s : State W) : State W :=
  trace fl r (defaultSrc r src) (defaultTarget r target) { s with depth := s.depth + 1 }

/-- The test of line 159:
`src != NULL && !stat(target, &st) && !older(&st.st_mtim, &stv)`. -/
def fresh {W : Type} (os : OS W) (w : W) (src : Option Str) (target : Str) (stv : Timespec) :
    Bool :=
  match src, os.stat w target with
  | some _, some mt => !older mt stv
  | _, _ => false

/-- Lines 165-173: run the commands, mark an explicit rule done, leave. -/
def rebuild {W : Type} (os : OS W) (fl : Flags) (r : Rule) (i : Nat) (src : Option Str)
    (target : Str) (s : State W) : Res W :=
  match runcmds os fl src (some target) (r.cmds.getD []) s with
  | .error e => .error e
  | .ok s4 =>
    let s5 := if isExplicit r then { s4 with rules := setDone s4.rules i } else s4
    .ok (0, { s5 with depth := s5.depth - 1 })

/-- The body of `make(r, src, target)`, with `r` the rule at position `i`
and `mkbn` standing for `makebyname`. -/
def makeWith {W : Type} (os : OS W) (fl : Flags) (mkbn : Str → State W → Res W)
    (i : Nat) (src target : Option Str) (s : State W) : Res W :=
  match ruleAt s.rules i with
  | none => .error .badRule
  | some r =>
    if r.done then .ok (0, s)
    else if s.depth = INT_MAX then .error .intOverflow
    else if (10 : Int) < s.depth + 1 then
      .ok (1, { s with depth := s.depth + 1, log := s.log ++ [Event.recursionLimit] })
    else
      match r.input with
      | none => .error .nullDeref
      | some ins =>
        match prereqs os mkbn ins false ⟨0, 0⟩ (enter fl r src target s) with
        | .error e => .error e
        | .ok (f, stv0, s3) =>
          if f then .ok (1, { s3 with depth := s3.depth - 1 })
          else if fresh os s3.world (defaultSrc r src) (defaultTarget r target)
              (newest stv0 (statOpt os s3.world (defaultSrc r src))) then
            .ok (0, { s3 with depth := s3.depth - 1 })
          else rebuild os fl r i (defaultSrc r src) (defaultTarget r target) s3

/-! ## `makebyname` (lines 176-242) -/

/-- `strchr(s, c)` as the offset of the first `c` in `s`. -/
def strchr : Str → Char → Option Nat
  | [], _ => none
  | x :: xs, c => if x = c then some 0 else (strchr xs c).map (· + 1)

/-- The first loop of `makebyname` (lines 185-187): the position of the first
rule with `*r->output != '.' && !strcmp(r->output, name)`, counting from `k`. -/
def findExplicit (name : Str) : List Rule → Nat → Option Nat
  | [], _ => none
  | r :: rs, k =>
    if isExplicit r && decide (r.output = name) then some k
    else findExplicit name rs (k + 1)

/-- The loop of lines 191-215: `i` is `tx - name`.  Yields the position of the
chosen rule and the synthesized `src`. -/
def findTwoSuffix (name : Str) (i : Nat) : List Rule → Nat → Option (Nat × Str)
  | [], _ => none
  | r :: rs, k =>
    if isExplicit r then findTwoSuffix name i rs (k + 1)
    else
      match strchr (r.output.drop 1) '.' with
      | none => findTwoSuffix name i rs (k + 1)
      | some j =>
        -- `p = r->output + 1 + j`
        if name.drop i ≠ r.output.drop (1 + j) then findTwoSuffix name i rs (k + 1)
        else some (k, name.take i ++ r.output.take (1 + j))

/-- The loop of lines 217-233.  Yields the position of the chosen rule and
the synthesized `src`. -/
def findOneSuffix (name : Str) : List Rule → Nat → Option (Nat × Str)
  | [], _ => none
  | r :: rs, k =>
    if isExplicit r then findOneSuffix name rs (k + 1)
    else
      match strchr (r.output.drop 1) '.' with
      | some _ => findOneSuffix name rs (k + 1)
      | none => some (k, name ++ r.output)

/-- Lines 235-241 of `makebyname`. -/
def leaf {W : Type} (os : OS W) (name : Str) (s : State W) : Res W :=
  if os.access s.world name then .ok (0, s)
  else .ok (-1, { s with fail := 1, log := s.log ++ [Event.noRule name] })

/-- The body of `makebyname(name)`, with `mk` standing for `make`.
`malloc` and `asprintf` are taken to succeed. -/
def makebynameWith {W : Type} (os : OS W)
    (mk : Nat → Option Str → Option Str → State W → Res W) (name : Str) (s : State W) : Res W :=
  match findExplicit name s.rules 0 with
  | some k => mk k none none s
  | none =>
    match strchr name '.' with
    | some i =>
      match findTwoSuffix name i s.rules 0 with
      | some (k, src) => mk k (some src) (some name) s
      | none => leaf os name s
    | none =>
      match findOneSuffix name s.rules 0 with
      | some (k, src) => mk k (some src) (some name) s
      | none => leaf os name s

/-- `make`, with at most `n` nested `make` calls. -/
def make {W : Type} (os : OS W) (fl : Flags) :
    Nat → Nat → Option Str → Option Str → State W → Res W
  | 0 => fun _ _ _ _ => .error .fuel
  | n + 1 => makeWith os fl (makebynameWith os (make os fl n))

/-- `makebyname`, with at most `n` nested `make` calls. -/
def makebyname {W : Type} (os : OS W) (fl : Flags) (n : Nat) (name : Str) (s : State W) : Res W :=
  makebynameWith os (make os fl n) name s

/-! ## `main` (lines 293-309) -/

/-- The scan of lines 297-299, `for (r = rules; r->next; r = r->next)`, from
position `k` with `def` so far: every entry but the last is looked at, and
the last explicit one is kept.  With an empty list `r->next` dereferences
`NULL`. -/
def pickDefault : List Rule → Nat → Option Nat → Except Fault (Option Nat)
  | [], _, _ => .error .nullDeref
  | [_], _, d => .ok d
  | r :: r' :: rs, k, d => pickDefault (r' :: rs) (k + 1) (if isExplicit r then some k else d)

/-- The loop of lines 306-307 over the command-line targets. -/
def runTargets {W : Type} (os : OS W) (fl : Flags) (n : Nat) :
    List Str → State W → Except Fault (State W)
  | [], s => .ok s
  | a :: rest, s =>
    match makebyname os fl n a s with
    | .error e => .error e
    | .ok (_, s1) => runTargets os fl n rest s1

/-- Lines 293-309 of `main`, once the options are read and the rules loaded:
`argv` holds the target names left on the command line.  The value is the
exit status of the process: `fail` when `main` returns, 1 when `errx` ends the
run. -/
def main {W : Type} (os : OS W) (fl : Flags) (n : Nat) (argv : List Str) (s : State W) : Res W :=
  match argv with
  | [] =>
    match pickDefault s.rules 0 none with
    | .error e => .error e
    | .ok none => .ok (1, { s with log := s.log ++ [Event.noDefaultTarget] })
    | .ok (some k) =>
      match make os fl n k none none s with
      | .error e => .error e
      | .ok (_, s1) => .ok (s1.fail, s1)
  | _ :: _ =>
    match runTargets os fl n argv s with
    | .error e => .error e
    | .ok s1 => .ok (s1.fail, s1)

/-! ## The expansion as the specification words it -/

/-- The left-to-right rewriting of a template as the specification describes
it: `$@` becomes the target, `$<` the source, `$` followed by another
character is kept with that character, anything else is copied. -/
def rewriteSpec (src target : Str) : Str → Str
  | [] => []
  | [c] => [c]
  | c :: d :: rest =>
    if c = '$' then
      if d = '@' then target ++ rewriteSpec src target rest
      else if d = '<' then src ++ rewriteSpec src target rest
      else c :: d :: rewriteSpec src target rest
    else c :: rewriteSpec src target (d :: rest)

/-- The template ends in a `$` that is not the second character of a marker. -/
def danglingDollar : Str → Bool
  | [] => false
  | [c] => decide (c = '$')
  | c :: d :: rest => if c = '$' then danglingDollar rest else danglingDollar (d :: rest)

/-- The leading modifier characters of `docmd`. -/
def isModifier (c : Char) : Bool := decide (c = '-') || decide (c = '@')

/-! ## The result of `docmd` -/

/-- The log entries one `docmd` call adds, given what `prepare` yields. -/
def docmdEvents (fl : Flags) (noecho : Bool) (sp : Str) : List Event :=
  (if !noecho && !fl.sflag then [Event.echo sp] else [])
    ++ (if fl.nflag then [] else [Event.exec sp])

/-- The value `docmd` returns, given `iexit` and the shell's status. -/
def docmdValue (fl : Flags) (iexit : Bool) (status : Int) : Int :=
  if fl.nflag = true ∨ iexit = true ∨ status = 0 then 0 else 1

/-! ## Name resolution as the specification words it -/

/-- The text of `s` before its first `.` (all of `s` when it has none). -/
def beforeDot (s : Str) : Str := s.takeWhile (fun x => decide (x ≠ '.'))

/-- The text of `s` from its first `.` onward (empty when it has none). -/
def fromDot (s : Str) : Str := s.dropWhile (fun x => decide (x ≠ '.'))

/-- There is an explicit rule with exactly this name. -/
def hasExplicit (name : Str) (rules : List Rule) : Prop :=
  ∃ r ∈ rules, r.output.head? ≠ some '.' ∧ r.output = name

/-- The output starts with `.`, contains a second `.`, and its text from the
second `.` onward equals the name's text from its first `.` onward. -/
def matchesTwoSuffix (name : Str) (r : Rule) : Bool :=
  match r.output with
  | [] => false
  | c :: t => decide (c = '.') && decide ('.' ∈ t) && decide (fromDot t = fromDot name)

/-- The text of a pattern rule's output before its second `.`. -/
def beforeSecondDot (out : Str) : Str :=
  match out with
  | [] => []
  | c :: t => c :: beforeDot t

/-- The output starts with `.` and contains no further `.`. -/
def isOneSuffix (r : Rule) : Bool :=
  match r.output with
  | [] => false
  | c :: t => decide (c = '.') && decide ('.' ∉ t)

/-! ## The rule list along a run -/

/-- Rule `y` is rule `x` with its `done` flag possibly raised. -/
def RuleLe (x y : Rule) : Prop :=
  y.output = x.output ∧ y.input = x.input ∧ y.cmds = x.cmds ∧ (x.done = true → y.done = true)

/-- Rule list `b` is rule list `a` with some `done` flags raised. -/
def Extends (a b : List Rule) : Prop := List.Forall₂ RuleLe a b

/-- A call that, when it returns, has at most raised `done` flags. -/
def Frame {W : Type} (f : State W → Res W) : Prop :=
  ∀ s ret s', f s = .ok (ret, s') → Extends s.rules s'.rules

/-! ## Timestamps -/

/-- The modification times that the `stat` calls of the prerequisite loop
obtain, in the order of the prerequisites; a prerequisite whose `stat` fails
contributes none. -/
def seen {W : Type} (os : OS W) (mkbn : Str → State W → Res W) : List Str → State W → List Timespec
  | [], _ => []
  | x :: xs, s =>
    match mkbn x s with
    | .error _ => []
    | .ok (_, s1) => (os.stat s1.world x).toList ++ seen os mkbn xs s1

/-! ## Staleness -/

/-- An environment with two files dated before the epoch: the target `t`
(5 s before) and its prerequisite `p` (10 s before). -/
def preEpochOS : OS Unit :=
  { stat := fun _ n =>
      if n = "t".data then some ⟨-5, 0⟩ else if n = "p".data then some ⟨-10, 0⟩ else none
    access := fun _ _ => true
    system := fun _ _ => (0, ()) }

/-- An environment in which `a.o` (time 7) is newer than `a.c` (time 5). -/
def freshOS : OS Unit :=
  { stat := fun _ n =>
      if n = "a.o".data then some ⟨7, 0⟩ else if n = "a.c".data then some ⟨5, 0⟩ else none
    access := fun _ _ => true
    system := fun _ _ => (0, ()) }

/-! ## Rules without prerequisites -/

/-- An environment in which the file `t` exists, with time 5. -/
def existingOS : OS Unit :=
  { stat := fun _ n => if n = "t".data then some ⟨5, 0⟩ else none
    access := fun _ n => decide (n = "t".data)
    system := fun _ _ => (0, ()) }

/-! ## Completed rules -/

/-- One step of a run, as far as later calls can tell: a `make`, `makebyname`
or `docmd` call that returned, or the entry into a `make` call that has not
returned yet. -/
inductive Step {W : Type} (os : OS W) (fl : Flags) : State W → State W → Prop where
  | make (n i : Nat) (src target : Option Str) (s : State W) (ret : Int) (s' : State W) :
      Umake.make os fl n i src target s = .ok (ret, s') → Step os fl s s'
  | makebyname (n : Nat) (name : Str) (s : State W) (ret : Int) (s' : State W) :
      Umake.makebyname os fl n name s = .ok (ret, s') → Step os fl s s'
  | docmd (cmd : Str) (src target : Option Str) (s : State W) (ret : Int) (s' : State W) :
      Umake.docmd os fl cmd src target s = .ok (ret, s') → Step os fl s s'
  | enter (r : Rule) (src target : Option Str) (s : State W) :
      Step os fl s (Umake.enter fl r src target s)

/-- State `s'` occurs later than state `s` in the same run. -/
def Later {W : Type} (os : OS W) (fl : Flags) (s s' : State W) : Prop :=
  Relation.ReflTransGen (Step os fl) s s'

/-! ## The recursion ceiling -/

/-- The entry is the echo of a command or its execution. -/
def Event.isCmd : Event → Bool
  | .echo _ => true
  | .exec _ => true
  | _ => false

/-- The positions `ks` are a linear chain in `rules`: each is an explicit rule
that is not completed; the only prerequisite of each but the last is the
output of the next, which the first loop of `makebyname` resolves to that next
rule; the last has an empty prerequisite list. -/
def Chain (rules : List Rule) : List Nat → Prop
  | [] => False
  | [k] => ∃ r, ruleAt rules k = some r ∧ isExplicit r = true ∧ r.done = false
      ∧ r.input = some []
  | k :: k' :: ks => ∃ r r', ruleAt rules k = some r ∧ isExplicit r = true ∧ r.done = false
      ∧ ruleAt rules k' = some r' ∧ r.input = some [r'.output]
      ∧ findExplicit r'.output rules 0 = some k' ∧ Chain rules (k' :: ks)

/-- Lines 44-78 of `docmd` are defined on every command of the rules at `ks`,
with the source and target `make` gives them when entered without overrides. -/
def CmdsDefined (rules : List Rule) (ks : List Nat) : Prop :=
  ∀ k ∈ ks, ∀ r, ruleAt rules k = some r → ∀ c ∈ r.cmds.getD [],
    ∃ res, prepare c (defaultSrc r none) (some r.output) = .ok res

/-- A chain of eleven rules `r1`, ..., `r11`. -/
def chain11 : List Rule :=
  [⟨"r1".data, some ["r2".data], some ["touch $@".data], false⟩,
   ⟨"r2".data, some ["r3".data], some ["touch $@".data], false⟩,
   ⟨"r3".data, some ["r4".data], some ["touch $@".data], false⟩,
   ⟨"r4".data, some ["r5".data], some ["touch $@".data], false⟩,
   ⟨"r5".data, some ["r6".data], some ["touch $@".data], false⟩,
   ⟨"r6".data, some ["r7".data], some ["touch $@".data], false⟩,
   ⟨"r7".data, some ["r8".data], some ["touch $@".data], false⟩,
   ⟨"r8".data, some ["r9".data], some ["touch $@".data], false⟩,
   ⟨"r9".data, some ["r10".data], some ["touch $@".data], false⟩,
   ⟨"r10".data, some ["r11".data], some ["touch $@".data], false⟩,
   ⟨"r11".data, some [], some ["touch $@".data], false⟩]

/-- A chain of ten rules `r1`, ..., `r10`. -/
def chain10 : List Rule :=
  [⟨"r1".data, some ["r2".data], some ["touch $@".data], false⟩,
   ⟨"r2".data, some ["r3".data], some ["touch $@".data], false⟩,
   ⟨"r3".data, some ["r4".data], some ["touch $@".data], false⟩,
   ⟨"r4".data, some ["r5".data], some ["touch $@".data], false⟩,
   ⟨"r5".data, some ["r6".data], some ["touch $@".data], false⟩,
   ⟨"r6".data, some ["r7".data], some ["touch $@".data], false⟩,
   ⟨"r7".data, some ["r8".data], some ["touch $@".data], false⟩,
   ⟨"r8".data, some ["r9".data], some ["touch $@".data], false⟩,
   ⟨"r9".data, some ["r10".data], some ["touch $@".data], false⟩,
   ⟨"r10".data, some [], some ["touch $@".data], false⟩]

/-! ## The commands of a rule -/

/-- The entry is a `system` call. -/
def Event.isExec : Event → Bool
  | .exec _ => true
  | _ => false

/-- The log entries the command loop adds for a list of commands, in order:
for each command, what `docmd` adds for it. -/
def cmdEvents (fl : Flags) (src target : Option Str) : List Str → List Event
  | [] => []
  | c :: cs =>
    (match prepare c src target with
      | .ok (_, noecho, sp) => docmdEvents fl noecho sp
      | .error _ => []) ++ cmdEvents fl src target cs

/-- An environment with no file at all, in which every command fails. -/
def failingOS : OS Unit :=
  { stat := fun _ _ => none
    access := fun _ _ => false
    system := fun _ _ => (1, ()) }

/-! ## The end-to-end scenario -/

/-- The explicit rule `app: app.o` with the command `cc -o $@ $<`. -/
def appRule : Rule := ⟨"app".data, some ["app.o".data], some ["cc -o $@ $<".data], false⟩

/-- The pattern rule `.c.o` with no prerequisites and the command `cc -c $< -o $@`. -/
def objRule : Rule := ⟨".c.o".data, some [], some ["cc -c $< -o $@".data], false⟩

/-- The rule table of the end-to-end scenario. -/
def appTable : List Rule := [appRule, objRule]

/-- An environment whose state is the list of existing files; the two
commands of the scenario create `app.o` and `app`. -/
def ccOS : OS (List Str) :=
  { stat := fun w n => if n ∈ w then some ⟨1, 0⟩ else none
    access := fun w n => decide (n ∈ w)
    system := fun w c =>
      if c = "cc -c app.c -o app.o".data then (0, "app.o".data :: w)
      else if c = "cc -o app app.o".data then (0, "app".data :: w)
      else (1, w) }

/-! ## Relations kept by every step of a run -/

/-- A relation between an earlier and a later state that holds across each
elementary state change of `make` and `makebyname`: the recursion-limit return,
the entry into `make`, a `docmd` call, `depth--`, `r->done = 1` on an explicit
rule, and the failure path of `makebyname`. -/
structure StepInv {W : Type} (os : OS W) (fl : Flags) (R : State W → State W → Prop) : Prop where
  refl : ∀ s, R s s
  trans : ∀ a b c, R a b → R b c → R a c
  limit : ∀ s, R s { s with depth := s.depth + 1, log := s.log ++ [Event.recursionLimit] }
  enter : ∀ r src target s, R s (Umake.enter fl r src target s)
  docmd : ∀ cmd src target s ret s', Umake.docmd os fl cmd src target s = .ok (ret, s') → R s s'
  leave : ∀ s, R s { s with depth := s.depth - 1 }
  done : ∀ s i r, ruleAt s.rules i = some r → isExplicit r = true →
    R s { s with rules := setDone s.rules i }
  noRule : ∀ s name, R s { s with fail := 1, log := s.log ++ [Event.noRule name] }

/-! ## The rule table is only ever completed -/

/-- Rule `y` is rule `x` with its `done` flag possibly raised, and raised only
if `x` is an explicit rule. -/
def RuleKeep (x y : Rule) : Prop :=
  y.output = x.output ∧ y.input = x.input ∧ y.cmds = x.cmds ∧ (x.done = true → y.done = true)
    ∧ (isExplicit x = false → y.done = x.done)

/-- Rule list `b` has the rules of `a`, in the same order, with the same
output, prerequisites and commands; `done` flags may have gone from false to
true, on explicit rules only. -/
def Keeps (a b : List Rule) : Prop := List.Forall₂ RuleKeep a b

/-! ## The exit status -/

/-- The entry is the `No rule to make target` report. -/
def Event.isNoRule : Event → Bool
  | .noRule _ => true
  | _ => false

/-- From `s` to `s'` the log has grown by entries other than `no default
target`, and `fail` is 1 if a `No rule to make target` report is among them
and is unchanged otherwise. -/
def FailLog {W : Type} (s s' : State W) : Prop :=
  ∃ evs, s'.log = s.log ++ evs ∧ Event.noDefaultTarget ∉ evs
    ∧ s'.fail = (if evs.any Event.isNoRule then 1 else s.fail)

/-! ## The depth counter -/

/-- From `s` to `s'` the log has grown, and `depth` has grown by the number of
`recursion limit exceeded` reports among the new entries. -/
def DepthLog {W : Type} (s s' : State W) : Prop :=
  ∃ evs, s'.log = s.log ++ evs ∧ s'.depth = s.depth + (evs.count Event.recursionLimit : Nat)

/-! ## Expansion -/

theorem expand_eq_rewriteSpec_aux (src target : Str) (n : Nat) :
    ∀ (cmd buf : Str) (term : Bool), cmd.length ≤ n → danglingDollar cmd = false →
      (buf ++ rewriteSpec src target cmd).length < BUFSIZE →
      ∃ t, expand (some src) (some target) cmd buf term
        = .ok (buf ++ rewriteSpec src target cmd, t) := by
  induction n with
  | zero =>
    intro cmd buf term hlen _ _
    have : cmd = [] := List.length_eq_zero.mp (Nat.le_zero.mp hlen)
    subst this
    exact ⟨term, by simp [expand, rewriteSpec]⟩
  | succ n ih =>
    intro cmd buf term hlen hd hfit
    match cmd, hlen, hd, hfit with
    | [], _, _, _ => exact ⟨term, by simp [expand, rewriteSpec]⟩
    | [c], _, hd, hfit =>
      have hc : c ≠ '$' := by simpa [danglingDollar] using hd
      simp only [rewriteSpec, List.length_append, List.length_singleton] at hfit
      refine ⟨false, ?_⟩
      simp [expand, hc, rewriteSpec, Nat.not_lt.mpr (Nat.le_of_lt hfit)]
    | c :: d :: rest, hlen, hd, hfit =>
      simp only [List.length_cons] at hlen
      by_cases hc : c = '$'
      · subst hc
        have hd' : danglingDollar rest = false := by simpa [danglingDollar] using hd
        by_cases h1 : d = '@'
        · subst h1
          have hfit' : ((buf ++ target) ++ rewriteSpec src target rest).length < BUFSIZE := by
            simpa [rewriteSpec, List.append_assoc] using hfit
          obtain ⟨t, ht⟩ := ih rest (buf ++ target) true (by omega) hd' hfit'
          refine ⟨t, ?_⟩
          have hb : ¬ BUFSIZE < buf.length + target.length + 1 := by
            simp only [List.length_append] at hfit'; omega
          simp [expand, hb, ht, rewriteSpec]
        · by_cases h2 : d = '<'
          · subst h2
            have hfit' : ((buf ++ src) ++ rewriteSpec src target rest).length < BUFSIZE := by
              simpa [rewriteSpec, List.append_assoc] using hfit
            obtain ⟨t, ht⟩ := ih rest (buf ++ src) true (by omega) hd' hfit'
            refine ⟨t, ?_⟩
            have hb : ¬ BUFSIZE < buf.length + src.length + 1 := by
              simp only [List.length_append] at hfit'; omega
            simp [expand, hb, ht, rewriteSpec]
          · have hfit' : ((buf ++ ['$', d]) ++ rewriteSpec src target rest).length
                < BUFSIZE := by
              simpa [rewriteSpec, h1, h2, List.append_assoc] using hfit
            obtain ⟨t, ht⟩ := ih rest (buf ++ ['$', d]) false (by omega) hd' hfit'
            refine ⟨t, ?_⟩
            have hb : ¬ BUFSIZE < buf.length + 2 := by
              simp only [List.length_append, List.length_cons, List.length_nil] at hfit'; omega
            simp [expand, hb, ht, rewriteSpec, h1, h2]
      · have hd' : danglingDollar (d :: rest) = false := by simpa [danglingDollar, hc] using hd
        have hfit' : ((buf ++ [c]) ++ rewriteSpec src target (d :: rest)).length < BUFSIZE := by
          simpa [rewriteSpec, hc, List.append_assoc] using hfit
        obtain ⟨t, ht⟩ := ih (d :: rest) (buf ++ [c]) false (by simp; omega) hd' hfit'
        refine ⟨t, ?_⟩
        have hb : ¬ BUFSIZE < buf.length + 1 := by
          simp only [List.length_append, List.length_cons, List.length_nil] at hfit'; omega
        simp [expand, hc, hb, ht, rewriteSpec]

/-- C5: for every template that does not end in an unpaired `$` and whose
expansion (with its terminator) fits the 4096-byte buffer, the expansion loop
of `docmd` leaves in `buf` exactly the left-to-right rewriting of the template
in which `$@` is the target, `$<` the source, `$c` is kept as `$c` and every
other character is copied; inserted text is not scanned again. -/
theorem expand_eq_rewriteSpec (cmd src target : Str)
    (hd : danglingDollar cmd = false)
    (hfit : (rewriteSpec src target cmd).length + 1 ≤ BUFSIZE) :
    ∃ t, expand (some src) (some target) cmd [] false
      = .ok (rewriteSpec src target cmd, t) := by
  have h := expand_eq_rewriteSpec_aux src target cmd.length cmd [] false (Nat.le_refl _) hd
    (by simpa using hfit)
  simpa using h

/-- Instance of the expansion theorem: the inserted texts `a$@` and `$<.c` themselves contain markers and are copied as they are. -/
theorem expand_eq_rewriteSpec_witness :
    ∃ t, expand (some "$<.c".data) (some "a$@".data) "x $@ $< $$ y$z".data [] false
      = .ok (rewriteSpec "$<.c".data "a$@".data "x $@ $< $$ y$z".data, t) :=
  expand_eq_rewriteSpec "x $@ $< $$ y$z".data "$<.c".data "a$@".data (by decide) (by decide)

/-! ## Leading modifiers -/

/-- Where the scan stops on a written byte, or on the NUL a `strcpy` left at
`buf[dp]`, it consumes exactly the maximal leading run of `-` and `@`. -/
theorem scan_eq_dropWhile (term : Bool) (buf : Str) :
    ∀ (iexit noecho : Bool), (term = true ∨ ∃ c ∈ buf, isModifier c = false) →
      scan term buf iexit noecho
        = .ok (iexit || decide ('-' ∈ buf.takeWhile isModifier),
               noecho || decide ('@' ∈ buf.takeWhile isModifier),
               buf.dropWhile isModifier) := by
  induction buf with
  | nil =>
    intro iexit noecho h
    rcases h with h | ⟨c, hc, _⟩
    · simp [scan, h]
    · simp at hc
  | cons c rest ih =>
    intro iexit noecho h
    have hrest : isModifier c = true → (term = true ∨ ∃ c ∈ rest, isModifier c = false) := by
      intro hm
      rcases h with h | ⟨x, hx, hxm⟩
      · exact Or.inl h
      · rcases List.mem_cons.mp hx with rfl | hx
        · simp [hm] at hxm
        · exact Or.inr ⟨x, hx, hxm⟩
    by_cases h1 : c = '-'
    · subst h1
      have hm : isModifier '-' = true := by decide
      rw [scan, if_pos rfl, ih _ _ (hrest hm)]
      simp [List.takeWhile_cons, List.dropWhile_cons, hm]
    · by_cases h2 : c = '@'
      · subst h2
        have hm : isModifier '@' = true := by decide
        rw [scan, if_neg h1, if_pos rfl, ih _ _ (hrest hm)]
        simp [List.takeWhile_cons, List.dropWhile_cons, hm]
      · have hm : isModifier c = false := by simp [isModifier, h1, h2]
        rw [scan, if_neg h1, if_neg h2]
        simp [List.takeWhile_cons, List.dropWhile_cons, hm]

/-- C6: on the template `-` (as on `@`, on `-@` and on the empty template) the
modifier scan of `docmd` runs to the end of the bytes written to `buf` and
reads `buf[dp]` before line 78 stores the terminator there: the string handed
to the shell is not determined by the program, whatever the flags, the
source, the target and the state. -/
theorem docmd_only_modifiers_uninit {W : Type} (os : OS W) (fl : Flags)
    (src target : Option Str) (s : State W) :
    docmd os fl ['-'] src target s = .error .uninitRead
    ∧ docmd os fl ['@'] src target s = .error .uninitRead
    ∧ docmd os fl ['-', '@'] src target s = .error .uninitRead
    ∧ docmd os fl [] src target s = .error .uninitRead := by
  refine ⟨rfl, rfl, rfl, rfl⟩

/-! ## The result of `docmd` -/

theorem docmd_step {W : Type} (os : OS W) (fl : Flags) (cmd : Str) (src target : Option Str)
    (s : State W) (iexit noecho : Bool) (sp : Str)
    (hprep : prepare cmd src target = .ok (iexit, noecho, sp)) :
    docmd os fl cmd src target s
      = .ok (docmdValue fl iexit (os.system s.world sp).1,
          { s with world := (if fl.nflag then s.world else (os.system s.world sp).2),
                   log := s.log ++ docmdEvents fl noecho sp }) := by
  cases hn : fl.nflag <;> cases hs : fl.sflag <;> cases iexit <;> cases noecho <;>
    by_cases hst : (os.system s.world sp).1 = 0 <;>
    simp [docmd, hprep, hn, hs, hst, docmdEvents, docmdValue]

/-- C7: whenever lines 44-78 are defined on the command, source and target
(yielding `iexit`, `noecho` and the string `sp`), `docmd` returns, and its
value is 0 if the run is dry-run (no `system` call is made and the
environment is untouched), or if `iexit` is set, or if the shell reports
status zero, and 1 otherwise, never anything else; the string is echoed iff
neither `noecho` nor `sflag` is set.  The template `-@cc -o $@ $<` with source
`a.c` and target `a.o` hands exactly `cc -o a.o a.c` to the shell, echoes
nothing and returns 0 whatever the subprocess returns. -/
theorem docmd_result {W : Type} (os : OS W) (fl : Flags) (cmd : Str) (src target : Option Str)
    (s : State W) (iexit noecho : Bool) (sp : Str)
    (hprep : prepare cmd src target = .ok (iexit, noecho, sp)) :
    docmd os fl cmd src target s
        = .ok (docmdValue fl iexit (os.system s.world sp).1,
            { s with world := (if fl.nflag then s.world else (os.system s.world sp).2),
                     log := s.log ++ docmdEvents fl noecho sp })
    ∧ (docmdValue fl iexit (os.system s.world sp).1 = 0
        ∨ docmdValue fl iexit (os.system s.world sp).1 = 1)
    ∧ (fl.nflag = true → ∀ l, Event.exec l ∉ docmdEvents fl noecho sp)
    ∧ (fl.nflag = false →
        docmd os fl "-@cc -o $@ $<".data (some "a.c".data) (some "a.o".data) s
          = .ok (0, { s with world := (os.system s.world "cc -o a.o a.c".data).2,
                             log := s.log ++ [Event.exec "cc -o a.o a.c".data] })) := by
  refine ⟨?_, ?_, ?_, ?_⟩
  · exact docmd_step os fl cmd src target s iexit noecho sp hprep
  · unfold docmdValue
    split <;> simp
  · intro hn l
    simp [docmdEvents, hn]
  · intro hn
    have hp : prepare "-@cc -o $@ $<".data (some "a.c".data) (some "a.o".data)
        = .ok (true, true, "cc -o a.o a.c".data) := rfl
    simp [docmd, hp, hn]

/-- Instance of the result theorem: `@-false $<` with source `x`, the shell reporting status 2. -/
theorem docmd_result_witness :
    docmd (⟨fun _ _ => none, fun _ _ => false, fun _ _ => (2, ())⟩ : OS Unit)
        ⟨false, false, false⟩ "@-false $<".data (some "x".data) none ⟨[], 0, 0, (), []⟩
      = .ok (0, ⟨[], 0, 0, (), [Event.exec "false x".data]⟩) :=
  (docmd_result (⟨fun _ _ => none, fun _ _ => false, fun _ _ => (2, ())⟩ : OS Unit)
      ⟨false, false, false⟩ "@-false $<".data (some "x".data) none ⟨[], 0, 0, (), []⟩
      true true "false x".data rfl).1

/-! ## `strchr` -/

theorem strchr_of_mem (c : Char) : ∀ (s : Str), c ∈ s →
    ∃ i, strchr s c = some i ∧ s.take i = s.takeWhile (fun x => decide (x ≠ c))
      ∧ s.drop i = s.dropWhile (fun x => decide (x ≠ c)) := by
  intro s
  induction s with
  | nil => intro h; simp at h
  | cons x xs ih =>
    intro h
    by_cases hx : x = c
    · exact ⟨0, by simp [strchr, hx], by simp [List.takeWhile_cons, hx],
        by simp [List.dropWhile_cons, hx]⟩
    · have hmem : c ∈ xs := by
        rcases List.mem_cons.mp h with h | h
        · exact absurd h.symm hx
        · exact h
      obtain ⟨i, h1, h2, h3⟩ := ih hmem
      exact ⟨i + 1, by simp [strchr, hx, h1], by simp [List.takeWhile_cons, hx, h2],
        by simp [List.dropWhile_cons, hx, h3]⟩

theorem strchr_of_not_mem (c : Char) : ∀ (s : Str), c ∉ s → strchr s c = none := by
  intro s
  induction s with
  | nil => intro _; rfl
  | cons x xs ih =>
    intro h
    have hx : x ≠ c := fun e => h (by simp [e])
    have hxs : c ∉ xs := fun e => h (List.mem_cons_of_mem _ e)
    simp [strchr, hx, ih hxs]

theorem strchr_dot_name (name : Str) (h : '.' ∈ name) :
    ∃ i, strchr name '.' = some i ∧ name.take i = beforeDot name ∧ name.drop i = fromDot name :=
  strchr_of_mem '.' name h

/-! ## The three loops of `makebyname` -/

theorem findExplicit_none (name : Str) : ∀ (rules : List Rule) (k : Nat),
    ¬ hasExplicit name rules → findExplicit name rules k = none := by
  intro rules
  induction rules with
  | nil => intro k _; rfl
  | cons r rs ih =>
    intro k h
    have h1 : ¬ (isExplicit r = true ∧ r.output = name) := by
      intro ⟨ha, hb⟩
      exact h ⟨r, by simp, by simpa [isExplicit] using ha, hb⟩
    have h2 : ¬ hasExplicit name rs := by
      intro ⟨r', hr', hx⟩
      exact h ⟨r', List.mem_cons_of_mem _ hr', hx⟩
    have h3 : (isExplicit r && decide (r.output = name)) = false := by
      cases he : isExplicit r
      · simp
      · simp only [Bool.true_and, decide_eq_false_iff_not]
        exact fun hb => h1 ⟨he, hb⟩
    simp [findExplicit, h3, ih (k + 1) h2]

theorem findExplicit_some (name : Str) : ∀ (rules : List Rule) (k0 k : Nat) (r : Rule),
    ruleAt rules k = some r → isExplicit r = true → r.output = name →
    (∀ j r', j < k → ruleAt rules j = some r' → ¬ (isExplicit r' = true ∧ r'.output = name)) →
    findExplicit name rules k0 = some (k0 + k) := by
  intro rules
  induction rules with
  | nil => intro k0 k r h; simp [ruleAt] at h
  | cons x xs ih =>
    intro k0 k r hk he hn hfirst
    cases k with
    | zero =>
      simp only [ruleAt, Option.some.injEq] at hk
      subst hk
      simp [findExplicit, he, hn]
    | succ k =>
      have hx : ¬ (isExplicit x = true ∧ x.output = name) := hfirst 0 x (by omega) rfl
      have h3 : (isExplicit x && decide (x.output = name)) = false := by
        cases he' : isExplicit x
        · simp
        · simp only [Bool.true_and, decide_eq_false_iff_not]
          exact fun hb => hx ⟨he', hb⟩
      have := ih (k0 + 1) k r (by simpa [ruleAt] using hk) he hn
        (fun j r' hj hr' => hfirst (j + 1) r' (by omega) (by simpa [ruleAt] using hr'))
      simp [findExplicit, h3, this]
      omega

theorem isExplicit_dot_cons (r : Rule) (t : Str) (h : r.output = '.' :: t) :
    isExplicit r = false := by
  simp [isExplicit, h]

theorem findTwoSuffix_step_match (name : Str) (i : Nat)
    (h1 : name.take i = beforeDot name) (h2 : name.drop i = fromDot name)
    (r : Rule) (hm : matchesTwoSuffix name r = true) (rs : List Rule) (k : Nat) :
    findTwoSuffix name i (r :: rs) k
      = some (k, beforeDot name ++ beforeSecondDot r.output) := by
  unfold matchesTwoSuffix at hm
  match ho : r.output, hm with
  | [], hm => simp at hm
  | c :: t, hm =>
    simp only [Bool.and_eq_true, decide_eq_true_eq] at hm
    obtain ⟨⟨hc, ht⟩, hf⟩ := hm
    subst hc
    obtain ⟨j, hj, hj1, hj2⟩ := strchr_of_mem '.' t ht
    have hdrop : ('.' :: t).drop (1 + j) = fromDot name := by
      rw [Nat.add_comm, List.drop_succ_cons, hj2]; exact hf
    have htake : ('.' :: t).take (1 + j) = '.' :: beforeDot t := by
      rw [Nat.add_comm, List.take_succ_cons, hj1]; rfl
    have hd1 : ('.' :: t).drop 1 = t := rfl
    rw [findTwoSuffix, isExplicit_dot_cons r t ho]
    simp only [Bool.false_eq_true, if_false, ho, hd1, hj, hdrop, h2, ne_eq, not_true_eq_false,
      htake, h1, beforeSecondDot]

theorem findTwoSuffix_step_nomatch (name : Str) (i : Nat)
    (h2 : name.drop i = fromDot name)
    (r : Rule) (hm : matchesTwoSuffix name r = false) (rs : List Rule) (k : Nat) :
    findTwoSuffix name i (r :: rs) k = findTwoSuffix name i rs (k + 1) := by
  unfold matchesTwoSuffix at hm
  match ho : r.output, hm with
  | [], _ =>
    have : isExplicit r = true := by simp [isExplicit, ho]
    rw [findTwoSuffix, this]; simp
  | c :: t, hm =>
    by_cases hc : c = '.'
    · subst hc
      have hd1 : ('.' :: t).drop 1 = t := rfl
      rw [findTwoSuffix, isExplicit_dot_cons r t ho]
      by_cases ht : '.' ∈ t
      · obtain ⟨j, hj, _, hj2⟩ := strchr_of_mem '.' t ht
        have hf : fromDot t ≠ fromDot name := by simpa [ht] using hm
        have hdrop : ('.' :: t).drop (1 + j) = fromDot t := by
          rw [Nat.add_comm, List.drop_succ_cons, hj2]; rfl
        have hne : name.drop i ≠ ('.' :: t).drop (1 + j) := by
          rw [h2, hdrop]; exact fun e => hf e.symm
        simp only [Bool.false_eq_true, if_false, ho, hd1, hj, hne, ne_eq, not_false_eq_true,
          if_true]
      · simp only [Bool.false_eq_true, if_false, ho, hd1, strchr_of_not_mem '.' t ht]
    · have : isExplicit r = true := by simp [isExplicit, ho, hc]
      rw [findTwoSuffix, this]; simp

theorem findTwoSuffix_first (name : Str) (i : Nat)
    (h1 : name.take i = beforeDot name) (h2 : name.drop i = fromDot name) :
    ∀ (rules : List Rule) (k0 k : Nat) (r : Rule), ruleAt rules k = some r →
      matchesTwoSuffix name r = true →
      (∀ j r', j < k → ruleAt rules j = some r' → matchesTwoSuffix name r' = false) →
      findTwoSuffix name i rules k0
        = some (k0 + k, beforeDot name ++ beforeSecondDot r.output) := by
  intro rules
  induction rules with
  | nil => intro k0 k r h; simp [ruleAt] at h
  | cons x xs ih =>
    intro k0 k r hk hm hfirst
    cases k with
    | zero =>
      simp only [ruleAt, Option.some.injEq] at hk
      subst hk
      simpa using findTwoSuffix_step_match name i h1 h2 x hm xs k0
    | succ k =>
      rw [findTwoSuffix_step_nomatch name i h2 x (hfirst 0 x (by omega) rfl) xs k0,
        ih (k0 + 1) k r (by simpa [ruleAt] using hk) hm
          (fun j r' hj hr' => hfirst (j + 1) r' (by omega) (by simpa [ruleAt] using hr'))]
      congr 2; omega

theorem findTwoSuffix_none (name : Str) (i : Nat) (h2 : name.drop i = fromDot name) :
    ∀ (rules : List Rule) (k0 : Nat), (∀ r ∈ rules, matchesTwoSuffix name r = false) →
      findTwoSuffix name i rules k0 = none := by
  intro rules
  induction rules with
  | nil => intro k0 _; rfl
  | cons x xs ih =>
    intro k0 h
    rw [findTwoSuffix_step_nomatch name i h2 x (h x (by simp)) xs k0]
    exact ih (k0 + 1) (fun r hr => h r (List.mem_cons_of_mem _ hr))

theorem findOneSuffix_step_match (name : Str) (r : Rule) (hm : isOneSuffix r = true)
    (rs : List Rule) (k : Nat) :
    findOneSuffix name (r :: rs) k = some (k, name ++ r.output) := by
  unfold isOneSuffix at hm
  match ho : r.output, hm with
  | [], hm => simp at hm
  | c :: t, hm =>
    simp only [Bool.and_eq_true, decide_eq_true_eq] at hm
    obtain ⟨hc, ht⟩ := hm
    subst hc
    have hd1 : ('.' :: t).drop 1 = t := rfl
    rw [findOneSuffix, isExplicit_dot_cons r t ho]
    simp only [Bool.false_eq_true, if_false, ho, hd1, strchr_of_not_mem '.' t ht]

theorem findOneSuffix_step_nomatch (name : Str) (r : Rule) (hm : isOneSuffix r = false)
    (rs : List Rule) (k : Nat) :
    findOneSuffix name (r :: rs) k = findOneSuffix name rs (k + 1) := by
  unfold isOneSuffix at hm
  match ho : r.output, hm with
  | [], _ =>
    have : isExplicit r = true := by simp [isExplicit, ho]
    rw [findOneSuffix, this]; simp
  | c :: t, hm =>
    by_cases hc : c = '.'
    · subst hc
      have hd1 : ('.' :: t).drop 1 = t := rfl
      have ht : '.' ∈ t := by simpa using hm
      obtain ⟨j, hj, _, _⟩ := strchr_of_mem '.' t ht
      rw [findOneSuffix, isExplicit_dot_cons r t ho]
      simp only [Bool.false_eq_true, if_false, ho, hd1, hj]
    · have : isExplicit r = true := by simp [isExplicit, ho, hc]
      rw [findOneSuffix, this]; simp

theorem findOneSuffix_first (name : Str) :
    ∀ (rules : List Rule) (k0 k : Nat) (r : Rule), ruleAt rules k = some r →
      isOneSuffix r = true →
      (∀ j r', j < k → ruleAt rules j = some r' → isOneSuffix r' = false) →
      findOneSuffix name rules k0 = some (k0 + k, name ++ r.output) := by
  intro rules
  induction rules with
  | nil => intro k0 k r h; simp [ruleAt] at h
  | cons x xs ih =>
    intro k0 k r hk hm hfirst
    cases k with
    | zero =>
      simp only [ruleAt, Option.some.injEq] at hk
      subst hk
      simpa using findOneSuffix_step_match name x hm xs k0
    | succ k =>
      rw [findOneSuffix_step_nomatch name x (hfirst 0 x (by omega) rfl) xs k0,
        ih (k0 + 1) k r (by simpa [ruleAt] using hk) hm
          (fun j r' hj hr' => hfirst (j + 1) r' (by omega) (by simpa [ruleAt] using hr'))]
      congr 2; omega

theorem findOneSuffix_none (name : Str) :
    ∀ (rules : List Rule) (k0 : Nat), (∀ r ∈ rules, isOneSuffix r = false) →
      findOneSuffix name rules k0 = none := by
  intro rules
  induction rules with
  | nil => intro k0 _; rfl
  | cons x xs ih =>
    intro k0 h
    rw [findOneSuffix_step_nomatch name x (h x (by simp)) xs k0]
    exact ih (k0 + 1) (fun r hr => h r (List.mem_cons_of_mem _ hr))

/-! ## Resolution of a requested name -/

/-- C2: for a requested name that contains a `.` and has no explicit rule of
exactly that name, `makebyname` takes the first rule in table order whose
output starts with `.`, has a second `.`, and whose text from the second `.`
on equals the name's text from its first `.` on, and calls `make` on it with
the name as target and, as source, the name's text before its first `.`
followed by the output's text before its second `.`. -/
theorem makebyname_two_suffix {W : Type} (os : OS W) (fl : Flags) (n : Nat) (name : Str)
    (s : State W) (k : Nat) (r : Rule)
    (hdot : '.' ∈ name) (hex : ¬ hasExplicit name s.rules)
    (hk : ruleAt s.rules k = some r) (hm : matchesTwoSuffix name r = true)
    (hfirst : ∀ j r', j < k → ruleAt s.rules j = some r' → matchesTwoSuffix name r' = false) :
    makebyname os fl n name s
      = make os fl n k (some (beforeDot name ++ beforeSecondDot r.output)) (some name) s := by
  obtain ⟨i, hi, h1, h2⟩ := strchr_dot_name name hdot
  have hf := findTwoSuffix_first name i h1 h2 s.rules 0 k r hk hm hfirst
  simp only [Nat.zero_add] at hf
  simp only [makebyname, makebynameWith, findExplicit_none name s.rules 0 hex, hi, hf]

/-- Instance of two-suffix resolution: `foo.o` against `.c.o` is built from `foo.c`. -/
theorem makebyname_two_suffix_witness :
    makebyname (⟨fun _ _ => none, fun _ _ => false, fun _ _ => (0, ())⟩ : OS Unit)
        ⟨false, false, false⟩ 3 "foo.o".data
        ⟨[⟨"all".data, some [], none, false⟩, ⟨".o".data, some [], none, false⟩,
          ⟨".c.o".data, some [], some ["cc -c $<".data], false⟩], 0, 0, (), []⟩
      = make (⟨fun _ _ => none, fun _ _ => false, fun _ _ => (0, ())⟩ : OS Unit)
        ⟨false, false, false⟩ 3 2 (some "foo.c".data) (some "foo.o".data)
        ⟨[⟨"all".data, some [], none, false⟩, ⟨".o".data, some [], none, false⟩,
          ⟨".c.o".data, some [], some ["cc -c $<".data], false⟩], 0, 0, (), []⟩ :=
  makebyname_two_suffix _ _ 3 "foo.o".data _ 2 ⟨".c.o".data, some [], some ["cc -c $<".data], false⟩
    (by decide) (by simp [hasExplicit]) rfl (by decide)
    (by
      intro j r' hj hr'
      match j, hj, hr' with
      | 0, _, hr' => simp [ruleAt] at hr'; subst hr'; decide
      | 1, _, hr' => simp [ruleAt] at hr'; subst hr'; decide)

/-- C3: for a requested name that contains no `.` and has no explicit rule of
exactly that name, `makebyname` takes the first rule in table order whose
output starts with `.` and has no further `.`, and calls `make` on it with the
name as target and, as source, the name followed by the rule's whole output. -/
theorem makebyname_one_suffix {W : Type} (os : OS W) (fl : Flags) (n : Nat) (name : Str)
    (s : State W) (k : Nat) (r : Rule)
    (hdot : '.' ∉ name) (hex : ¬ hasExplicit name s.rules)
    (hk : ruleAt s.rules k = some r) (hm : isOneSuffix r = true)
    (hfirst : ∀ j r', j < k → ruleAt s.rules j = some r' → isOneSuffix r' = false) :
    makebyname os fl n name s = make os fl n k (some (name ++ r.output)) (some name) s := by
  have hf := findOneSuffix_first name s.rules 0 k r hk hm hfirst
  simp only [Nat.zero_add] at hf
  simp only [makebyname, makebynameWith, findExplicit_none name s.rules 0 hex,
    strchr_of_not_mem '.' name hdot, hf]

/-- Instance of single-suffix resolution: `foo` against `.o` is built from `foo.o`. -/
theorem makebyname_one_suffix_witness :
    makebyname (⟨fun _ _ => none, fun _ _ => false, fun _ _ => (0, ())⟩ : OS Unit)
        ⟨false, false, false⟩ 3 "foo".data
        ⟨[⟨"all".data, some [], none, false⟩, ⟨".c.o".data, some [], none, false⟩,
          ⟨".o".data, some [], some ["cc -o $@ $<".data], false⟩], 0, 0, (), []⟩
      = make (⟨fun _ _ => none, fun _ _ => false, fun _ _ => (0, ())⟩ : OS Unit)
        ⟨false, false, false⟩ 3 2 (some "foo.o".data) (some "foo".data)
        ⟨[⟨"all".data, some [], none, false⟩, ⟨".c.o".data, some [], none, false⟩,
          ⟨".o".data, some [], some ["cc -o $@ $<".data], false⟩], 0, 0, (), []⟩ :=
  makebyname_one_suffix _ _ 3 "foo".data _ 2 ⟨".o".data, some [], some ["cc -o $@ $<".data], false⟩
    (by decide) (by simp [hasExplicit]) rfl (by decide)
    (by
      intro j r' hj hr'
      match j, hj, hr' with
      | 0, _, hr' => simp [ruleAt] at hr'; subst hr'; decide
      | 1, _, hr' => simp [ruleAt] at hr'; subst hr'; decide)

/-! ## The return paths of `make` -/

theorem make_succ {W : Type} (os : OS W) (fl : Flags) (n i : Nat) (src target : Option Str)
    (s : State W) :
    make os fl (n + 1) i src target s = makeWith os fl (makebyname os fl n) i src target s :=
  rfl

theorem make_done {W : Type} (os : OS W) (fl : Flags) (n i : Nat) (src target : Option Str)
    (s : State W) (r : Rule) (hr : ruleAt s.rules i = some r) (hd : r.done = true) :
    make os fl (n + 1) i src target s = .ok (0, s) := by
  simp [make_succ, makeWith, hr, hd]

theorem make_limit {W : Type} (os : OS W) (fl : Flags) (n i : Nat) (src target : Option Str)
    (s : State W) (r : Rule) (hr : ruleAt s.rules i = some r) (hd : r.done = false)
    (hmax : s.depth ≠ INT_MAX) (hlim : 10 ≤ s.depth) :
    make os fl (n + 1) i src target s
      = .ok (1, { s with depth := s.depth + 1, log := s.log ++ [Event.recursionLimit] }) := by
  have h10 : (10 : Int) < s.depth + 1 := by omega
  simp [make_succ, makeWith, hr, hd, hmax, h10]

theorem make_body {W : Type} (os : OS W) (fl : Flags) (n i : Nat) (src target : Option Str)
    (s : State W) (r : Rule) (ins : List Str) (hr : ruleAt s.rules i = some r)
    (hd : r.done = false) (hdepth : s.depth < 10) (hin : r.input = some ins) :
    make os fl (n + 1) i src target s
      = match prereqs os (makebyname os fl n) ins false ⟨0, 0⟩ (enter fl r src target s) with
        | .error e => .error e
        | .ok (f, stv0, s3) =>
          if f then .ok (1, { s3 with depth := s3.depth - 1 })
          else if fresh os s3.world (defaultSrc r src) (defaultTarget r target)
              (newest stv0 (statOpt os s3.world (defaultSrc r src))) then
            .ok (0, { s3 with depth := s3.depth - 1 })
          else rebuild os fl r i (defaultSrc r src) (defaultTarget r target) s3 := by
  have hmax : s.depth ≠ INT_MAX := by
    intro h; rw [h] at hdepth; simp [INT_MAX] at hdepth
  have h10 : ¬ (10 : Int) < s.depth + 1 := by omega
  simp only [make_succ, makeWith, hr, hd, hmax, h10, hin, Bool.false_eq_true, if_false]

/-! ## The rule list along a run -/

theorem ruleLe_refl (x : Rule) : RuleLe x x := ⟨rfl, rfl, rfl, id⟩

theorem ruleLe_trans {x y z : Rule} (h1 : RuleLe x y) (h2 : RuleLe y z) : RuleLe x z :=
  ⟨h2.1.trans h1.1, h2.2.1.trans h1.2.1, h2.2.2.1.trans h1.2.2.1, fun h => h2.2.2.2 (h1.2.2.2 h)⟩

theorem extends_refl (a : List Rule) : Extends a a := by
  induction a with
  | nil => exact List.Forall₂.nil
  | cons x xs ih => exact List.Forall₂.cons (ruleLe_refl x) ih

theorem extends_trans {a b c : List Rule} (h1 : Extends a b) (h2 : Extends b c) :
    Extends a c := by
  induction h1 generalizing c with
  | nil => cases h2; exact List.Forall₂.nil
  | cons hxy _ ih =>
    cases h2 with
    | cons hyz htl => exact List.Forall₂.cons (ruleLe_trans hxy hyz) (ih htl)

theorem extends_ruleAt {a b : List Rule} (h : Extends a b) :
    ∀ (i : Nat) (r : Rule), ruleAt a i = some r → ∃ r', ruleAt b i = some r' ∧ RuleLe r r' := by
  induction h with
  | nil => intro i r hr; simp [ruleAt] at hr
  | cons hxy _ ih =>
    intro i r hr
    cases i with
    | zero =>
      simp only [ruleAt, Option.some.injEq] at hr
      subst hr
      exact ⟨_, rfl, hxy⟩
    | succ i => simpa [ruleAt] using ih i r (by simpa [ruleAt] using hr)

theorem setDone_extends : ∀ (a : List Rule) (i : Nat), Extends a (setDone a i) := by
  intro a
  induction a with
  | nil => intro i; exact List.Forall₂.nil
  | cons x xs ih =>
    intro i
    cases i with
    | zero => exact List.Forall₂.cons ⟨rfl, rfl, rfl, fun _ => rfl⟩ (extends_refl xs)
    | succ i => exact List.Forall₂.cons (ruleLe_refl x) (ih i)

theorem setDone_getElem : ∀ (a : List Rule) (i : Nat) (r : Rule), ruleAt a i = some r →
    ruleAt (setDone a i) i = some { r with done := true } := by
  intro a
  induction a with
  | nil => intro i r hr; simp [ruleAt] at hr
  | cons x xs ih =>
    intro i r hr
    cases i with
    | zero =>
      simp only [ruleAt, Option.some.injEq] at hr
      subst hr
      rfl
    | succ i => simpa [setDone, ruleAt] using ih i r (by simpa [ruleAt] using hr)

theorem trace_rules {W : Type} (fl : Flags) (r : Rule) (src : Option Str) (target : Str)
    (s : State W) : (trace fl r src target s).rules = s.rules := by
  unfold trace
  split
  · rfl
  · cases r.input <;> rfl

theorem enter_rules {W : Type} (fl : Flags) (r : Rule) (src target : Option Str)
    (s : State W) : (enter fl r src target s).rules = s.rules := by
  simp [enter, trace_rules]

theorem docmd_rules {W : Type} (os : OS W) (fl : Flags) (cmd : Str) (src target : Option Str)
    (s : State W) (ret : Int) (s' : State W)
    (h : docmd os fl cmd src target s = .ok (ret, s')) : s'.rules = s.rules := by
  unfold docmd at h
  split at h
  · cases h
  · rename_i iexit noecho sp _
    cases hn : fl.nflag <;> cases hs : fl.sflag <;> cases iexit <;> cases noecho <;>
      simp [hn, hs] at h <;> rw [← h.2]

theorem runcmds_rules {W : Type} (os : OS W) (fl : Flags) (src target : Option Str) :
    ∀ (cmds : List Str) (s s' : State W),
      runcmds os fl src target cmds s = .ok s' → s'.rules = s.rules := by
  intro cmds
  induction cmds with
  | nil => intro s s' h; simp only [runcmds, Except.ok.injEq] at h; rw [h]
  | cons c cs ih =>
    intro s s' h
    rw [runcmds] at h
    split at h
    · cases h
    · rename_i ret s1 hd
      rw [ih s1 s' h, docmd_rules os fl c src target s ret s1 hd]

theorem leaf_frame {W : Type} (os : OS W) (name : Str) : Frame (leaf os name) := by
  intro s ret s' h
  unfold leaf at h
  split at h
  · simp only [Except.ok.injEq, Prod.mk.injEq] at h
    rw [← h.2]; exact extends_refl _
  · simp only [Except.ok.injEq, Prod.mk.injEq] at h
    rw [← h.2]; exact extends_refl _

theorem prereqs_frame {W : Type} (os : OS W) (mkbn : Str → State W → Res W)
    (hm : ∀ x, Frame (mkbn x)) :
    ∀ (ins : List Str) (f : Bool) (stv : Timespec) (s : State W) (f' : Bool) (stv' : Timespec)
      (s' : State W), prereqs os mkbn ins f stv s = .ok (f', stv', s') →
      Extends s.rules s'.rules := by
  intro ins
  induction ins with
  | nil =>
    intro f stv s f' stv' s' h
    simp only [prereqs, Except.ok.injEq, Prod.mk.injEq] at h
    rw [← h.2.2]; exact extends_refl _
  | cons x xs ih =>
    intro f stv s f' stv' s' h
    rw [prereqs] at h
    split at h
    · cases h
    · rename_i ret s1 hx
      exact extends_trans (hm x s ret s1 hx) (ih _ _ s1 f' stv' s' h)

theorem rebuild_frame {W : Type} (os : OS W) (fl : Flags) (r : Rule) (i : Nat)
    (src : Option Str) (target : Str) : Frame (rebuild os fl r i src target) := by
  intro s ret s' h
  unfold rebuild at h
  split at h
  · cases h
  · rename_i s4 hc
    have h4 := runcmds_rules os fl src (some target) _ s s4 hc
    simp only [Except.ok.injEq, Prod.mk.injEq] at h
    rw [← h.2]
    split
    · simp only; rw [← h4]; exact setDone_extends _ _
    · simp only; rw [h4]; exact extends_refl _

theorem makeWith_frame {W : Type} (os : OS W) (fl : Flags) (mkbn : Str → State W → Res W)
    (hm : ∀ x, Frame (mkbn x)) (i : Nat) (src target : Option Str) :
    Frame (makeWith os fl mkbn i src target) := by
  intro s ret s' h
  unfold makeWith at h
  split at h
  · cases h
  · rename_i r hr
    split at h
    · simp only [Except.ok.injEq, Prod.mk.injEq] at h
      rw [← h.2]; exact extends_refl _
    · split at h
      · cases h
      · split at h
        · simp only [Except.ok.injEq, Prod.mk.injEq] at h
          rw [← h.2]; exact extends_refl _
        · split at h
          · cases h
          · rename_i ins hin
            split at h
            · cases h
            · rename_i f stv0 s3 hp
              have h3 : Extends s.rules s3.rules := by
                have := prereqs_frame os mkbn hm ins false ⟨0, 0⟩ _ f stv0 s3 hp
                rwa [enter_rules] at this
              split at h
              · simp only [Except.ok.injEq, Prod.mk.injEq] at h
                rw [← h.2]; exact h3
              · split at h
                · simp only [Except.ok.injEq, Prod.mk.injEq] at h
                  rw [← h.2]; exact h3
                · exact extends_trans h3 (rebuild_frame os fl r i _ _ s3 ret s' h)

theorem makebynameWith_frame {W : Type} (os : OS W)
    (mk : Nat → Option Str → Option Str → State W → Res W)
    (hmk : ∀ i src target, Frame (mk i src target)) (name : Str) :
    Frame (makebynameWith os mk name) := by
  intro s ret s' h
  unfold makebynameWith at h
  split at h
  · exact hmk _ _ _ s ret s' h
  · split at h
    · split at h
      · exact hmk _ _ _ s ret s' h
      · exact leaf_frame os name s ret s' h
    · split at h
      · exact hmk _ _ _ s ret s' h
      · exact leaf_frame os name s ret s' h

theorem make_frame {W : Type} (os : OS W) (fl : Flags) :
    ∀ (n i : Nat) (src target : Option Str), Frame (make os fl n i src target) := by
  intro n
  induction n with
  | zero => intro i src target s ret s' h; cases h
  | succ n ih =>
    intro i src target
    exact makeWith_frame os fl _ (fun x => makebynameWith_frame os _ ih x) i src target

theorem makebyname_frame {W : Type} (os : OS W) (fl : Flags) (n : Nat) (name : Str) :
    Frame (makebyname os fl n name) :=
  makebynameWith_frame os _ (make_frame os fl n) name

/-! ## The prerequisite loop -/

theorem prereqs_append {W : Type} (os : OS W) (mkbn : Str → State W → Res W) :
    ∀ (pre post : List Str) (f : Bool) (stv : Timespec) (s : State W),
      prereqs os mkbn (pre ++ post) f stv s
        = match prereqs os mkbn pre f stv s with
          | .error e => .error e
          | .ok (f1, stv1, s1) => prereqs os mkbn post f1 stv1 s1 := by
  intro pre
  induction pre with
  | nil => intro post f stv s; rfl
  | cons x xs ih =>
    intro post f stv s
    simp only [List.cons_append, prereqs]
    cases mkbn x s with
    | error e => rfl
    | ok p => exact ih post _ _ _

theorem prereqs_failed {W : Type} (os : OS W) (mkbn : Str → State W → Res W) :
    ∀ (ins : List Str) (stv : Timespec) (s : State W) (f' : Bool) (stv' : Timespec)
      (s' : State W), prereqs os mkbn ins true stv s = .ok (f', stv', s') → f' = true := by
  intro ins
  induction ins with
  | nil =>
    intro stv s f' stv' s' h
    simp only [prereqs, Except.ok.injEq, Prod.mk.injEq] at h
    exact h.1.symm
  | cons x xs ih =>
    intro stv s f' stv' s' h
    rw [prereqs] at h
    split at h
    · cases h
    · exact ih _ _ f' stv' s' (by simpa using h)

/-- A prerequisite for which `makebyname` returns nonzero makes `make` return 1
without running any command of the rule. -/
theorem make_prereq_nonzero {W : Type} (os : OS W) (fl : Flags) (n i : Nat)
    (src target : Option Str) (s0 : State W) (r : Rule) (pre post : List Str) (x : Str)
    (f1 : Bool) (stv1 : Timespec) (s1 : State W) (ret : Int) (s2 : State W)
    (f3 : Bool) (stv3 : Timespec) (s3 : State W)
    (hr : ruleAt s0.rules i = some r) (hd : r.done = false) (hdepth : s0.depth < 10)
    (hin : r.input = some (pre ++ x :: post))
    (hpre : prereqs os (makebyname os fl n) pre false ⟨0, 0⟩ (enter fl r src target s0)
      = .ok (f1, stv1, s1))
    (hx : makebyname os fl n x s1 = .ok (ret, s2)) (hret : ret ≠ 0)
    (hpost : prereqs os (makebyname os fl n) post true (newest stv1 (os.stat s2.world x)) s2
      = .ok (f3, stv3, s3)) :
    make os fl (n + 1) i src target s0 = .ok (1, { s3 with depth := s3.depth - 1 }) := by
  have hf3 : f3 = true := prereqs_failed os _ post _ s2 f3 stv3 s3 hpost
  subst hf3
  have hall : prereqs os (makebyname os fl n) (pre ++ x :: post) false ⟨0, 0⟩
      (enter fl r src target s0) = .ok (true, stv3, s3) := by
    rw [prereqs_append, hpre]
    simp only [prereqs, hx]
    have : (f1 || decide (ret ≠ 0)) = true := by simp [hret]
    rw [this]; exact hpost
  rw [make_body os fl n i src target s0 r _ hr hd hdepth hin, hall]
  simp

/-- C4: when no explicit rule bears the requested name and no pattern rule
applies to it, `makebyname` returns 0 and leaves the whole state (commands
run, fail indicator, everything) untouched if a file of that name exists,
and otherwise reports the missing rule, sets `fail` to 1 and returns -1;
and every `make` call one of whose prerequisites makes `makebyname` return
nonzero returns 1 in turn, which is again nonzero for its own caller. -/
theorem makebyname_leaf {W : Type} (os : OS W) (fl : Flags) (n : Nat) (name : Str)
    (s : State W) (hex : ¬ hasExplicit name s.rules)
    (hpat : ∀ r ∈ s.rules,
      (if '.' ∈ name then matchesTwoSuffix name r else isOneSuffix r) = false) :
    makebyname os fl n name s
        = (if os.access s.world name then .ok (0, s)
           else .ok (-1, { s with fail := 1, log := s.log ++ [Event.noRule name] }))
    ∧ (∀ (i : Nat) (src target : Option Str) (s0 : State W) (r : Rule) (pre post : List Str)
        (f1 : Bool) (stv1 : Timespec) (f3 : Bool) (stv3 : Timespec) (s3 : State W),
        ruleAt s0.rules i = some r → r.done = false → s0.depth < 10 →
        r.input = some (pre ++ name :: post) →
        prereqs os (makebyname os fl n) pre false ⟨0, 0⟩ (enter fl r src target s0)
          = .ok (f1, stv1, s) →
        os.access s.world name = false →
        prereqs os (makebyname os fl n) post true (newest stv1 (os.stat s.world name))
          { s with fail := 1, log := s.log ++ [Event.noRule name] } = .ok (f3, stv3, s3) →
        make os fl (n + 1) i src target s0 = .ok (1, { s3 with depth := s3.depth - 1 })) := by
  have hmain : makebyname os fl n name s = leaf os name s := by
    by_cases hdot : '.' ∈ name
    · obtain ⟨i, hi, _, h2⟩ := strchr_dot_name name hdot
      have hnone := findTwoSuffix_none name i h2 s.rules 0
        (fun r hr => by simpa [hdot] using hpat r hr)
      simp only [makebyname, makebynameWith, findExplicit_none name s.rules 0 hex, hi, hnone]
    · have hnone := findOneSuffix_none name s.rules 0
        (fun r hr => by simpa [hdot] using hpat r hr)
      simp only [makebyname, makebynameWith, findExplicit_none name s.rules 0 hex,
        strchr_of_not_mem '.' name hdot, hnone]
  refine ⟨by rw [hmain]; rfl, ?_⟩
  intro i src target s0 r pre post f1 stv1 f3 stv3 s3 hr hd hdepth hin hpre hacc hpost
  have hx : makebyname os fl n name s
      = .ok (-1, { s with fail := 1, log := s.log ++ [Event.noRule name] }) := by
    rw [hmain]; simp [leaf, hacc]
  exact make_prereq_nonzero os fl n i src target s0 r pre post name f1 stv1 s (-1) _ f3 stv3 s3
    hr hd hdepth hin hpre hx (by decide) hpost

/-- Instance of the leaf path: `b.c` has neither rule nor file, so `makebyname` returns -1 with `fail` set, and `make` on the rule `a` that needs it returns 1. -/
theorem makebyname_leaf_witness :
    makebyname (⟨fun _ _ => none, fun _ n => decide (n = "b.h".data), fun _ _ => (0, ())⟩ : OS Unit)
        ⟨false, false, false⟩ 2 "b.c".data
        ⟨[⟨"a".data, some ["b.c".data], some ["cc".data], false⟩,
          ⟨".y.o".data, some [], none, false⟩, ⟨".x".data, some [], none, false⟩], 1, 0, (), []⟩
      = .ok (-1, ⟨[⟨"a".data, some ["b.c".data], some ["cc".data], false⟩,
          ⟨".y.o".data, some [], none, false⟩, ⟨".x".data, some [], none, false⟩], 1, 1, (),
          [Event.noRule "b.c".data]⟩)
    ∧ make (⟨fun _ _ => none, fun _ n => decide (n = "b.h".data), fun _ _ => (0, ())⟩ : OS Unit)
        ⟨false, false, false⟩ 3 0 none none
        ⟨[⟨"a".data, some ["b.c".data], some ["cc".data], false⟩,
          ⟨".y.o".data, some [], none, false⟩, ⟨".x".data, some [], none, false⟩], 0, 0, (), []⟩
      = .ok (1, ⟨[⟨"a".data, some ["b.c".data], some ["cc".data], false⟩,
          ⟨".y.o".data, some [], none, false⟩, ⟨".x".data, some [], none, false⟩], 0, 1, (),
          [Event.noRule "b.c".data]⟩) := by
  have h := makebyname_leaf
    (⟨fun _ _ => none, fun _ n => decide (n = "b.h".data), fun _ _ => (0, ())⟩ : OS Unit)
    ⟨false, false, false⟩ 2 "b.c".data
    ⟨[⟨"a".data, some ["b.c".data], some ["cc".data], false⟩,
      ⟨".y.o".data, some [], none, false⟩, ⟨".x".data, some [], none, false⟩], 1, 0, (), []⟩
    (by simp [hasExplicit]) (by decide)
  exact ⟨h.1, h.2 0 none none
    ⟨[⟨"a".data, some ["b.c".data], some ["cc".data], false⟩,
      ⟨".y.o".data, some [], none, false⟩, ⟨".x".data, some [], none, false⟩], 0, 0, (), []⟩
    ⟨"a".data, some ["b.c".data], some ["cc".data], false⟩ [] [] false ⟨0, 0⟩ true ⟨0, 0⟩ _
    rfl rfl (by decide) rfl rfl rfl rfl⟩

/-! ## Timestamps -/

theorem older_iff (a b : Timespec) :
    older a b = true ↔ a.tv_sec < b.tv_sec ∨ (a.tv_sec = b.tv_sec ∧ a.tv_nsec < b.tv_nsec) := by
  unfold older
  by_cases h1 : a.tv_sec < b.tv_sec
  · simp [h1]
  · by_cases h2 : b.tv_sec < a.tv_sec
    · simp [h1, h2]; omega
    · simp [h1, h2]; omega

theorem older_eq_false_iff (a b : Timespec) :
    older a b = false ↔ b.tv_sec < a.tv_sec ∨ (a.tv_sec = b.tv_sec ∧ b.tv_nsec ≤ a.tv_nsec) := by
  rw [← Bool.not_eq_true, older_iff]
  omega

theorem older_of_older_of_not_older {a b c : Timespec} (h1 : older a b = true)
    (h2 : older c b = false) : older a c = true := by
  rw [older_iff] at *
  rw [older_eq_false_iff] at h2
  omega

theorem not_older_trans {a b c : Timespec} (h1 : older a b = false) (h2 : older b c = false) :
    older a c = false := by
  rw [older_eq_false_iff] at *
  omega

theorem older_irrefl (a : Timespec) : older a a = false := by
  rw [older_eq_false_iff]; omega

theorem newest_ge (stv : Timespec) (st : Option Timespec) : older (newest stv st) stv = false := by
  unfold newest
  cases st with
  | none => exact older_irrefl stv
  | some m =>
    by_cases h : older stv m = true
    · simp only [h, if_true]
      rw [older_iff] at h
      rw [older_eq_false_iff]; omega
    · simp only [h]; exact older_irrefl stv

theorem newest_ge_seen (stv m : Timespec) : older (newest stv (some m)) m = false := by
  unfold newest
  by_cases h : older stv m = true
  · simp only [h, if_true]; exact older_irrefl m
  · simp only [h]; simpa using h

theorem newest_cases (stv : Timespec) (st : Option Timespec) :
    newest stv st = stv ∨ st = some (newest stv st) := by
  unfold newest
  cases st with
  | none => exact Or.inl rfl
  | some m =>
    by_cases h : older stv m = true
    · simp [h]
    · simp [h]

theorem prereqs_stv {W : Type} (os : OS W) (mkbn : Str → State W → Res W) :
    ∀ (ins : List Str) (f : Bool) (stv : Timespec) (s : State W) (f' : Bool) (stv' : Timespec)
      (s' : State W), prereqs os mkbn ins f stv s = .ok (f', stv', s') →
      older stv' stv = false ∧ (∀ m ∈ seen os mkbn ins s, older stv' m = false)
        ∧ (stv' = stv ∨ stv' ∈ seen os mkbn ins s) := by
  intro ins
  induction ins with
  | nil =>
    intro f stv s f' stv' s' h
    simp only [prereqs, Except.ok.injEq, Prod.mk.injEq] at h
    rw [← h.2.1]
    exact ⟨older_irrefl stv, by simp [seen], Or.inl rfl⟩
  | cons x xs ih =>
    intro f stv s f' stv' s' h
    rw [prereqs] at h
    split at h
    · cases h
    · rename_i ret s1 hx
      obtain ⟨h1, h2, h3⟩ := ih _ _ s1 f' stv' s' h
      have hseen : seen os mkbn (x :: xs) s = (os.stat s1.world x).toList ++ seen os mkbn xs s1 := by
        simp only [seen, hx]
      refine ⟨not_older_trans h1 (newest_ge stv _), ?_, ?_⟩
      · intro m hm
        rw [hseen, List.mem_append] at hm
        rcases hm with hm | hm
        · have hst : os.stat s1.world x = some m := by
            cases hs : os.stat s1.world x with
            | none => simp [hs] at hm
            | some m' => simp [hs] at hm; rw [hm]
          rw [hst] at h1
          exact not_older_trans h1 (newest_ge_seen stv m)
        · exact h2 m hm
      · rw [hseen, List.mem_append]
        rcases h3 with h3 | h3
        · rcases newest_cases stv (os.stat s1.world x) with hn | hn
          · exact Or.inl (h3.trans hn)
          · have hst : os.stat s1.world x = some stv' := by rw [h3]; exact hn
            right; left
            rw [hst]; simp
        · exact Or.inr (Or.inr h3)

/-! ## Staleness -/

/-- C1, as stated, fails: the target `t` and its only prerequisite (and
source) `p` both exist, `t` is newer than `p`, the rule is not completed and is
entered at depth 0, `p` resolves successfully, and still `make` runs the
rule's command, because the accumulated maximum starts at `{0, 0}` and both
files are dated before the epoch. -/
theorem make_staleness_pre_epoch :
    preEpochOS.stat () "t".data = some ⟨-5, 0⟩ ∧ preEpochOS.stat () "p".data = some ⟨-10, 0⟩
    ∧ older ⟨-5, 0⟩ ⟨-10, 0⟩ = false
    ∧ make preEpochOS ⟨false, false, false⟩ 2 0 none none
        ⟨[⟨"t".data, some ["p".data], some ["touch t".data], false⟩], 0, 0, (), []⟩
      = .ok (0, ⟨[⟨"t".data, some ["p".data], some ["touch t".data], true⟩], 0, 0, (),
          [Event.echo "touch t".data, Event.exec "touch t".data]⟩) :=
  ⟨rfl, rfl, rfl, rfl⟩

/-- C1 (amended): for a rule that is not completed, is entered within the
depth ceiling, has a known source and whose prerequisites all resolve
successfully, with the target file existing: if some prerequisite's
modification time, as `make` obtains it, is strictly newer than the target's,
`make` runs the rule's commands (lines 165-173); if the target's modification
time is not before `{0, 0}` and is equal to or newer than that of every
prerequisite and of the source, `make` runs no command and returns 0. -/
theorem make_staleness {W : Type} (os : OS W) (fl : Flags) (n i : Nat) (src target : Option Str)
    (s : State W) (r : Rule) (ins : List Str) (sname : Str) (stv0 : Timespec) (s3 : State W)
    (mt : Timespec)
    (hr : ruleAt s.rules i = some r) (hd : r.done = false) (hdepth : s.depth < 10)
    (hin : r.input = some ins) (hsrc : defaultSrc r src = some sname)
    (hpre : prereqs os (makebyname os fl n) ins false ⟨0, 0⟩ (enter fl r src target s)
      = .ok (false, stv0, s3))
    (htgt : os.stat s3.world (defaultTarget r target) = some mt) :
    ((∃ m ∈ seen os (makebyname os fl n) ins (enter fl r src target s), older mt m = true) →
        make os fl (n + 1) i src target s
          = rebuild os fl r i (some sname) (defaultTarget r target) s3)
    ∧ (older mt ⟨0, 0⟩ = false →
        (∀ m ∈ seen os (makebyname os fl n) ins (enter fl r src target s), older mt m = false) →
        (∀ ms, os.stat s3.world sname = some ms → older mt ms = false) →
        make os fl (n + 1) i src target s = .ok (0, { s3 with depth := s3.depth - 1 })) := by
  obtain ⟨_, hge, hcases⟩ := prereqs_stv os _ ins false ⟨0, 0⟩ _ false stv0 s3 hpre
  have hbody := make_body os fl n i src target s r ins hr hd hdepth hin
  rw [hpre] at hbody
  simp only [Bool.false_eq_true, if_false, hsrc, statOpt] at hbody
  constructor
  · rintro ⟨m, hm, hmt⟩
    have h1 : older (newest stv0 (os.stat s3.world sname)) m = false :=
      not_older_trans (newest_ge stv0 _) (hge m hm)
    have h2 : older mt (newest stv0 (os.stat s3.world sname)) = true :=
      older_of_older_of_not_older hmt h1
    rw [hbody]
    simp [fresh, htgt, h2]
  · intro h0 hall hsrcle
    have h2 : older mt (newest stv0 (os.stat s3.world sname)) = false := by
      rcases newest_cases stv0 (os.stat s3.world sname) with hn | hn
      · rw [hn]
        rcases hcases with hc | hc
        · rw [hc]; exact h0
        · exact hall _ hc
      · exact hsrcle _ hn
    rw [hbody]
    simp [fresh, htgt, h2]

/-- Instance of the staleness theorem: `a.o` (time 7) is newer than its prerequisite `a.c` (time 5) and is left alone. -/
theorem make_staleness_witness :
    make freshOS ⟨false, false, false⟩ 2 0 none none
        ⟨[⟨"a.o".data, some ["a.c".data], some ["cc -c $<".data], false⟩], 0, 0, (), []⟩
      = .ok (0, ⟨[⟨"a.o".data, some ["a.c".data], some ["cc -c $<".data], false⟩], 0, 0, (), []⟩) :=
  (make_staleness freshOS ⟨false, false, false⟩ 1 0 none none
      ⟨[⟨"a.o".data, some ["a.c".data], some ["cc -c $<".data], false⟩], 0, 0, (), []⟩
      ⟨"a.o".data, some ["a.c".data], some ["cc -c $<".data], false⟩ ["a.c".data] "a.c".data
      ⟨5, 0⟩ ⟨[⟨"a.o".data, some ["a.c".data], some ["cc -c $<".data], false⟩], 1, 0, (), []⟩
      ⟨7, 0⟩ rfl rfl (by decide) rfl rfl rfl rfl).2 rfl (by decide) (by decide)

/-! ## Rules without prerequisites -/

/-- C10, as stated, fails: the explicit rule `t` has an empty prerequisite
list and its target file exists, and building it, by `makebyname` as by
`make`, runs its command: with no prerequisite there is no source, and line
159 only skips the commands when a source is known. -/
theorem make_no_prereqs_runs :
    existingOS.stat () "t".data = some ⟨5, 0⟩ ∧ existingOS.access () "t".data = true
    ∧ make existingOS ⟨false, false, false⟩ 1 0 none none
        ⟨[⟨"t".data, some [], some ["touch t".data], false⟩], 0, 0, (), []⟩
      = .ok (0, ⟨[⟨"t".data, some [], some ["touch t".data], true⟩], 0, 0, (),
          [Event.echo "touch t".data, Event.exec "touch t".data]⟩)
    ∧ makebyname existingOS ⟨false, false, false⟩ 1 "t".data
        ⟨[⟨"t".data, some [], some ["touch t".data], false⟩], 0, 0, (), []⟩
      = .ok (0, ⟨[⟨"t".data, some [], some ["touch t".data], true⟩], 0, 0, (),
          [Event.echo "touch t".data, Event.exec "touch t".data]⟩) :=
  ⟨rfl, rfl, rfl, rfl⟩

/-- C10 (amended): for a rule whose prerequisite list is empty, entered with a
known source (as `makebyname` enters a pattern rule), whose target file exists
with a modification time not before `{0, 0}` and not older than the source
file's when that exists, `make` runs no command: it returns at once when the
rule is completed or the depth ceiling is passed, and otherwise returns 0 from
the test of line 159, having only traced the rule.  Entered without a source,
the same rule, when not completed and within the ceiling, runs its commands
whether or not the target exists. -/
theorem make_no_prereqs {W : Type} (os : OS W) (fl : Flags) (n i : Nat) (target : Option Str)
    (s : State W) (r : Rule) (sname : Str) (mt : Timespec)
    (hr : ruleAt s.rules i = some r) (hin : r.input = some []) (hmax : s.depth ≠ INT_MAX)
    (htgt : os.stat s.world (defaultTarget r target) = some mt)
    (h0 : older mt ⟨0, 0⟩ = false)
    (hsrc : ∀ ms, os.stat s.world sname = some ms → older mt ms = false) :
    make os fl (n + 1) i (some sname) target s
        = (if r.done then .ok (0, s)
           else if 10 ≤ s.depth then
             .ok (1, { s with depth := s.depth + 1, log := s.log ++ [Event.recursionLimit] })
           else .ok (0, { enter fl r (some sname) target s with depth := s.depth }))
    ∧ (r.done = false → s.depth < 10 →
        make os fl (n + 1) i none target s
          = rebuild os fl r i none (defaultTarget r target) (enter fl r none target s)) := by
  have hw : ∀ src, (enter fl r src target s).world = s.world := by
    intro src
    unfold enter trace
    split
    · rfl
    · cases r.input <;> rfl
  have hdep : ∀ src, (enter fl r src target s).depth = s.depth + 1 := by
    intro src
    unfold enter trace
    split
    · rfl
    · cases r.input <;> rfl
  constructor
  · cases hd : r.done with
    | true => simpa using make_done os fl n i (some sname) target s r hr hd
    | false =>
      by_cases hlim : 10 ≤ s.depth
      · simpa [hlim] using make_limit os fl n i (some sname) target s r hr hd hmax hlim
      · have hdepth : s.depth < 10 := by omega
        have hds : defaultSrc r (some sname) = some sname := rfl
        have hfresh : older mt (newest ⟨0, 0⟩ (os.stat s.world sname)) = false := by
          rcases newest_cases ⟨0, 0⟩ (os.stat s.world sname) with hn | hn
          · rw [hn]; exact h0
          · exact hsrc _ hn
        rw [make_body os fl n i (some sname) target s r [] hr hd hdepth hin]
        simp [prereqs, hds, statOpt, fresh, hw, htgt, hfresh, hlim, hdep]
  · intro hd hdepth
    have hds : defaultSrc r none = none := by simp [defaultSrc, hin]
    rw [make_body os fl n i none target s r [] hr hd hdepth hin]
    simp [prereqs, hds, fresh]

/-- Instance for a rule without prerequisites: the pattern rule `.c.o` entered with source `a.c` and target `a.o`, the target being newer. -/
theorem make_no_prereqs_witness :
    make freshOS ⟨false, false, false⟩ 1 0 (some "a.c".data) (some "a.o".data)
        ⟨[⟨".c.o".data, some [], some ["cc -c $<".data], false⟩], 0, 0, (), []⟩
      = .ok (0, ⟨[⟨".c.o".data, some [], some ["cc -c $<".data], false⟩], 0, 0, (), []⟩) :=
  (make_no_prereqs freshOS ⟨false, false, false⟩ 0 0 (some "a.o".data)
      ⟨[⟨".c.o".data, some [], some ["cc -c $<".data], false⟩], 0, 0, (), []⟩
      ⟨".c.o".data, some [], some ["cc -c $<".data], false⟩ "a.c".data ⟨7, 0⟩
      rfl rfl (by decide) rfl rfl (by decide)).1

/-! ## Completed rules -/

theorem step_extends {W : Type} {os : OS W} {fl : Flags} {s s' : State W}
    (h : Step os fl s s') : Extends s.rules s'.rules := by
  cases h with
  | make n i src target _ ret _ h => exact make_frame os fl n i src target s ret s' h
  | makebyname n name _ ret _ h => exact makebyname_frame os fl n name s ret s' h
  | docmd cmd src target _ ret _ h =>
    rw [docmd_rules os fl cmd src target s ret s' h]; exact extends_refl _
  | enter r src target => rw [enter_rules]; exact extends_refl _

theorem later_extends {W : Type} {os : OS W} {fl : Flags} {s s' : State W}
    (h : Later os fl s s') : Extends s.rules s'.rules := by
  induction h with
  | refl => exact extends_refl _
  | tail _ hstep ih => exact extends_trans ih (step_extends hstep)

theorem setDone_done : ∀ (a : List Rule) (i : Nat) (r : Rule),
    ruleAt (setDone a i) i = some r → r.done = true := by
  intro a
  induction a with
  | nil => intro i r h; simp [setDone, ruleAt] at h
  | cons x xs ih =>
    intro i r h
    cases i with
    | zero =>
      simp only [setDone, ruleAt, Option.some.injEq] at h
      rw [← h]
    | succ i => exact ih i r (by simpa [setDone, ruleAt] using h)

/-- C8: once `make` has built an explicit rule by running its commands (the
rule was not completed, the call was within the depth ceiling, its
prerequisites resolved, the target was not found up to date and the command
loop ran to its end), the call returns 0 and, at every later point of the
run, any `make` call on that rule returns 0 at once and leaves the whole
state (commands run, prerequisites, depth counter, fail indicator, completed
flags) exactly as it was. -/
theorem make_built_once {W : Type} (os : OS W) (fl : Flags) (n i : Nat)
    (src target : Option Str) (s : State W) (r : Rule) (ins : List Str) (stv0 : Timespec)
    (s3 s4 : State W)
    (hr : ruleAt s.rules i = some r) (hd : r.done = false) (hex : isExplicit r = true)
    (hdepth : s.depth < 10) (hin : r.input = some ins)
    (hpre : prereqs os (makebyname os fl n) ins false ⟨0, 0⟩ (enter fl r src target s)
      = .ok (false, stv0, s3))
    (hstale : fresh os s3.world (defaultSrc r src) (defaultTarget r target)
      (newest stv0 (statOpt os s3.world (defaultSrc r src))) = false)
    (hcmds : runcmds os fl (defaultSrc r src) (some (defaultTarget r target)) (r.cmds.getD []) s3
      = .ok s4) :
    make os fl (n + 1) i src target s
        = .ok (0, { s4 with rules := setDone s4.rules i, depth := s4.depth - 1 })
    ∧ ∀ s2, Later os fl { s4 with rules := setDone s4.rules i, depth := s4.depth - 1 } s2 →
        ∀ (m : Nat) (src' target' : Option Str),
          make os fl (m + 1) i src' target' s2 = .ok (0, s2) := by
  have hmk : make os fl (n + 1) i src target s
      = .ok (0, { s4 with rules := setDone s4.rules i, depth := s4.depth - 1 }) := by
    rw [make_body os fl n i src target s r ins hr hd hdepth hin, hpre]
    simp [hstale, rebuild, hcmds, hex]
  refine ⟨hmk, ?_⟩
  intro s2 hlater m src' target'
  have h1 : Extends s.rules (setDone s4.rules i) :=
    make_frame os fl (n + 1) i src target s 0 _ hmk
  obtain ⟨r1, hr1, _⟩ := extends_ruleAt h1 i r hr
  have hd1 : r1.done = true := setDone_done s4.rules i r1 hr1
  obtain ⟨r2, hr2, hle⟩ := extends_ruleAt (later_extends hlater) i r1 hr1
  exact make_done os fl m i src' target' s2 r2 hr2 (hle.2.2.2 hd1)

/-- Instance of idempotence: `t` is built once; a later call, inside a `make` call on `all`, returns 0 and changes nothing. -/
theorem make_built_once_witness :
    make existingOS ⟨false, false, false⟩ 1 1 none none
        ⟨[⟨"all".data, some ["t".data], none, false⟩,
          ⟨"t".data, some [], some ["touch t".data], false⟩], 0, 0, (), []⟩
      = .ok (0, ⟨[⟨"all".data, some ["t".data], none, false⟩,
          ⟨"t".data, some [], some ["touch t".data], true⟩], 0, 0, (),
          [Event.echo "touch t".data, Event.exec "touch t".data]⟩)
    ∧ make existingOS ⟨false, false, false⟩ 1 1 none none
        ⟨[⟨"all".data, some ["t".data], none, false⟩,
          ⟨"t".data, some [], some ["touch t".data], true⟩], 1, 0, (),
          [Event.echo "touch t".data, Event.exec "touch t".data]⟩
      = .ok (0, ⟨[⟨"all".data, some ["t".data], none, false⟩,
          ⟨"t".data, some [], some ["touch t".data], true⟩], 1, 0, (),
          [Event.echo "touch t".data, Event.exec "touch t".data]⟩) := by
  have h := make_built_once existingOS ⟨false, false, false⟩ 0 1 none none
    ⟨[⟨"all".data, some ["t".data], none, false⟩,
      ⟨"t".data, some [], some ["touch t".data], false⟩], 0, 0, (), []⟩
    ⟨"t".data, some [], some ["touch t".data], false⟩ [] ⟨0, 0⟩
    ⟨[⟨"all".data, some ["t".data], none, false⟩,
      ⟨"t".data, some [], some ["touch t".data], false⟩], 1, 0, (), []⟩
    ⟨[⟨"all".data, some ["t".data], none, false⟩,
      ⟨"t".data, some [], some ["touch t".data], false⟩], 1, 0, (),
      [Event.echo "touch t".data, Event.exec "touch t".data]⟩
    rfl rfl rfl (by decide) rfl rfl rfl rfl
  refine ⟨h.1, ?_⟩
  exact h.2 _ (Relation.ReflTransGen.single
    (Step.enter ⟨"all".data, some ["t".data], none, false⟩ none none _)) 0 none none

/-! ## The recursion ceiling -/

theorem makebyname_explicit {W : Type} (os : OS W) (fl : Flags) (n : Nat) (name : Str)
    (s : State W) (k : Nat) (h : findExplicit name s.rules 0 = some k) :
    makebyname os fl n name s = make os fl n k none none s := by
  simp only [makebyname, makebynameWith, h]

theorem trace_log {W : Type} (fl : Flags) (r : Rule) (src : Option Str) (target : Str)
    (s : State W) :
    ∃ evs, (trace fl r src target s).log = s.log ++ evs
      ∧ (∀ e ∈ evs, Event.isCmd e = false) ∧ (∀ e ∈ evs, e ≠ Event.recursionLimit) := by
  unfold trace
  split
  · exact ⟨[], by simp, by simp, by simp⟩
  · cases r.input with
    | none =>
      refine ⟨[Event.making target (src.getD ['-']) r.output], rfl, ?_, ?_⟩
      · intro e he; simp at he; subst he; rfl
      · intro e he; simp at he; subst he; simp
    | some ins =>
      refine ⟨Event.making target (src.getD ['-']) r.output
        :: ins.map (Event.makingInput target), by simp, ?_, ?_⟩
      · intro e he
        simp only [List.mem_cons, List.mem_map] at he
        rcases he with rfl | ⟨x, _, rfl⟩ <;> rfl
      · intro e he
        simp only [List.mem_cons, List.mem_map] at he
        rcases he with rfl | ⟨x, _, rfl⟩ <;> simp

theorem enter_facts {W : Type} (fl : Flags) (r : Rule) (src target : Option Str) (s : State W) :
    (enter fl r src target s).world = s.world ∧ (enter fl r src target s).fail = s.fail
      ∧ (enter fl r src target s).depth = s.depth + 1 := by
  unfold enter trace
  split
  · exact ⟨rfl, rfl, rfl⟩
  · cases r.input <;> exact ⟨rfl, rfl, rfl⟩

theorem enter_log {W : Type} (fl : Flags) (r : Rule) (src target : Option Str) (s : State W) :
    ∃ evs, (enter fl r src target s).log = s.log ++ evs
      ∧ (∀ e ∈ evs, Event.isCmd e = false) ∧ (∀ e ∈ evs, e ≠ Event.recursionLimit) :=
  trace_log fl r (defaultSrc r src) (defaultTarget r target) { s with depth := s.depth + 1 }

theorem docmd_log {W : Type} (os : OS W) (fl : Flags) (cmd : Str) (src target : Option Str)
    (s : State W) (ret : Int) (s' : State W)
    (h : docmd os fl cmd src target s = .ok (ret, s')) :
    ∃ evs, s'.log = s.log ++ evs ∧ ∀ e ∈ evs, e ≠ Event.recursionLimit := by
  unfold docmd at h
  split at h
  · cases h
  · rename_i iexit noecho sp _
    refine ⟨docmdEvents fl noecho sp, ?_, ?_⟩
    · cases hn : fl.nflag <;> cases hs : fl.sflag <;> cases iexit <;> cases noecho <;>
        simp [hn, hs] at h <;> rw [← h.2] <;> simp [docmdEvents, hn, hs]
    · intro e he
      cases hn : fl.nflag <;> cases hs : fl.sflag <;> cases noecho <;>
        simp [docmdEvents, hn, hs] at he <;> (try rcases he with rfl | rfl) <;> simp

theorem runcmds_log {W : Type} (os : OS W) (fl : Flags) (src target : Option Str) :
    ∀ (cmds : List Str) (s s' : State W), runcmds os fl src target cmds s = .ok s' →
      ∃ evs, s'.log = s.log ++ evs ∧ ∀ e ∈ evs, e ≠ Event.recursionLimit := by
  intro cmds
  induction cmds with
  | nil =>
    intro s s' h
    simp only [runcmds, Except.ok.injEq] at h
    exact ⟨[], by simp [h], by simp⟩
  | cons c cs ih =>
    intro s s' h
    rw [runcmds] at h
    split at h
    · cases h
    · rename_i ret s1 hd
      obtain ⟨e1, h1, h1'⟩ := docmd_log os fl c src target s ret s1 hd
      obtain ⟨e2, h2, h2'⟩ := ih s1 s' h
      refine ⟨e1 ++ e2, by rw [h2, h1, List.append_assoc], ?_⟩
      intro e he
      rcases List.mem_append.mp he with he | he
      · exact h1' e he
      · exact h2' e he

theorem runcmds_defined {W : Type} (os : OS W) (fl : Flags) (src target : Option Str) :
    ∀ (cmds : List Str) (s : State W),
      (∀ c ∈ cmds, ∃ res, prepare c src target = .ok res) →
      ∃ s', runcmds os fl src target cmds s = .ok s' := by
  intro cmds
  induction cmds with
  | nil => intro s _; exact ⟨s, rfl⟩
  | cons c cs ih =>
    intro s h
    obtain ⟨⟨iexit, noecho, sp⟩, hp⟩ := h c (by simp)
    have hd := (docmd_step os fl c src target s iexit noecho sp hp)
    rw [runcmds, hd]
    exact ih _ (fun c' hc' => h c' (List.mem_cons_of_mem _ hc'))

theorem chain_limit_aux {W : Type} (os : OS W) (fl : Flags) :
    ∀ (rest : List Nat) (k fuel : Nat) (s : State W), Chain s.rules (k :: rest) →
      11 ≤ s.depth + (rest.length + 1 : Nat) → s.depth ≤ 10 → 11 ≤ s.depth + (fuel : Nat) →
      ∃ s', make os fl fuel k none none s = .ok (1, s') ∧ s'.rules = s.rules
        ∧ s'.world = s.world ∧ s'.fail = s.fail ∧ s'.depth = s.depth + 1
        ∧ ∃ evs, s'.log = s.log ++ evs ∧ Event.recursionLimit ∈ evs
          ∧ ∀ e ∈ evs, Event.isCmd e = false := by
  intro rest
  induction rest with
  | nil =>
    intro k fuel s hc hlen hd10 hfuel
    obtain ⟨r, hr, _, hdone, _⟩ := hc
    have h10 : 10 ≤ s.depth := by simp at hlen; omega
    obtain ⟨m, rfl⟩ : ∃ m, fuel = m + 1 := ⟨fuel - 1, by omega⟩
    have hmax : s.depth ≠ INT_MAX := by
      intro h; rw [h] at hd10; simp [INT_MAX] at hd10
    refine ⟨_, make_limit os fl m k none none s r hr hdone hmax h10, rfl, rfl, rfl, rfl,
      [Event.recursionLimit], rfl, by simp, ?_⟩
    intro e he; simp at he; subst he; rfl
  | cons k' ks ih =>
    intro k fuel s hc hlen hd10 hfuel
    obtain ⟨r, r', hr, _, hdone, _, hin, hfind, hc'⟩ := hc
    obtain ⟨m, rfl⟩ : ∃ m, fuel = m + 1 := ⟨fuel - 1, by omega⟩
    by_cases h10 : 10 ≤ s.depth
    · have hmax : s.depth ≠ INT_MAX := by
        intro h; rw [h] at hd10; simp [INT_MAX] at hd10
      refine ⟨_, make_limit os fl m k none none s r hr hdone hmax h10, rfl, rfl, rfl, rfl,
        [Event.recursionLimit], rfl, by simp, ?_⟩
      intro e he; simp at he; subst he; rfl
    · have hdepth : s.depth < 10 := by omega
      obtain ⟨hw, hf, hdp⟩ := enter_facts fl r none none s
      obtain ⟨evsE, hlogE, hcmdE, _⟩ := enter_log fl r none none s
      have hrules := enter_rules fl r none none s
      obtain ⟨s1, hmk, h1r, h1w, h1f, h1d, evs1, h1l, h1lim, h1cmd⟩ :=
        ih k' m (enter fl r none none s) (by rw [hrules]; exact hc')
          (by rw [hdp]; simp at hlen ⊢; omega) (by rw [hdp]; omega) (by rw [hdp]; omega)
      have hx : makebyname os fl m r'.output (enter fl r none none s) = .ok (1, s1) := by
        rw [makebyname_explicit os fl m _ _ k' (by rw [hrules]; exact hfind)]; exact hmk
      refine ⟨{ s1 with depth := s1.depth - 1 }, ?_, ?_, ?_, ?_, ?_, evsE ++ evs1, ?_, ?_, ?_⟩
      · rw [make_body os fl m k none none s r _ hr hdone hdepth hin]
        simp [prereqs, hx]
      · simp only; rw [h1r, hrules]
      · simp only; rw [h1w, hw]
      · simp only; rw [h1f, hf]
      · simp only; rw [h1d, hdp]; omega
      · simp only; rw [h1l, hlogE, List.append_assoc]
      · exact List.mem_append_right _ h1lim
      · intro e he
        rcases List.mem_append.mp he with he | he
        · exact hcmdE e he
        · exact h1cmd e he

theorem chain_ok_aux {W : Type} (os : OS W) (fl : Flags) :
    ∀ (rest : List Nat) (k fuel : Nat) (s : State W), Chain s.rules (k :: rest) →
      s.depth + (rest.length + 1 : Nat) ≤ 10 → rest.length + 1 ≤ fuel →
      (∃ s', make os fl fuel k none none s = .ok (0, s')
          ∧ ∃ evs, s'.log = s.log ++ evs ∧ ∀ e ∈ evs, e ≠ Event.recursionLimit)
        ∨ (¬ CmdsDefined s.rules (k :: rest)
          ∧ ∃ e, make os fl fuel k none none s = .error e) := by
  intro rest
  induction rest with
  | nil =>
    intro k fuel s hc hlen hfuel
    obtain ⟨r, hr, _, hdone, hin⟩ := hc
    obtain ⟨m, rfl⟩ : ∃ m, fuel = m + 1 := ⟨fuel - 1, by simp at hfuel; omega⟩
    have hdepth : s.depth < 10 := by simp at hlen; omega
    obtain ⟨evsE, hlogE, _, hlimE⟩ := enter_log fl r none none s
    have hsrc : defaultSrc r none = none := by simp [defaultSrc, hin]
    have hmk : make os fl (m + 1) k none none s
        = rebuild os fl r k none r.output (enter fl r none none s) := by
      rw [make_body os fl m k none none s r [] hr hdone hdepth hin]
      simp [prereqs, hsrc, fresh, defaultTarget]
    rw [hmk]
    unfold rebuild
    cases hrun : runcmds os fl none (some r.output) (r.cmds.getD []) (enter fl r none none s) with
    | error e =>
      right
      refine ⟨?_, e, rfl⟩
      intro hdef
      obtain ⟨s4, h4⟩ := runcmds_defined os fl none (some r.output) (r.cmds.getD [])
        (enter fl r none none s) (by simpa [hsrc] using hdef k (by simp) r hr)
      rw [h4] at hrun; cases hrun
    | ok s4 =>
      left
      obtain ⟨evs4, hlog4, hlim4⟩ := runcmds_log os fl none (some r.output) _ _ s4 hrun
      refine ⟨_, rfl, evsE ++ evs4, ?_, ?_⟩
      · split <;> simp only <;> rw [hlog4, hlogE, List.append_assoc]
      · intro e he
        rcases List.mem_append.mp he with he | he
        · exact hlimE e he
        · exact hlim4 e he
  | cons k' ks ih =>
    intro k fuel s hc hlen hfuel
    obtain ⟨r, r', hr, _, hdone, _, hin, hfind, hc'⟩ := hc
    obtain ⟨m, rfl⟩ : ∃ m, fuel = m + 1 := ⟨fuel - 1, by simp at hfuel; omega⟩
    have hdepth : s.depth < 10 := by simp at hlen; omega
    obtain ⟨_, _, hdp⟩ := enter_facts fl r none none s
    obtain ⟨evsE, hlogE, _, hlimE⟩ := enter_log fl r none none s
    have hrules := enter_rules fl r none none s
    have hsrc : defaultSrc r none = some r'.output := by simp [defaultSrc, hin]
    have hx : makebyname os fl m r'.output (enter fl r none none s)
        = make os fl m k' none none (enter fl r none none s) :=
      makebyname_explicit os fl m _ _ k' (by rw [hrules]; exact hfind)
    have hbody := make_body os fl m k none none s r _ hr hdone hdepth hin
    simp only [prereqs, hx] at hbody
    rcases ih k' m (enter fl r none none s) (by rw [hrules]; exact hc')
        (by rw [hdp]; simp at hlen ⊢; omega) (by simp at hfuel ⊢; omega) with
      ⟨s1, hmk, evs1, hlog1, hlim1⟩ | ⟨hndef, e, he⟩
    · rw [hmk] at hbody
      simp only [ne_eq, not_true_eq_false, decide_False, Bool.or_false, Bool.false_eq_true,
        if_false, hsrc] at hbody
      rw [hbody]
      split
      · left
        refine ⟨_, rfl, evsE ++ evs1, ?_, ?_⟩
        · simp only; rw [hlog1, hlogE, List.append_assoc]
        · intro e he
          rcases List.mem_append.mp he with he | he
          · exact hlimE e he
          · exact hlim1 e he
      · unfold rebuild
        cases hrun : runcmds os fl (some r'.output) (some (defaultTarget r none))
            (r.cmds.getD []) s1 with
        | error e =>
          right
          refine ⟨?_, e, rfl⟩
          intro hdef
          obtain ⟨s4, h4⟩ := runcmds_defined os fl (some r'.output) (some (defaultTarget r none))
            (r.cmds.getD []) s1 (by simpa [hsrc, defaultTarget] using hdef k (by simp) r hr)
          rw [h4] at hrun; cases hrun
        | ok s4 =>
          left
          obtain ⟨evs4, hlog4, hlim4⟩ := runcmds_log os fl _ _ _ _ s4 hrun
          refine ⟨_, rfl, evsE ++ (evs1 ++ evs4), ?_, ?_⟩
          · split <;> simp only <;> rw [hlog4, hlog1, hlogE] <;> simp [List.append_assoc]
          · intro e he
            rcases List.mem_append.mp he with he | he
            · exact hlimE e he
            · rcases List.mem_append.mp he with he | he
              · exact hlim1 e he
              · exact hlim4 e he
    · right
      refine ⟨?_, e, ?_⟩
      · intro hdef
        apply hndef
        rw [hrules]
        intro j hj
        exact hdef j (List.mem_cons_of_mem _ hj)
      · rw [hbody, he]

/-- C9: for a linear chain of `n` explicit rules that are not completed, each
having the next as its only prerequisite and the last having none, building
the first from depth 0: when `n ≥ 11`, `make` reports the recursion limit and
returns 1, and no command of any rule is echoed or run, no rule is marked
completed and the environment is untouched; when `n ≤ 10`, `make` returns 0
without reporting the limit (unless a command of the chain has undefined
behaviour in `docmd`, in which case nothing is returned).  Hence the limit is
reported with result 1 if and only if `n ≥ 11`. -/
theorem chain_recursion_limit {W : Type} (os : OS W) (fl : Flags) (fuel k : Nat)
    (rest : List Nat) (s : State W) (hc : Chain s.rules (k :: rest)) (hd : s.depth = 0)
    (hfuel : 11 ≤ fuel) :
    (11 ≤ rest.length + 1 →
        ∃ s', make os fl fuel k none none s = .ok (1, s') ∧ s'.rules = s.rules
          ∧ s'.world = s.world ∧ s'.fail = s.fail
          ∧ ∃ evs, s'.log = s.log ++ evs ∧ Event.recursionLimit ∈ evs
            ∧ ∀ e ∈ evs, Event.isCmd e = false)
    ∧ (rest.length + 1 ≤ 10 →
        (∃ s', make os fl fuel k none none s = .ok (0, s')
            ∧ ∃ evs, s'.log = s.log ++ evs ∧ Event.recursionLimit ∉ evs)
          ∨ (¬ CmdsDefined s.rules (k :: rest)
            ∧ ∃ e, make os fl fuel k none none s = .error e))
    ∧ ((∃ s' evs, make os fl fuel k none none s = .ok (1, s') ∧ s'.log = s.log ++ evs
          ∧ Event.recursionLimit ∈ evs) ↔ 11 ≤ rest.length + 1) := by
  have hlimit : 11 ≤ rest.length + 1 →
      ∃ s', make os fl fuel k none none s = .ok (1, s') ∧ s'.rules = s.rules
        ∧ s'.world = s.world ∧ s'.fail = s.fail
        ∧ ∃ evs, s'.log = s.log ++ evs ∧ Event.recursionLimit ∈ evs
          ∧ ∀ e ∈ evs, Event.isCmd e = false := by
    intro hn
    obtain ⟨s', h1, h2, h3, h4, _, h6⟩ := chain_limit_aux os fl rest k fuel s hc
      (by rw [hd]; omega) (by rw [hd]; omega) (by rw [hd]; omega)
    exact ⟨s', h1, h2, h3, h4, h6⟩
  have hok : rest.length + 1 ≤ 10 →
      (∃ s', make os fl fuel k none none s = .ok (0, s')
          ∧ ∃ evs, s'.log = s.log ++ evs ∧ Event.recursionLimit ∉ evs)
        ∨ (¬ CmdsDefined s.rules (k :: rest)
          ∧ ∃ e, make os fl fuel k none none s = .error e) := by
    intro hn
    rcases chain_ok_aux os fl rest k fuel s hc (by rw [hd]; omega) (by omega) with
      ⟨s', h1, evs, h2, h3⟩ | h
    · exact Or.inl ⟨s', h1, evs, h2, fun hmem => h3 _ hmem rfl⟩
    · exact Or.inr h
  refine ⟨hlimit, hok, ?_, ?_⟩
  · rintro ⟨s', evs, h1, _, _⟩
    by_contra hn
    rcases hok (by omega) with ⟨s0, h0, _⟩ | ⟨_, e, he⟩
    · rw [h0] at h1; simp at h1
    · rw [he] at h1; cases h1
  · intro hn
    obtain ⟨s', h1, _, _, _, evs, h5, h6, _⟩ := hlimit hn
    exact ⟨s', evs, h1, h5, h6⟩

/-- The eleven rules of `chain11` form a chain. -/
theorem chain11_isChain : Chain chain11 [0, 1, 2, 3, 4, 5, 6, 7, 8, 9, 10] := by
  refine ⟨_, _, rfl, rfl, rfl, rfl, rfl, rfl, ?_⟩
  refine ⟨_, _, rfl, rfl, rfl, rfl, rfl, rfl, ?_⟩
  refine ⟨_, _, rfl, rfl, rfl, rfl, rfl, rfl, ?_⟩
  refine ⟨_, _, rfl, rfl, rfl, rfl, rfl, rfl, ?_⟩
  refine ⟨_, _, rfl, rfl, rfl, rfl, rfl, rfl, ?_⟩
  refine ⟨_, _, rfl, rfl, rfl, rfl, rfl, rfl, ?_⟩
  refine ⟨_, _, rfl, rfl, rfl, rfl, rfl, rfl, ?_⟩
  refine ⟨_, _, rfl, rfl, rfl, rfl, rfl, rfl, ?_⟩
  refine ⟨_, _, rfl, rfl, rfl, rfl, rfl, rfl, ?_⟩
  refine ⟨_, _, rfl, rfl, rfl, rfl, rfl, rfl, ?_⟩
  exact ⟨_, rfl, rfl, rfl, rfl⟩

/-- The ten rules of `chain10` form a chain. -/
theorem chain10_isChain : Chain chain10 [0, 1, 2, 3, 4, 5, 6, 7, 8, 9] := by
  refine ⟨_, _, rfl, rfl, rfl, rfl, rfl, rfl, ?_⟩
  refine ⟨_, _, rfl, rfl, rfl, rfl, rfl, rfl, ?_⟩
  refine ⟨_, _, rfl, rfl, rfl, rfl, rfl, rfl, ?_⟩
  refine ⟨_, _, rfl, rfl, rfl, rfl, rfl, rfl, ?_⟩
  refine ⟨_, _, rfl, rfl, rfl, rfl, rfl, rfl, ?_⟩
  refine ⟨_, _, rfl, rfl, rfl, rfl, rfl, rfl, ?_⟩
  refine ⟨_, _, rfl, rfl, rfl, rfl, rfl, rfl, ?_⟩
  refine ⟨_, _, rfl, rfl, rfl, rfl, rfl, rfl, ?_⟩
  refine ⟨_, _, rfl, rfl, rfl, rfl, rfl, rfl, ?_⟩
  exact ⟨_, rfl, rfl, rfl, rfl⟩

/-- Instances of the recursion ceiling: the chain of eleven rules fails with the warning, the chain of ten rules succeeds without it. -/
theorem chain_recursion_limit_witness :
    (∃ s', make existingOS ⟨false, false, false⟩ 11 0 none none ⟨chain11, 0, 0, (), []⟩
        = .ok (1, s') ∧ s'.rules = chain11 ∧ s'.log = [Event.recursionLimit])
    ∧ (∃ s', make existingOS ⟨false, false, false⟩ 11 0 none none ⟨chain10, 0, 0, (), []⟩
        = .ok (0, s') ∧ Event.recursionLimit ∉ s'.log) := by
  have h11 := (chain_recursion_limit existingOS ⟨false, false, false⟩ 11 0
    [1, 2, 3, 4, 5, 6, 7, 8, 9, 10] ⟨chain11, 0, 0, (), []⟩ chain11_isChain rfl
    (Nat.le_refl _)).1 (by decide)
  have h10 := (chain_recursion_limit existingOS ⟨false, false, false⟩ 11 0
    [1, 2, 3, 4, 5, 6, 7, 8, 9] ⟨chain10, 0, 0, (), []⟩ chain10_isChain rfl
    (Nat.le_refl _)).2.1 (by decide)
  constructor
  · obtain ⟨s', h1, h2, _, _, _⟩ := h11
    refine ⟨s', h1, h2, ?_⟩
    have hs : make existingOS ⟨false, false, false⟩ 11 0 none none ⟨chain11, 0, 0, (), []⟩
        = .ok (1, ⟨chain11, 1, 0, (), [Event.recursionLimit]⟩) := rfl
    rw [hs] at h1
    simp only [Except.ok.injEq, Prod.mk.injEq, true_and] at h1
    rw [← h1]
  · rcases h10 with ⟨s', h1, evs, h2, h3⟩ | ⟨_, e, he⟩
    · exact ⟨s', h1, by rw [h2]; simpa using h3⟩
    · have hs : ∃ s', make existingOS ⟨false, false, false⟩ 11 0 none none
          ⟨chain10, 0, 0, (), []⟩ = .ok (0, s') := ⟨_, rfl⟩
      obtain ⟨s', hs'⟩ := hs
      rw [hs'] at he; cases he

/-! ## The commands of a rule -/

theorem runcmds_events {W : Type} (os : OS W) (fl : Flags) (src target : Option Str) :
    ∀ (cmds : List Str) (s : State W),
      (∀ c ∈ cmds, ∃ res, prepare c src target = .ok res) →
      ∃ s', runcmds os fl src target cmds s = .ok s'
        ∧ s'.log = s.log ++ cmdEvents fl src target cmds
        ∧ s'.rules = s.rules ∧ s'.depth = s.depth ∧ s'.fail = s.fail := by
  intro cmds
  induction cmds with
  | nil => intro s _; exact ⟨s, rfl, by simp [cmdEvents], rfl, rfl, rfl⟩
  | cons c cs ih =>
    intro s h
    obtain ⟨⟨iexit, noecho, sp⟩, hp⟩ := h c (by simp)
    have hd := docmd_step os fl c src target s iexit noecho sp hp
    obtain ⟨s', h1, h2, h3, h4, h5⟩ := ih
      { s with world := (if fl.nflag then s.world else (os.system s.world sp).2),
               log := s.log ++ docmdEvents fl noecho sp }
      (fun c' hc' => h c' (List.mem_cons_of_mem _ hc'))
    refine ⟨s', ?_, ?_, h3, h4, h5⟩
    · rw [runcmds, hd]; exact h1
    · rw [h2]; simp [cmdEvents, hp, List.append_assoc]

theorem cmdEvents_exec_count (fl : Flags) (src target : Option Str) (hn : fl.nflag = false) :
    ∀ (cmds : List Str), (∀ c ∈ cmds, ∃ res, prepare c src target = .ok res) →
      ((cmdEvents fl src target cmds).filter Event.isExec).length = cmds.length := by
  intro cmds
  induction cmds with
  | nil => intro _; rfl
  | cons c cs ih =>
    intro h
    obtain ⟨⟨iexit, noecho, sp⟩, hp⟩ := h c (by simp)
    have := ih (fun c' hc' => h c' (List.mem_cons_of_mem _ hc'))
    cases hs : fl.sflag <;> cases noecho <;>
      simp [cmdEvents, hp, docmdEvents, hn, hs, Event.isExec, this]

/-- C11: for a rule that is not completed, is entered within the depth
ceiling and whose prerequisites all resolve successfully, if `stat` on the
target fails (the file does not exist), `make` goes on to lines 165-173
whatever the modification times of the prerequisites and of the source are;
and when every command is one `docmd` is defined on, it returns 0 having
handled every command of the rule, in listed order. -/
theorem make_target_absent {W : Type} (os : OS W) (fl : Flags) (n i : Nat)
    (src target : Option Str) (s : State W) (r : Rule) (ins : List Str) (stv0 : Timespec)
    (s3 : State W)
    (hr : ruleAt s.rules i = some r) (hd : r.done = false) (hdepth : s.depth < 10)
    (hin : r.input = some ins)
    (hpre : prereqs os (makebyname os fl n) ins false ⟨0, 0⟩ (enter fl r src target s)
      = .ok (false, stv0, s3))
    (htgt : os.stat s3.world (defaultTarget r target) = none) :
    make os fl (n + 1) i src target s
        = rebuild os fl r i (defaultSrc r src) (defaultTarget r target) s3
    ∧ ((∀ c ∈ r.cmds.getD [],
          ∃ res, prepare c (defaultSrc r src) (some (defaultTarget r target)) = .ok res) →
        ∃ s', make os fl (n + 1) i src target s = .ok (0, s')
          ∧ s'.log = s3.log
              ++ cmdEvents fl (defaultSrc r src) (some (defaultTarget r target)) (r.cmds.getD [])
          ∧ (fl.nflag = false →
              ((cmdEvents fl (defaultSrc r src) (some (defaultTarget r target))
                (r.cmds.getD [])).filter Event.isExec).length = (r.cmds.getD []).length)) := by
  have hmk : make os fl (n + 1) i src target s
      = rebuild os fl r i (defaultSrc r src) (defaultTarget r target) s3 := by
    rw [make_body os fl n i src target s r ins hr hd hdepth hin, hpre]
    have hf : fresh os s3.world (defaultSrc r src) (defaultTarget r target)
        (newest stv0 (statOpt os s3.world (defaultSrc r src))) = false := by
      unfold fresh; rw [htgt]; cases defaultSrc r src <;> rfl
    simp [hf]
  refine ⟨hmk, ?_⟩
  intro hdef
  obtain ⟨s4, h4, hlog, _, _, _⟩ := runcmds_events os fl (defaultSrc r src)
    (some (defaultTarget r target)) (r.cmds.getD []) s3 hdef
  rw [hmk]
  unfold rebuild
  rw [h4]
  refine ⟨_, rfl, ?_, fun hn => cmdEvents_exec_count fl _ _ hn _ hdef⟩
  split <;> exact hlog

/-- Instance of C11: `a.o` is missing although its prerequisite `a.c` is old;
the rule's two commands are both run, in order. -/
theorem make_target_absent_witness :
    make existingOS ⟨false, false, false⟩ 2 0 none none
        ⟨[⟨"a.o".data, some ["t".data], some ["@cc -c $<".data, "@touch $@".data], false⟩],
          0, 0, (), []⟩
      = .ok (0, ⟨[⟨"a.o".data, some ["t".data], some ["@cc -c $<".data, "@touch $@".data],
          true⟩], 0, 0, (), [Event.exec "cc -c t".data, Event.exec "touch a.o".data]⟩) := by
  have h := (make_target_absent existingOS ⟨false, false, false⟩ 1 0 none none
    ⟨[⟨"a.o".data, some ["t".data], some ["@cc -c $<".data, "@touch $@".data], false⟩],
      0, 0, (), []⟩
    ⟨"a.o".data, some ["t".data], some ["@cc -c $<".data, "@touch $@".data], false⟩
    ["t".data] ⟨5, 0⟩
    ⟨[⟨"a.o".data, some ["t".data], some ["@cc -c $<".data, "@touch $@".data], false⟩],
      1, 0, (), []⟩ rfl rfl (by decide) rfl rfl rfl).1
  rw [h]; rfl

/-- C12: when `makebyname` returns nonzero for one prerequisite of a rule
(that is not completed and is entered within the depth ceiling), the loop
still goes through every later prerequisite in listed order, and `make` then
returns 1 from line 156 with the state exactly as the loop left it, but for
the depth counter: no command of the rule is run and its `done` flag is not
touched. -/
theorem make_prereq_failure {W : Type} (os : OS W) (fl : Flags) (n i : Nat)
    (src target : Option Str) (s0 : State W) (r : Rule) (pre post : List Str) (x : Str)
    (f1 : Bool) (stv1 : Timespec) (s1 : State W) (ret : Int) (s2 : State W)
    (f3 : Bool) (stv3 : Timespec) (s3 : State W)
    (hr : ruleAt s0.rules i = some r) (hd : r.done = false) (hdepth : s0.depth < 10)
    (hin : r.input = some (pre ++ x :: post))
    (hpre : prereqs os (makebyname os fl n) pre false ⟨0, 0⟩ (enter fl r src target s0)
      = .ok (f1, stv1, s1))
    (hx : makebyname os fl n x s1 = .ok (ret, s2)) (hret : ret ≠ 0)
    (hpost : prereqs os (makebyname os fl n) post true (newest stv1 (os.stat s2.world x)) s2
      = .ok (f3, stv3, s3)) :
    prereqs os (makebyname os fl n) (pre ++ x :: post) false ⟨0, 0⟩ (enter fl r src target s0)
        = .ok (true, stv3, s3)
    ∧ make os fl (n + 1) i src target s0 = .ok (1, { s3 with depth := s3.depth - 1 })
    ∧ ruleAt ({ s3 with depth := s3.depth - 1 } : State W).rules i = ruleAt s3.rules i
    ∧ ({ s3 with depth := s3.depth - 1 } : State W).log = s3.log := by
  have hf3 : f3 = true := prereqs_failed os _ post _ s2 f3 stv3 s3 hpost
  refine ⟨?_, make_prereq_nonzero os fl n i src target s0 r pre post x f1 stv1 s1 ret s2 f3
    stv3 s3 hr hd hdepth hin hpre hx hret hpost, rfl, rfl⟩
  subst hf3
  rw [prereqs_append, hpre]
  simp only [prereqs, hx]
  have : (f1 || decide (ret ≠ 0)) = true := by simp [hret]
  rw [this]; exact hpost

/-- Instance of C12: `all` needs `x` (no rule, no file) and then `t`; `x`
fails, `t` is built all the same, and `all` returns 1 without running its own
command or being marked done. -/
theorem make_prereq_failure_witness :
    make existingOS ⟨false, false, false⟩ 2 0 none none
        ⟨[⟨"all".data, some ["x".data, "t".data], some ["@echo all".data], false⟩,
          ⟨"t".data, some [], some ["@touch t".data], false⟩], 0, 0, (), []⟩
      = .ok (1, ⟨[⟨"all".data, some ["x".data, "t".data], some ["@echo all".data], false⟩,
          ⟨"t".data, some [], some ["@touch t".data], true⟩], 0, 1, (),
          [Event.noRule "x".data, Event.exec "touch t".data]⟩) :=
  (make_prereq_failure existingOS ⟨false, false, false⟩ 1 0 none none
    ⟨[⟨"all".data, some ["x".data, "t".data], some ["@echo all".data], false⟩,
      ⟨"t".data, some [], some ["@touch t".data], false⟩], 0, 0, (), []⟩
    ⟨"all".data, some ["x".data, "t".data], some ["@echo all".data], false⟩
    [] ["t".data] "x".data false ⟨0, 0⟩
    ⟨[⟨"all".data, some ["x".data, "t".data], some ["@echo all".data], false⟩,
      ⟨"t".data, some [], some ["@touch t".data], false⟩], 1, 0, (), []⟩
    (-1)
    ⟨[⟨"all".data, some ["x".data, "t".data], some ["@echo all".data], false⟩,
      ⟨"t".data, some [], some ["@touch t".data], false⟩], 1, 1, (), [Event.noRule "x".data]⟩
    true ⟨5, 0⟩
    ⟨[⟨"all".data, some ["x".data, "t".data], some ["@echo all".data], false⟩,
      ⟨"t".data, some [], some ["@touch t".data], true⟩], 1, 1, (),
      [Event.noRule "x".data, Event.exec "touch t".data]⟩
    rfl rfl (by decide) rfl rfl rfl (by decide) rfl).2.1

/-- C17: when `make` goes on to the command loop (the rule is not completed,
the call is within the depth ceiling, the prerequisites resolved and the
target was not found up to date) and `docmd` is defined on every command, the
loop handles every command of the rule in listed order, whatever the shell
reports for each, and `make` then returns 0 and marks an explicit rule
completed. -/
theorem make_commands_not_aggregated {W : Type} (os : OS W) (fl : Flags) (n i : Nat)
    (src target : Option Str) (s : State W) (r : Rule) (ins : List Str) (stv0 : Timespec)
    (s3 : State W)
    (hr : ruleAt s.rules i = some r) (hd : r.done = false) (hdepth : s.depth < 10)
    (hin : r.input = some ins)
    (hpre : prereqs os (makebyname os fl n) ins false ⟨0, 0⟩ (enter fl r src target s)
      = .ok (false, stv0, s3))
    (hstale : fresh os s3.world (defaultSrc r src) (defaultTarget r target)
      (newest stv0 (statOpt os s3.world (defaultSrc r src))) = false)
    (hdef : ∀ c ∈ r.cmds.getD [],
      ∃ res, prepare c (defaultSrc r src) (some (defaultTarget r target)) = .ok res) :
    ∃ s4 s', runcmds os fl (defaultSrc r src) (some (defaultTarget r target))
          (r.cmds.getD []) s3 = .ok s4
      ∧ s4.log = s3.log
          ++ cmdEvents fl (defaultSrc r src) (some (defaultTarget r target)) (r.cmds.getD [])
      ∧ (fl.nflag = false →
          ((cmdEvents fl (defaultSrc r src) (some (defaultTarget r target))
            (r.cmds.getD [])).filter Event.isExec).length = (r.cmds.getD []).length)
      ∧ make os fl (n + 1) i src target s = .ok (0, s')
      ∧ s'.log = s4.log
      ∧ (isExplicit r = true → ∃ r', ruleAt s'.rules i = some r' ∧ r'.done = true) := by
  obtain ⟨s4, h4, hlog, hrules, _, _⟩ := runcmds_events os fl (defaultSrc r src)
    (some (defaultTarget r target)) (r.cmds.getD []) s3 hdef
  have hmk : make os fl (n + 1) i src target s
      = .ok (0, { (if isExplicit r then { s4 with rules := setDone s4.rules i } else s4)
          with depth := (if isExplicit r then { s4 with rules := setDone s4.rules i }
            else s4).depth - 1 }) := by
    rw [make_body os fl n i src target s r ins hr hd hdepth hin, hpre]
    simp [hstale, rebuild, h4]
  refine ⟨s4, _, h4, hlog, fun hn => cmdEvents_exec_count fl _ _ hn _ hdef, hmk, ?_, ?_⟩
  · split <;> rfl
  · intro hex
    have h3 : Extends s.rules s3.rules := by
      have := prereqs_frame os _ (makebyname_frame os fl n) ins false ⟨0, 0⟩ _ false stv0 s3 hpre
      rwa [enter_rules] at this
    obtain ⟨r3, hr3, _⟩ := extends_ruleAt h3 i r hr
    rw [← hrules] at hr3
    exact ⟨_, by simpa [hex] using setDone_getElem s4.rules i r3 hr3, rfl⟩

/-- Instance of C17: both commands of `t` fail (the shell reports 1), both
are run, and `make` returns 0 with `t` marked done. -/
theorem make_commands_not_aggregated_witness :
    ∃ s', make failingOS ⟨false, false, false⟩ 1 0 none none
        ⟨[⟨"t".data, some [], some ["@false".data, "@cc -o $@".data], false⟩], 0, 0, (), []⟩
        = .ok (0, s')
      ∧ s'.log = [Event.exec "false".data, Event.exec "cc -o t".data]
      ∧ ∃ r', ruleAt s'.rules 0 = some r' ∧ r'.done = true := by
  obtain ⟨s4, s', _, hlog4, _, hmk, hlog, hdone⟩ := make_commands_not_aggregated failingOS
    ⟨false, false, false⟩ 0 0 none none
    ⟨[⟨"t".data, some [], some ["@false".data, "@cc -o $@".data], false⟩], 0, 0, (), []⟩
    ⟨"t".data, some [], some ["@false".data, "@cc -o $@".data], false⟩ [] ⟨0, 0⟩
    ⟨[⟨"t".data, some [], some ["@false".data, "@cc -o $@".data], false⟩], 1, 0, (), []⟩
    rfl rfl (by decide) rfl rfl rfl
    (by
      intro c hc
      simp at hc
      rcases hc with rfl | rfl
      · exact ⟨_, rfl⟩
      · exact ⟨_, rfl⟩)
  exact ⟨s', hmk, by rw [hlog, hlog4]; rfl, hdone rfl⟩

/-! ## The end-to-end scenario -/

theorem isCmd_false_isExec {e : Event} (h : Event.isCmd e = false) : Event.isExec e = false := by
  cases e <;> simp [Event.isCmd] at h <;> rfl

theorem filter_isExec_of_noCmd (evs : List Event) (h : ∀ e ∈ evs, Event.isCmd e = false) :
    evs.filter Event.isExec = [] := by
  rw [List.filter_eq_nil_iff]
  intro e he
  simp [isCmd_false_isExec (h e he)]

theorem filter_isExec_docmdEvents (fl : Flags) (hn : fl.nflag = false) (noecho : Bool) (sp : Str) :
    (docmdEvents fl noecho sp).filter Event.isExec = [Event.exec sp] := by
  cases hs : fl.sflag <;> cases noecho <;> simp [docmdEvents, hn, hs, Event.isExec]

/-- C15: with the rule table made of the explicit rule `app` (prerequisite
`app.o`, command `cc -o $@ $<`) and the pattern rule `.c.o` (no prerequisite,
command `cc -c $< -o $@`), `app.o` absent, and `app` absent once the first
command has run, requesting `app` from the initial state of a run that is not
a dry run makes exactly two `system` calls, `cc -c app.c -o app.o` and then
`cc -o app app.o`, and returns 0, with the depth counter back at 0 and the
fail indicator clear. -/
theorem app_scenario {W : Type} (os : OS W) (fl : Flags) (n : Nat) (w : W)
    (hn : fl.nflag = false)
    (happo : os.stat w "app.o".data = none)
    (happ : os.stat (os.system w "cc -c app.c -o app.o".data).2 "app".data = none) :
    ∃ s', makebyname os fl (n + 2) "app".data ⟨appTable, 0, 0, w, []⟩ = .ok (0, s')
      ∧ s'.log.filter Event.isExec
          = [Event.exec "cc -c app.c -o app.o".data, Event.exec "cc -o app app.o".data]
      ∧ s'.world = (os.system (os.system w "cc -c app.c -o app.o".data).2 "cc -o app app.o".data).2
      ∧ s'.depth = 0 ∧ s'.fail = 0 := by
  have hp1 : prepare "cc -c $< -o $@".data (some "app.c".data) (some "app.o".data)
      = .ok (false, false, "cc -c app.c -o app.o".data) := rfl
  have hp2 : prepare "cc -o $@ $<".data (some "app.o".data) (some "app".data)
      = .ok (false, false, "cc -o app app.o".data) := rfl
  have hx1 : findExplicit "app".data appTable 0 = some 0 := rfl
  have hx2 : findExplicit "app.o".data appTable 0 = none := rfl
  have hx3 : strchr "app.o".data '.' = some 3 := rfl
  have hx4 : findTwoSuffix "app.o".data 3 appTable 0 = some (1, "app.c".data) := rfl
  have hds1 : defaultSrc objRule (some "app.c".data) = some "app.c".data := rfl
  have hdt1 : defaultTarget objRule (some "app.o".data) = "app.o".data := rfl
  have hcm1 : objRule.cmds.getD [] = ["cc -c $< -o $@".data] := rfl
  have hex1 : isExplicit objRule = false := rfl
  have hds0 : defaultSrc appRule none = some "app.o".data := rfl
  have hdt0 : defaultTarget appRule none = "app".data := rfl
  have hcm0 : appRule.cmds.getD [] = ["cc -o $@ $<".data] := rfl
  have hex0 : isExplicit appRule = true := rfl
  obtain ⟨hw1, hf1, hd1⟩ := enter_facts fl appRule none none (⟨appTable, 0, 0, w, []⟩ : State W)
  obtain ⟨evs1, hl1, hc1, _⟩ := enter_log fl appRule none none (⟨appTable, 0, 0, w, []⟩ : State W)
  have hr1 := enter_rules fl appRule none none (⟨appTable, 0, 0, w, []⟩ : State W)
  have hbody0 := make_body os fl (n + 1) 0 none none (⟨appTable, 0, 0, w, []⟩ : State W) appRule
    ["app.o".data] rfl rfl (show (0 : Int) < 10 by decide) rfl
  generalize enter fl appRule none none (⟨appTable, 0, 0, w, []⟩ : State W) = e1 at *
  simp only at hw1 hf1 hd1 hl1 hr1
  obtain ⟨hw2, hf2, hd2⟩ := enter_facts fl objRule (some "app.c".data) (some "app.o".data) e1
  obtain ⟨evs2, hl2, hc2, _⟩ := enter_log fl objRule (some "app.c".data) (some "app.o".data) e1
  have hr2 := enter_rules fl objRule (some "app.c".data) (some "app.o".data) e1
  have hbody1 := make_body os fl n 1 (some "app.c".data) (some "app.o".data) e1 objRule []
    (by rw [hr1]; rfl) rfl (by rw [hd1]; decide) rfl
  generalize enter fl objRule (some "app.c".data) (some "app.o".data) e1 = e2 at *
  rw [makebyname_explicit os fl (n + 2) "app".data _ 0 hx1, hbody0]
  generalize "app.o".data = nAppO at *
  generalize "app.c".data = nAppC at *
  generalize "app".data = nApp at *
  generalize "cc -c app.c -o app.o".data = c1 at *
  generalize "cc -o app app.o".data = c2 at *
  generalize "cc -c $< -o $@".data = t1 at *
  generalize "cc -o $@ $<".data = t2 at *
  generalize objRule = r1 at *
  generalize appRule = r0 at *
  -- the inner call, for `app.o`
  have hinner : makebyname os fl (n + 1) nAppO e1
      = .ok (0, { e2 with world := (os.system w c1).2,
                          log := e2.log ++ docmdEvents fl false c1,
                          depth := e2.depth - 1 }) := by
    have h1 : makebyname os fl (n + 1) nAppO e1
        = make os fl (n + 1) 1 (some nAppC) (some nAppO) e1 := by
      simp only [makebyname, makebynameWith, hr1, hx2, hx3, hx4]
    have hfresh : ∀ (stv : Timespec), fresh os w (some nAppC) nAppO stv = false := by
      intro stv; unfold fresh; rw [happo]
    rw [h1, hbody1]
    simp only [prereqs, hds1, hdt1, hfresh, Bool.false_eq_true, if_false, rebuild, hcm1, runcmds,
      docmd_step os fl _ _ _ e2 false false _ hp1, hex1, hn, hw2, hw1]
  have hfresh : ∀ (stv : Timespec), fresh os (os.system w c1).2 (some nAppO) nApp stv = false := by
    intro stv; unfold fresh; rw [happ]
  simp only [prereqs, hinner, hds0, hdt0, hfresh, ne_eq, not_true_eq_false, decide_False,
    Bool.or_false, Bool.false_eq_true, if_false, rebuild, hcm0, runcmds,
    docmd_step os fl _ _ _ _ false false _ hp2, hex0, hn, if_true]
  refine ⟨_, rfl, ?_, rfl, ?_, ?_⟩
  · simp only [hl2, hl1, List.nil_append, List.filter_append, filter_isExec_of_noCmd evs1 hc1,
      filter_isExec_of_noCmd evs2 hc2, filter_isExec_docmdEvents fl hn]
    rfl
  · simp only [hd2, hd1]; omega
  · simp only [hf2, hf1]

/-- Instance of C15: only `app.c` exists at the start; both commands run and
both files exist at the end. -/
theorem app_scenario_witness :
    ∃ s', makebyname ccOS ⟨false, false, false⟩ 2 "app".data
        ⟨appTable, 0, 0, ["app.c".data], []⟩ = .ok (0, s')
      ∧ s'.log.filter Event.isExec
          = [Event.exec "cc -c app.c -o app.o".data, Event.exec "cc -o app app.o".data]
      ∧ s'.world = ["app".data, "app.o".data, "app.c".data]
      ∧ s'.depth = 0 ∧ s'.fail = 0 :=
  app_scenario ccOS ⟨false, false, false⟩ 0 ["app.c".data] rfl (by decide) (by decide)

/-! ## `main` (lines 293-309) -/

theorem pickDefault_none : ∀ (rules : List Rule) (k0 : Nat) (d : Option Nat), rules ≠ [] →
    (∀ j r, j + 1 < rules.length → ruleAt rules j = some r → isExplicit r = false) →
    pickDefault rules k0 d = .ok d := by
  intro rules
  induction rules with
  | nil => intro k0 d h; exact absurd rfl h
  | cons x xs ih =>
    intro k0 d _ h
    cases xs with
    | nil => rfl
    | cons y ys =>
      have hx : isExplicit x = false := h 0 x (by simp) rfl
      rw [pickDefault, hx]
      simp only [Bool.false_eq_true, if_false]
      exact ih (k0 + 1) d (by simp)
        (fun j r hj hr => h (j + 1) r (by simp at hj ⊢; omega) (by simpa [ruleAt] using hr))

theorem pickDefault_last : ∀ (rules : List Rule) (k0 : Nat) (d : Option Nat) (k : Nat) (r : Rule),
    k + 1 < rules.length → ruleAt rules k = some r → isExplicit r = true →
    (∀ j r', k < j → j + 1 < rules.length → ruleAt rules j = some r' → isExplicit r' = false) →
    pickDefault rules k0 d = .ok (some (k0 + k)) := by
  intro rules
  induction rules with
  | nil => intro k0 d k r h; simp at h
  | cons x xs ih =>
    intro k0 d k r hk hr hex hlast
    cases xs with
    | nil => simp at hk
    | cons y ys =>
      cases k with
      | zero =>
        simp only [ruleAt, Option.some.injEq] at hr
        subst hr
        rw [pickDefault, hex]
        simp only [if_true]
        exact pickDefault_none (y :: ys) (k0 + 1) (some k0) (by simp)
          (fun j r' hj hr' => hlast (j + 1) r' (by omega) (by simp at hj ⊢; omega)
            (by simpa [ruleAt] using hr'))
      | succ k =>
        rw [pickDefault, ih (k0 + 1) _ k r (by simp at hk ⊢; omega) (by simpa [ruleAt] using hr) hex
          (fun j r' hj hj' hr' => hlast (j + 1) r' (by omega) (by simp at hj' ⊢; omega)
            (by simpa [ruleAt] using hr'))]
        congr 2; omega

/-- C14: when no target name is given and the rule list is not empty, `main`
builds the last explicit rule among the entries of the list other than the
final one, by `make` without overrides, and then returns `fail`; when none of
those entries is explicit (the only explicit rule is the final entry, or there
is none), the run ends with `no default target` and status 1, and nothing is
built. -/
theorem main_default_target {W : Type} (os : OS W) (fl : Flags) (n : Nat) (s : State W)
    (hne : s.rules ≠ []) :
    (∀ k r, k + 1 < s.rules.length → ruleAt s.rules k = some r → isExplicit r = true →
        (∀ j r', k < j → j + 1 < s.rules.length → ruleAt s.rules j = some r' →
          isExplicit r' = false) →
        main os fl n [] s
          = match make os fl n k none none s with
            | .error e => .error e
            | .ok (_, s1) => .ok (s1.fail, s1))
    ∧ ((∀ j r, j + 1 < s.rules.length → ruleAt s.rules j = some r → isExplicit r = false) →
        main os fl n [] s = .ok (1, { s with log := s.log ++ [Event.noDefaultTarget] })) := by
  constructor
  · intro k r hk hr hex hlast
    have h := pickDefault_last s.rules 0 none k r hk hr hex hlast
    simp only [Nat.zero_add] at h
    simp only [main, h]
  · intro hnone
    simp only [main, pickDefault_none s.rules 0 none hne hnone]

/-- Instance of C14: of `a`, `b`, `.c.o`, `z` the rule built is `b`, not the
final entry `z`; and with `z` as the only explicit rule nothing is built. -/
theorem main_default_target_witness :
    main existingOS ⟨false, false, false⟩ 1 []
        ⟨[⟨"a".data, some [], some ["@echo a".data], false⟩,
          ⟨"b".data, some [], some ["@echo b".data], false⟩,
          ⟨".c.o".data, some [], none, false⟩,
          ⟨"z".data, some [], some ["@echo z".data], false⟩], 0, 0, (), []⟩
      = .ok (0, ⟨[⟨"a".data, some [], some ["@echo a".data], false⟩,
          ⟨"b".data, some [], some ["@echo b".data], true⟩,
          ⟨".c.o".data, some [], none, false⟩,
          ⟨"z".data, some [], some ["@echo z".data], false⟩], 0, 0, (),
          [Event.exec "echo b".data]⟩)
    ∧ main existingOS ⟨false, false, false⟩ 1 []
        ⟨[⟨".c.o".data, some [], none, false⟩,
          ⟨"z".data, some [], some ["@echo z".data], false⟩], 0, 0, (), []⟩
      = .ok (1, ⟨[⟨".c.o".data, some [], none, false⟩,
          ⟨"z".data, some [], some ["@echo z".data], false⟩], 0, 0, (),
          [Event.noDefaultTarget]⟩) := by
  constructor
  · rw [(main_default_target existingOS ⟨false, false, false⟩ 1
      ⟨[⟨"a".data, some [], some ["@echo a".data], false⟩,
        ⟨"b".data, some [], some ["@echo b".data], false⟩,
        ⟨".c.o".data, some [], none, false⟩,
        ⟨"z".data, some [], some ["@echo z".data], false⟩], 0, 0, (), []⟩ (by simp)).1 1
      ⟨"b".data, some [], some ["@echo b".data], false⟩ (by decide) rfl rfl
      (by
        intro j r' hj hj' hr'
        have hj2 : j = 2 := by simp at hj'; omega
        subst hj2
        simp [ruleAt] at hr'
        subst hr'
        rfl)]
    rfl
  · exact (main_default_target existingOS ⟨false, false, false⟩ 1
      ⟨[⟨".c.o".data, some [], none, false⟩,
        ⟨"z".data, some [], some ["@echo z".data], false⟩], 0, 0, (), []⟩ (by simp)).2
      (by
        intro j r hj hr
        have hj0 : j = 0 := by simp at hj; omega
        subst hj0
        simp [ruleAt] at hr
        subst hr
        rfl)

/-! ## Relations kept by every step of a run -/

theorem setDone_none : ∀ (a : List Rule) (i : Nat), ruleAt a i = none → setDone a i = a := by
  intro a
  induction a with
  | nil => intro i _; rfl
  | cons x xs ih =>
    intro i h
    cases i with
    | zero => simp [ruleAt] at h
    | succ i => simp only [setDone]; rw [ih i (by simpa [ruleAt] using h)]

theorem runcmds_inv {W : Type} {os : OS W} {fl : Flags} {R : State W → State W → Prop}
    (hR : StepInv os fl R) (src target : Option Str) :
    ∀ (cmds : List Str) (s s' : State W), runcmds os fl src target cmds s = .ok s' → R s s' := by
  intro cmds
  induction cmds with
  | nil => intro s s' h; simp only [runcmds, Except.ok.injEq] at h; rw [← h]; exact hR.refl s
  | cons c cs ih =>
    intro s s' h
    rw [runcmds] at h
    split at h
    · cases h
    · rename_i ret s1 hd
      exact hR.trans _ _ _ (hR.docmd c src target s ret s1 hd) (ih s1 s' h)

theorem rebuild_inv {W : Type} {os : OS W} {fl : Flags} {R : State W → State W → Prop}
    (hR : StepInv os fl R) (r : Rule) (i : Nat) (src : Option Str) (target : Str)
    (s : State W) (ret : Int) (s' : State W)
    (hro : ∀ r', ruleAt s.rules i = some r' → r'.output = r.output)
    (h : rebuild os fl r i src target s = .ok (ret, s')) : R s s' := by
  unfold rebuild at h
  split at h
  · cases h
  · rename_i s4 hc
    have h4 := runcmds_rules os fl src (some target) _ s s4 hc
    have hR4 := runcmds_inv hR src (some target) _ s s4 hc
    simp only [Except.ok.injEq, Prod.mk.injEq] at h
    rw [← h.2]
    by_cases hex : isExplicit r = true
    · simp only [hex, if_true]
      cases hi : ruleAt s4.rules i with
      | none =>
        rw [setDone_none s4.rules i hi]
        exact hR.trans _ _ _ hR4 (hR.leave s4)
      | some r' =>
        have ho : r'.output = r.output := hro r' (by rw [← h4]; exact hi)
        have hex' : isExplicit r' = true := by
          unfold isExplicit at hex ⊢; rw [ho]; exact hex
        exact hR.trans _ _ _ hR4
          (hR.trans _ _ _ (hR.done s4 i r' hi hex') (hR.leave { s4 with rules := setDone s4.rules i }))
    · simp only [hex]
      exact hR.trans _ _ _ hR4 (hR.leave s4)

theorem prereqs_inv {W : Type} {os : OS W} {fl : Flags} {R : State W → State W → Prop}
    (hR : StepInv os fl R) (mkbn : Str → State W → Res W)
    (hm : ∀ x s ret s', mkbn x s = .ok (ret, s') → R s s') :
    ∀ (ins : List Str) (f : Bool) (stv : Timespec) (s : State W) (f' : Bool) (stv' : Timespec)
      (s' : State W), prereqs os mkbn ins f stv s = .ok (f', stv', s') → R s s' := by
  intro ins
  induction ins with
  | nil =>
    intro f stv s f' stv' s' h
    simp only [prereqs, Except.ok.injEq, Prod.mk.injEq] at h
    rw [← h.2.2]; exact hR.refl s
  | cons x xs ih =>
    intro f stv s f' stv' s' h
    rw [prereqs] at h
    split at h
    · cases h
    · rename_i ret s1 hx
      exact hR.trans _ _ _ (hm x s ret s1 hx) (ih _ _ s1 f' stv' s' h)

theorem makeWith_inv {W : Type} {os : OS W} {fl : Flags} {R : State W → State W → Prop}
    (hR : StepInv os fl R) (mkbn : Str → State W → Res W)
    (hf : ∀ x, Frame (mkbn x))
    (hm : ∀ x s ret s', mkbn x s = .ok (ret, s') → R s s')
    (i : Nat) (src target : Option Str) (s : State W) (ret : Int) (s' : State W)
    (h : makeWith os fl mkbn i src target s = .ok (ret, s')) : R s s' := by
  unfold makeWith at h
  split at h
  · cases h
  · rename_i r hr
    split at h
    · simp only [Except.ok.injEq, Prod.mk.injEq] at h
      rw [← h.2]; exact hR.refl s
    · split at h
      · cases h
      · split at h
        · simp only [Except.ok.injEq, Prod.mk.injEq] at h
          rw [← h.2]; exact hR.limit s
        · split at h
          · cases h
          · rename_i ins hin
            split at h
            · cases h
            · rename_i f stv0 s3 hp
              have h3 : Extends s.rules s3.rules := by
                have := prereqs_frame os mkbn hf ins false ⟨0, 0⟩ _ f stv0 s3 hp
                rwa [enter_rules] at this
              have hR3 : R s s3 :=
                hR.trans _ _ _ (hR.enter r src target s)
                  (prereqs_inv hR mkbn hm ins false ⟨0, 0⟩ _ f stv0 s3 hp)
              split at h
              · simp only [Except.ok.injEq, Prod.mk.injEq] at h
                rw [← h.2]; exact hR.trans _ _ _ hR3 (hR.leave s3)
              · split at h
                · simp only [Except.ok.injEq, Prod.mk.injEq] at h
                  rw [← h.2]; exact hR.trans _ _ _ hR3 (hR.leave s3)
                · refine hR.trans _ _ _ hR3 (rebuild_inv hR r i _ _ s3 ret s' ?_ h)
                  intro r' hr'
                  obtain ⟨r'', hr'', hle⟩ := extends_ruleAt h3 i r hr
                  rw [hr'] at hr''
                  simp only [Option.some.injEq] at hr''
                  rw [hr'']; exact hle.1

theorem makebynameWith_inv {W : Type} {os : OS W} {fl : Flags} {R : State W → State W → Prop}
    (hR : StepInv os fl R) (mk : Nat → Option Str → Option Str → State W → Res W)
    (hmk : ∀ i src target s ret s', mk i src target s = .ok (ret, s') → R s s')
    (name : Str) (s : State W) (ret : Int) (s' : State W)
    (h : makebynameWith os mk name s = .ok (ret, s')) : R s s' := by
  have hleaf : ∀ ret s', leaf os name s = .ok (ret, s') → R s s' := by
    intro ret s' h
    unfold leaf at h
    split at h
    · simp only [Except.ok.injEq, Prod.mk.injEq] at h
      rw [← h.2]; exact hR.refl s
    · simp only [Except.ok.injEq, Prod.mk.injEq] at h
      rw [← h.2]; exact hR.noRule s name
  unfold makebynameWith at h
  split at h
  · exact hmk _ _ _ s ret s' h
  · split at h
    · split at h
      · exact hmk _ _ _ s ret s' h
      · exact hleaf ret s' h
    · split at h
      · exact hmk _ _ _ s ret s' h
      · exact hleaf ret s' h

theorem make_inv {W : Type} {os : OS W} {fl : Flags} {R : State W → State W → Prop}
    (hR : StepInv os fl R) :
    ∀ (n i : Nat) (src target : Option Str) (s : State W) (ret : Int) (s' : State W),
      make os fl n i src target s = .ok (ret, s') → R s s' := by
  intro n
  induction n with
  | zero => intro i src target s ret s' h; cases h
  | succ n ih =>
    intro i src target s ret s' h
    exact makeWith_inv hR _ (fun x => makebyname_frame os fl n x)
      (fun x s ret s' hx => makebynameWith_inv hR _ ih x s ret s' hx) i src target s ret s' h

theorem makebyname_inv {W : Type} {os : OS W} {fl : Flags} {R : State W → State W → Prop}
    (hR : StepInv os fl R) (n : Nat) (name : Str) (s : State W) (ret : Int) (s' : State W)
    (h : makebyname os fl n name s = .ok (ret, s')) : R s s' :=
  makebynameWith_inv hR _ (make_inv hR n) name s ret s' h

/-! ## The rule table is only ever completed -/

theorem ruleKeep_refl (x : Rule) : RuleKeep x x := ⟨rfl, rfl, rfl, id, fun _ => rfl⟩

theorem ruleKeep_trans {x y z : Rule} (h1 : RuleKeep x y) (h2 : RuleKeep y z) : RuleKeep x z := by
  refine ⟨h2.1.trans h1.1, h2.2.1.trans h1.2.1, h2.2.2.1.trans h1.2.2.1,
    fun h => h2.2.2.2.1 (h1.2.2.2.1 h), ?_⟩
  intro hx
  have hy : isExplicit y = false := by
    unfold isExplicit at hx ⊢; rw [h1.1]; exact hx
  rw [h2.2.2.2.2 hy, h1.2.2.2.2 hx]

theorem keeps_refl (a : List Rule) : Keeps a a := by
  induction a with
  | nil => exact List.Forall₂.nil
  | cons x xs ih => exact List.Forall₂.cons (ruleKeep_refl x) ih

theorem keeps_trans {a b c : List Rule} (h1 : Keeps a b) (h2 : Keeps b c) : Keeps a c := by
  induction h1 generalizing c with
  | nil => cases h2; exact List.Forall₂.nil
  | cons hxy _ ih =>
    cases h2 with
    | cons hyz htl => exact List.Forall₂.cons (ruleKeep_trans hxy hyz) (ih htl)

theorem setDone_keeps : ∀ (a : List Rule) (i : Nat) (r : Rule), ruleAt a i = some r →
    isExplicit r = true → Keeps a (setDone a i) := by
  intro a
  induction a with
  | nil => intro i r h; simp [ruleAt] at h
  | cons x xs ih =>
    intro i r h hex
    cases i with
    | zero =>
      simp only [ruleAt, Option.some.injEq] at h
      subst h
      refine List.Forall₂.cons ⟨rfl, rfl, rfl, fun _ => rfl, ?_⟩ (keeps_refl xs)
      intro hx; rw [hx] at hex; cases hex
    | succ i =>
      exact List.Forall₂.cons (ruleKeep_refl x) (ih i r (by simpa [ruleAt] using h) hex)

theorem keeps_mem {a b : List Rule} (h : Keeps a b) : ∀ y ∈ b, ∃ x ∈ a, RuleKeep x y := by
  induction h with
  | nil => intro y hy; simp at hy
  | cons hxy _ ih =>
    intro y hy
    rcases List.mem_cons.mp hy with rfl | hy
    · exact ⟨_, by simp, hxy⟩
    · obtain ⟨x, hx, hk⟩ := ih y hy
      exact ⟨x, List.mem_cons_of_mem _ hx, hk⟩

theorem keeps_stepInv {W : Type} (os : OS W) (fl : Flags) :
    StepInv os fl (fun s s' => Keeps s.rules s'.rules) where
  refl := fun s => keeps_refl s.rules
  trans := fun _ _ _ h1 h2 => keeps_trans h1 h2
  limit := fun s => keeps_refl s.rules
  enter := fun r src target s => by
    show Keeps s.rules (enter fl r src target s).rules
    rw [enter_rules]; exact keeps_refl _
  docmd := fun cmd src target s ret s' h => by
    show Keeps s.rules s'.rules
    rw [docmd_rules os fl cmd src target s ret s' h]; exact keeps_refl _
  leave := fun s => keeps_refl s.rules
  done := fun s i r hr hex => setDone_keeps s.rules i r hr hex
  noRule := fun s _ => keeps_refl s.rules

theorem later_keeps {W : Type} {os : OS W} {fl : Flags} {s s' : State W}
    (h : Later os fl s s') : Keeps s.rules s'.rules := by
  induction h with
  | refl => exact keeps_refl _
  | tail _ hstep ih =>
    refine keeps_trans ih ?_
    cases hstep with
    | make n i src target _ ret _ h => exact make_inv (keeps_stepInv os fl) n i src target _ ret _ h
    | makebyname n name _ ret _ h => exact makebyname_inv (keeps_stepInv os fl) n name _ ret _ h
    | docmd cmd src target _ ret _ h => exact (keeps_stepInv os fl).docmd cmd src target _ ret _ h
    | enter r src target => exact (keeps_stepInv os fl).enter r src target _

/-- C18: every `make` call and every `makebyname` call that returns leaves
the rule list with the same rules in the same order, each with its output,
prerequisites and commands unchanged; `done` flags only go from false to
true, and never on a rule whose output starts with `.`.  Hence, from a table
in which no rule is completed, no pattern rule is completed at any later point
of the run. -/
theorem rule_table_frame {W : Type} (os : OS W) (fl : Flags) :
    (∀ (n i : Nat) (src target : Option Str) (s : State W) (ret : Int) (s' : State W),
        make os fl n i src target s = .ok (ret, s') → Keeps s.rules s'.rules)
    ∧ (∀ (n : Nat) (name : Str) (s : State W) (ret : Int) (s' : State W),
        makebyname os fl n name s = .ok (ret, s') → Keeps s.rules s'.rules)
    ∧ (∀ (s s' : State W), Later os fl s s' → (∀ r ∈ s.rules, r.done = false) →
        ∀ r ∈ s'.rules, isExplicit r = false → r.done = false) := by
  refine ⟨make_inv (keeps_stepInv os fl), makebyname_inv (keeps_stepInv os fl), ?_⟩
  intro s s' hl hnone r' hr' hpat
  obtain ⟨r, hr, hk⟩ := keeps_mem (later_keeps hl) r' hr'
  have hx : isExplicit r = false := by
    unfold isExplicit at hpat ⊢; rw [← hk.1]; exact hpat
  rw [hk.2.2.2.2 hx]; exact hnone r hr

/-- Instance of C18: after `app` is built through the pattern rule `.c.o`,
the table is the same but for the `done` flag of `app`. -/
theorem rule_table_frame_witness :
    Keeps appTable [{ appRule with done := true }, objRule]
    ∧ makebyname failingOS ⟨false, false, false⟩ 2 "app".data ⟨appTable, 0, 0, (), []⟩
      = .ok (0, ⟨[{ appRule with done := true }, objRule], 0, 0, (),
          [Event.echo "cc -c app.c -o app.o".data, Event.exec "cc -c app.c -o app.o".data,
           Event.echo "cc -o app app.o".data, Event.exec "cc -o app app.o".data]⟩) :=
  ⟨(rule_table_frame failingOS ⟨false, false, false⟩).2.1 2 "app".data
    ⟨appTable, 0, 0, (), []⟩ 0 _ rfl, rfl⟩

/-! ## The exit status -/

theorem failLog_refl {W : Type} (s : State W) : FailLog s s :=
  ⟨[], by simp, by simp, by simp⟩

theorem failLog_trans {W : Type} {a b c : State W} (h1 : FailLog a b) (h2 : FailLog b c) :
    FailLog a c := by
  obtain ⟨e1, hl1, hn1, hf1⟩ := h1
  obtain ⟨e2, hl2, hn2, hf2⟩ := h2
  refine ⟨e1 ++ e2, by rw [hl2, hl1, List.append_assoc], ?_, ?_⟩
  · intro h
    rcases List.mem_append.mp h with h | h
    · exact hn1 h
    · exact hn2 h
  · rw [hf2, hf1, List.any_append]
    cases e1.any Event.isNoRule <;> cases e2.any Event.isNoRule <;> simp

theorem failLog_of_same {W : Type} (s s' : State W) (hl : s'.log = s.log) (hf : s'.fail = s.fail) :
    FailLog s s' :=
  ⟨[], by simp [hl], by simp, by simp [hf]⟩

theorem trace_fail {W : Type} (fl : Flags) (r : Rule) (src : Option Str) (target : Str)
    (s : State W) :
    ∃ evs, (trace fl r src target s).log = s.log ++ evs
      ∧ (∀ e ∈ evs, Event.isNoRule e = false) ∧ Event.noDefaultTarget ∉ evs
      ∧ (trace fl r src target s).fail = s.fail := by
  unfold trace
  split
  · exact ⟨[], by simp, by simp, by simp, rfl⟩
  · cases r.input with
    | none =>
      refine ⟨[Event.making target (src.getD ['-']) r.output], rfl, ?_, by simp, rfl⟩
      intro e he; simp at he; subst he; rfl
    | some ins =>
      refine ⟨Event.making target (src.getD ['-']) r.output
        :: ins.map (Event.makingInput target), by simp, ?_, by simp, rfl⟩
      intro e he
      simp only [List.mem_cons, List.mem_map] at he
      rcases he with rfl | ⟨x, _, rfl⟩ <;> rfl

theorem docmd_fail {W : Type} (os : OS W) (fl : Flags) (cmd : Str) (src target : Option Str)
    (s : State W) (ret : Int) (s' : State W)
    (h : docmd os fl cmd src target s = .ok (ret, s')) :
    ∃ evs, s'.log = s.log ++ evs ∧ (∀ e ∈ evs, Event.isCmd e = true)
      ∧ s'.fail = s.fail ∧ s'.depth = s.depth := by
  unfold docmd at h
  split at h
  · cases h
  · rename_i iexit noecho sp _
    refine ⟨docmdEvents fl noecho sp, ?_, ?_, ?_, ?_⟩
    · cases hn : fl.nflag <;> cases hs : fl.sflag <;> cases iexit <;> cases noecho <;>
        simp [hn, hs] at h <;> rw [← h.2] <;> simp [docmdEvents, hn, hs]
    · intro e he
      cases hn : fl.nflag <;> cases hs : fl.sflag <;> cases noecho <;>
        simp [docmdEvents, hn, hs] at he <;> (try rcases he with rfl | rfl) <;> rfl
    · cases hn : fl.nflag <;> cases hs : fl.sflag <;> cases iexit <;> cases noecho <;>
        simp [hn, hs] at h <;> rw [← h.2]
    · cases hn : fl.nflag <;> cases hs : fl.sflag <;> cases iexit <;> cases noecho <;>
        simp [hn, hs] at h <;> rw [← h.2]

theorem any_isNoRule_false (evs : List Event) (h : ∀ e ∈ evs, Event.isNoRule e = false) :
    evs.any Event.isNoRule = false := by
  rw [List.any_eq_false]
  intro e he
  simp [h e he]

theorem failLog_stepInv {W : Type} (os : OS W) (fl : Flags) : StepInv os fl (FailLog (W := W)) where
  refl := failLog_refl
  trans := fun _ _ _ h1 h2 => failLog_trans h1 h2
  limit := fun s => ⟨[Event.recursionLimit], rfl, by simp, by simp [Event.isNoRule]⟩
  enter := fun r src target s => by
    obtain ⟨evs, h1, h2, h3, h4⟩ :=
      trace_fail fl r (defaultSrc r src) (defaultTarget r target) { s with depth := s.depth + 1 }
    exact ⟨evs, h1, h3, by rw [any_isNoRule_false evs h2]; exact h4⟩
  docmd := fun cmd src target s ret s' h => by
    obtain ⟨evs, h1, h2, h3, _⟩ := docmd_fail os fl cmd src target s ret s' h
    refine ⟨evs, h1, ?_, ?_⟩
    · intro hm; have := h2 _ hm; simp [Event.isCmd] at this
    · rw [any_isNoRule_false evs]
      · exact h3
      · intro e he
        have := h2 e he
        cases e <;> simp [Event.isCmd] at this <;> rfl
  leave := fun s => failLog_of_same _ _ rfl rfl
  done := fun s _ _ _ _ => failLog_of_same _ _ rfl rfl
  noRule := fun s name => ⟨[Event.noRule name], rfl, by simp, by simp [Event.isNoRule]⟩

theorem runTargets_failLog {W : Type} (os : OS W) (fl : Flags) (n : Nat) :
    ∀ (argv : List Str) (s s' : State W), runTargets os fl n argv s = .ok s' → FailLog s s' := by
  intro argv
  induction argv with
  | nil => intro s s' h; simp only [runTargets, Except.ok.injEq] at h; rw [← h]; exact failLog_refl s
  | cons a rest ih =>
    intro s s' h
    rw [runTargets] at h
    split at h
    · cases h
    · rename_i ret s1 ha
      exact failLog_trans (makebyname_inv (failLog_stepInv os fl) n a s ret s1 ha) (ih s1 s' h)

theorem any_isNoRule_iff (evs : List Event) :
    evs.any Event.isNoRule = true ↔ ∃ name, Event.noRule name ∈ evs := by
  rw [List.any_eq_true]
  constructor
  · rintro ⟨e, he, hn⟩
    cases e <;> simp [Event.isNoRule] at hn
    exact ⟨_, he⟩
  · rintro ⟨name, h⟩
    exact ⟨_, h, rfl⟩

/-- C13, as stated, fails: with the single rule `z` and no target on the
command line the run gets past rule loading and ends with exit status 1 (`no
default target`), although no `makebyname` call was made at all: `fail` is
still 0 and nothing was reported missing. -/
theorem exit_status_no_default :
    main existingOS ⟨false, false, false⟩ 1 []
        ⟨[⟨"z".data, some [], some ["@echo z".data], false⟩], 0, 0, (), []⟩
      = .ok (1, ⟨[⟨"z".data, some [], some ["@echo z".data], false⟩], 0, 0, (),
          [Event.noDefaultTarget]⟩) :=
  rfl

/-- C13 (amended): for a run that has loaded its rules, starts with `fail`
clear and comes to its end: if it ends with `no default target`, the exit
status is 1 and nothing else happened; otherwise the exit status is the fail
indicator returned by `main`, and it is nonzero if and only if some
`makebyname` call reported `No rule to make target` (so neither a failing
command nor the recursion limit makes it nonzero).  Across every `make` and
`makebyname` call the indicator, once set, stays set. -/
theorem exit_status {W : Type} (os : OS W) (fl : Flags) (n : Nat) (argv : List Str)
    (s : State W) (status : Int) (s' : State W)
    (h0 : s.fail = 0) (hmain : main os fl n argv s = .ok (status, s')) :
    (∃ evs, s'.log = s.log ++ evs
      ∧ (Event.noDefaultTarget ∈ evs → status = 1 ∧ evs = [Event.noDefaultTarget] ∧ s'.fail = 0)
      ∧ (Event.noDefaultTarget ∉ evs →
          status = s'.fail ∧ (status ≠ 0 ↔ ∃ name, Event.noRule name ∈ evs)))
    ∧ (∀ (m : Nat) (name : Str) (t : State W) (ret : Int) (t' : State W),
        makebyname os fl m name t = .ok (ret, t') → t.fail ≠ 0 → t'.fail ≠ 0)
    ∧ (∀ (m i : Nat) (src target : Option Str) (t : State W) (ret : Int) (t' : State W),
        make os fl m i src target t = .ok (ret, t') → t.fail ≠ 0 → t'.fail ≠ 0) := by
  have hkeep : ∀ t t' : State W, FailLog t t' → t.fail ≠ 0 → t'.fail ≠ 0 := by
    rintro t t' ⟨evs, _, _, hf⟩ ht
    rw [hf]; split
    · decide
    · exact ht
  have hret : ∀ s1 : State W, FailLog s s1 →
      ∃ evs, s1.log = s.log ++ evs
        ∧ (Event.noDefaultTarget ∈ evs → s1.fail = 1 ∧ evs = [Event.noDefaultTarget] ∧ s1.fail = 0)
        ∧ (Event.noDefaultTarget ∉ evs →
            s1.fail = s1.fail ∧ (s1.fail ≠ 0 ↔ ∃ name, Event.noRule name ∈ evs)) := by
    rintro s1 ⟨evs, hl, hnd, hf⟩
    refine ⟨evs, hl, fun h => absurd h hnd, fun _ => ⟨rfl, ?_⟩⟩
    rw [hf, h0, ← any_isNoRule_iff]
    cases evs.any Event.isNoRule <;> simp
  refine ⟨?_, fun m name t ret t' h => hkeep t t' (makebyname_inv (failLog_stepInv os fl) m name
    t ret t' h), fun m i src target t ret t' h => hkeep t t' (make_inv (failLog_stepInv os fl) m i
    src target t ret t' h)⟩
  unfold main at hmain
  split at hmain
  · split at hmain
    · cases hmain
    · simp only [Except.ok.injEq, Prod.mk.injEq] at hmain
      obtain ⟨h1, h2⟩ := hmain
      subst h1; subst h2
      refine ⟨[Event.noDefaultTarget], rfl, fun _ => ⟨rfl, rfl, h0⟩, fun h => ?_⟩
      simp at h
    · split at hmain
      · cases hmain
      · rename_i ret s1 hmk
        simp only [Except.ok.injEq, Prod.mk.injEq] at hmain
        obtain ⟨h1, h2⟩ := hmain
        subst h2; subst h1
        exact hret _ (make_inv (failLog_stepInv os fl) n _ none none s ret _ hmk)
  · split at hmain
    · cases hmain
    · rename_i s1 hrun
      simp only [Except.ok.injEq, Prod.mk.injEq] at hmain
      obtain ⟨h1, h2⟩ := hmain
      subst h2; subst h1
      exact hret _ (runTargets_failLog os fl n _ s _ hrun)

/-- Instance of C13: of the targets `t` (built by a failing command) and `x`
(no rule, no file), only `x` makes the exit status 1. -/
theorem exit_status_witness :
    main failingOS ⟨false, false, false⟩ 1 ["t".data, "x".data]
        ⟨[⟨"t".data, some [], some ["@false".data], false⟩], 0, 0, (), []⟩
      = .ok (1, ⟨[⟨"t".data, some [], some ["@false".data], true⟩], 0, 1, (),
          [Event.exec "false".data, Event.noRule "x".data]⟩)
    ∧ ((1 : Int) ≠ 0 ↔ ∃ name, Event.noRule name
        ∈ [Event.exec "false".data, Event.noRule "x".data]) := by
  have hm : main failingOS ⟨false, false, false⟩ 1 ["t".data, "x".data]
      ⟨[⟨"t".data, some [], some ["@false".data], false⟩], 0, 0, (), []⟩
      = .ok (1, ⟨[⟨"t".data, some [], some ["@false".data], true⟩], 0, 1, (),
          [Event.exec "false".data, Event.noRule "x".data]⟩) := rfl
  obtain ⟨⟨evs, hl, _, h2⟩, _⟩ := exit_status failingOS ⟨false, false, false⟩ 1
    ["t".data, "x".data] ⟨[⟨"t".data, some [], some ["@false".data], false⟩], 0, 0, (), []⟩
    1 _ rfl hm
  simp only [List.nil_append] at hl
  subst hl
  exact ⟨hm, (h2 (by simp)).2⟩

/-! ## The depth counter -/

theorem depthLog_refl {W : Type} (s : State W) : DepthLog s s :=
  ⟨[], by simp, by simp⟩

theorem depthLog_trans {W : Type} {a b c : State W} (h1 : DepthLog a b) (h2 : DepthLog b c) :
    DepthLog a c := by
  obtain ⟨e1, hl1, hd1⟩ := h1
  obtain ⟨e2, hl2, hd2⟩ := h2
  refine ⟨e1 ++ e2, by rw [hl2, hl1, List.append_assoc], ?_⟩
  rw [hd2, hd1, List.count_append]; push_cast; omega

theorem count_limit_zero (evs : List Event) (h : ∀ e ∈ evs, e ≠ Event.recursionLimit) :
    evs.count Event.recursionLimit = 0 :=
  List.count_eq_zero_of_not_mem (fun hm => h _ hm rfl)

theorem runcmds_depthLog {W : Type} (os : OS W) (fl : Flags) (src target : Option Str) :
    ∀ (cmds : List Str) (s s' : State W), runcmds os fl src target cmds s = .ok s' →
      DepthLog s s' := by
  intro cmds
  induction cmds with
  | nil =>
    intro s s' h
    simp only [runcmds, Except.ok.injEq] at h
    rw [← h]; exact depthLog_refl s
  | cons c cs ih =>
    intro s s' h
    rw [runcmds] at h
    split at h
    · cases h
    · rename_i ret s1 hd
      obtain ⟨evs, h1, h2, _, h4⟩ := docmd_fail os fl c src target s ret s1 hd
      refine depthLog_trans ⟨evs, h1, ?_⟩ (ih s1 s' h)
      rw [count_limit_zero evs (fun e he hl => by
        have := h2 e he; rw [hl] at this; simp [Event.isCmd] at this), h4]
      simp

theorem prereqs_depthLog {W : Type} (os : OS W) (mkbn : Str → State W → Res W)
    (hm : ∀ x s ret s', mkbn x s = .ok (ret, s') → DepthLog s s') :
    ∀ (ins : List Str) (f : Bool) (stv : Timespec) (s : State W) (f' : Bool) (stv' : Timespec)
      (s' : State W), prereqs os mkbn ins f stv s = .ok (f', stv', s') → DepthLog s s' := by
  intro ins
  induction ins with
  | nil =>
    intro f stv s f' stv' s' h
    simp only [prereqs, Except.ok.injEq, Prod.mk.injEq] at h
    rw [← h.2.2]; exact depthLog_refl s
  | cons x xs ih =>
    intro f stv s f' stv' s' h
    rw [prereqs] at h
    split at h
    · cases h
    · rename_i ret s1 hx
      exact depthLog_trans (hm x s ret s1 hx) (ih _ _ s1 f' stv' s' h)

theorem makeWith_depthLog {W : Type} (os : OS W) (fl : Flags) (mkbn : Str → State W → Res W)
    (hm : ∀ x s ret s', mkbn x s = .ok (ret, s') → DepthLog s s')
    (i : Nat) (src target : Option Str) (s : State W) (ret : Int) (s' : State W)
    (h : makeWith os fl mkbn i src target s = .ok (ret, s')) : DepthLog s s' := by
  unfold makeWith at h
  split at h
  · cases h
  · rename_i r hr
    split at h
    · simp only [Except.ok.injEq, Prod.mk.injEq] at h
      rw [← h.2]; exact depthLog_refl s
    · split at h
      · cases h
      · split at h
        · simp only [Except.ok.injEq, Prod.mk.injEq] at h
          rw [← h.2]
          exact ⟨[Event.recursionLimit], rfl, by simp⟩
        · split at h
          · cases h
          · rename_i ins hin
            split at h
            · cases h
            · rename_i f stv0 s3 hp
              obtain ⟨evsE, hlE, _, hnE⟩ := enter_log fl r src target s
              obtain ⟨_, _, hdE⟩ := enter_facts fl r src target s
              obtain ⟨evsP, hlP, hdP⟩ :=
                prereqs_depthLog os mkbn hm ins false ⟨0, 0⟩ _ f stv0 s3 hp
              have hleave : DepthLog s { s3 with depth := s3.depth - 1 } := by
                refine ⟨evsE ++ evsP, by simp only; rw [hlP, hlE, List.append_assoc], ?_⟩
                simp only
                rw [hdP, hdE, List.count_append, count_limit_zero evsE hnE]
                push_cast; omega
              split at h
              · simp only [Except.ok.injEq, Prod.mk.injEq] at h
                rw [← h.2]; exact hleave
              · split at h
                · simp only [Except.ok.injEq, Prod.mk.injEq] at h
                  rw [← h.2]; exact hleave
                · unfold rebuild at h
                  split at h
                  · cases h
                  · rename_i s4 hc
                    obtain ⟨evsC, hlC, hdC⟩ := runcmds_depthLog os fl _ _ _ s3 s4 hc
                    simp only [Except.ok.injEq, Prod.mk.injEq] at h
                    rw [← h.2]
                    refine ⟨evsE ++ (evsP ++ evsC), ?_, ?_⟩
                    · split <;> simp only <;> rw [hlC, hlP, hlE] <;> simp [List.append_assoc]
                    · have hd4 : s4.depth - 1 = s.depth
                          + ((evsE ++ (evsP ++ evsC)).count Event.recursionLimit : Nat) := by
                        rw [hdC, hdP, hdE, List.count_append, List.count_append,
                          count_limit_zero evsE hnE]
                        push_cast; omega
                      split <;> simp only <;> exact hd4

theorem makebynameWith_depthLog {W : Type} (os : OS W)
    (mk : Nat → Option Str → Option Str → State W → Res W)
    (hmk : ∀ i src target s ret s', mk i src target s = .ok (ret, s') → DepthLog s s')
    (name : Str) (s : State W) (ret : Int) (s' : State W)
    (h : makebynameWith os mk name s = .ok (ret, s')) : DepthLog s s' := by
  have hleaf : ∀ ret s', leaf os name s = .ok (ret, s') → DepthLog s s' := by
    intro ret s' h
    unfold leaf at h
    split at h
    · simp only [Except.ok.injEq, Prod.mk.injEq] at h
      rw [← h.2]; exact depthLog_refl s
    · simp only [Except.ok.injEq, Prod.mk.injEq] at h
      rw [← h.2]
      exact ⟨[Event.noRule name], rfl, by simp⟩
  unfold makebynameWith at h
  split at h
  · exact hmk _ _ _ s ret s' h
  · split at h
    · split at h
      · exact hmk _ _ _ s ret s' h
      · exact hleaf ret s' h
    · split at h
      · exact hmk _ _ _ s ret s' h
      · exact hleaf ret s' h

theorem make_depthLog {W : Type} (os : OS W) (fl : Flags) :
    ∀ (n i : Nat) (src target : Option Str) (s : State W) (ret : Int) (s' : State W),
      make os fl n i src target s = .ok (ret, s') → DepthLog s s' := by
  intro n
  induction n with
  | zero => intro i src target s ret s' h; cases h
  | succ n ih =>
    intro i src target s ret s' h
    exact makeWith_depthLog os fl _
      (fun x s ret s' hx => makebynameWith_depthLog os _ ih x s ret s' hx) i src target s ret s' h

theorem makebyname_depthLog {W : Type} (os : OS W) (fl : Flags) (n : Nat) (name : Str)
    (s : State W) (ret : Int) (s' : State W) (h : makebyname os fl n name s = .ok (ret, s')) :
    DepthLog s s' :=
  makebynameWith_depthLog os _ (make_depthLog os fl n) name s ret s' h

/-- C16: a rule `a` that lists itself as its prerequisite, built from depth 0:
the eleventh nested `make` call passes the ceiling and returns from line 134
without `depth--`, so `make` returns with the counter at 1, not at 0; and a
`make` call entered at depth 10 returns with the counter at 11.  In general
the counter ends above its initial value by exactly the number of `recursion
limit exceeded` reports made during the call. -/
theorem depth_not_restored {W : Type} (os : OS W) (w : W) :
    make os ⟨false, false, false⟩ 11 0 none none
        ⟨[⟨"a".data, some ["a".data], none, false⟩], 0, 0, w, []⟩
      = .ok (1, ⟨[⟨"a".data, some ["a".data], none, false⟩], 1, 0, w,
          [Event.recursionLimit]⟩)
    ∧ make os ⟨false, false, false⟩ 1 0 none none
        ⟨[⟨"a".data, some [], none, false⟩], 10, 0, w, []⟩
      = .ok (1, ⟨[⟨"a".data, some [], none, false⟩], 11, 0, w, [Event.recursionLimit]⟩)
    ∧ (∀ (fl : Flags) (n i : Nat) (src target : Option Str) (s : State W) (ret : Int)
        (s' : State W), make os fl n i src target s = .ok (ret, s') →
        ∃ evs, s'.log = s.log ++ evs
          ∧ s'.depth = s.depth + (evs.count Event.recursionLimit : Nat)) :=
  ⟨rfl, rfl, fun fl n i src target s ret s' h => make_depthLog os fl n i src target s ret s' h⟩

/-! ## Termination -/

theorem expand_ne_fuel (src target : Option Str) (n : Nat) :
    ∀ (cmd buf : Str) (term : Bool), cmd.length ≤ n →
      expand src target cmd buf term ≠ .error .fuel := by
  induction n with
  | zero =>
    intro cmd buf term hlen
    have : cmd = [] := List.length_eq_zero.mp (Nat.le_zero.mp hlen)
    subst this
    simp [expand]
  | succ n ih =>
    intro cmd buf term hlen
    match cmd, hlen with
    | [], _ => simp [expand]
    | [c], _ =>
      by_cases hc : c = '$'
      · simp only [expand, hc, if_true]
        split <;> simp
      · simp only [expand, hc, if_false]
        split
        · simp
        · simp
    | c :: d :: rest, hlen =>
      simp only [List.length_cons] at hlen
      by_cases hc : c = '$'
      · by_cases h1 : d = '@'
        · cases target with
          | none => simp [expand, hc, h1]
          | some t =>
            simp only [expand, hc, h1, if_true]
            split
            · simp
            · exact ih rest _ _ (by omega)
        · by_cases h2 : d = '<'
          · subst h2
            have hne : ¬ ('<' = '@') := by decide
            cases src with
            | none => simp [expand, hc]
            | some t =>
              simp only [expand, hc, hne, if_true, if_false]
              split
              · simp
              · exact ih rest _ _ (by omega)
          · simp only [expand, hc, h1, h2, if_true, if_false]
            split
            · simp
            · exact ih rest _ _ (by omega)
      · simp only [expand, hc, if_false]
        split
        · simp
        · exact ih (d :: rest) _ _ (by simp; omega)

theorem scan_ne_fuel (term : Bool) : ∀ (buf : Str) (iexit noecho : Bool),
    scan term buf iexit noecho ≠ .error .fuel := by
  intro buf
  induction buf with
  | nil => intro iexit noecho; rw [scan]; split <;> simp
  | cons c rest ih =>
    intro iexit noecho
    rw [scan]
    split
    · exact ih _ _
    · split
      · exact ih _ _
      · simp

theorem prepare_ne_fuel (cmd : Str) (src target : Option Str) :
    prepare cmd src target ≠ .error .fuel := by
  unfold prepare
  split
  · rename_i e he
    intro h
    simp only [Except.error.injEq] at h
    subst h
    exact expand_ne_fuel src target cmd.length cmd [] false (Nat.le_refl _) he
  · rename_i buf term _
    split
    · rename_i e he
      intro h
      simp only [Except.error.injEq] at h
      subst h
      exact scan_ne_fuel term buf false false he
    · split <;> simp

theorem docmd_ne_fuel {W : Type} (os : OS W) (fl : Flags) (cmd : Str) (src target : Option Str)
    (s : State W) : docmd os fl cmd src target s ≠ .error .fuel := by
  unfold docmd
  split
  · rename_i e he
    intro h
    simp only [Except.error.injEq] at h
    subst h
    exact prepare_ne_fuel cmd src target he
  · simp only
    split
    · simp
    · split <;> simp

theorem runcmds_ne_fuel {W : Type} (os : OS W) (fl : Flags) (src target : Option Str) :
    ∀ (cmds : List Str) (s : State W), runcmds os fl src target cmds s ≠ .error .fuel := by
  intro cmds
  induction cmds with
  | nil => intro s; simp [runcmds]
  | cons c cs ih =>
    intro s
    rw [runcmds]
    split
    · rename_i e he
      intro h
      simp only [Except.error.injEq] at h
      subst h
      exact docmd_ne_fuel os fl c src target s he
    · exact ih _

theorem rebuild_ne_fuel {W : Type} (os : OS W) (fl : Flags) (r : Rule) (i : Nat)
    (src : Option Str) (target : Str) (s : State W) :
    rebuild os fl r i src target s ≠ .error .fuel := by
  unfold rebuild
  split
  · rename_i e he
    intro h
    simp only [Except.error.injEq] at h
    subst h
    exact runcmds_ne_fuel os fl src (some target) _ s he
  · simp

theorem leaf_ne_fuel {W : Type} (os : OS W) (name : Str) (s : State W) :
    leaf os name s ≠ .error .fuel := by
  unfold leaf; split <;> simp

theorem prereqs_agree {W : Type} (os : OS W) (mkbn mkbn' : Str → State W → Res W)
    (hag : ∀ x s, mkbn x s ≠ .error .fuel → mkbn' x s = mkbn x s) :
    ∀ (ins : List Str) (f : Bool) (stv : Timespec) (s : State W),
      prereqs os mkbn ins f stv s ≠ .error .fuel →
      prereqs os mkbn' ins f stv s = prereqs os mkbn ins f stv s := by
  intro ins
  induction ins with
  | nil => intro f stv s _; rfl
  | cons x xs ih =>
    intro f stv s h
    have hx : mkbn x s ≠ .error .fuel := by
      intro hx; apply h; simp only [prereqs, hx]
    simp only [prereqs, hag x s hx] at h ⊢
    cases hm : mkbn x s with
    | error e => rfl
    | ok p =>
      rw [hm] at h
      exact ih _ _ _ h

theorem makeWith_agree {W : Type} (os : OS W) (fl : Flags) (mkbn mkbn' : Str → State W → Res W)
    (hag : ∀ x s, mkbn x s ≠ .error .fuel → mkbn' x s = mkbn x s)
    (i : Nat) (src target : Option Str) (s : State W)
    (h : makeWith os fl mkbn i src target s ≠ .error .fuel) :
    makeWith os fl mkbn' i src target s = makeWith os fl mkbn i src target s := by
  unfold makeWith at h ⊢
  cases hr : ruleAt s.rules i with
  | none => rfl
  | some r =>
    simp only [hr] at h ⊢
    by_cases hd : r.done = true
    · simp only [hd, if_true]
    · by_cases hmax : s.depth = INT_MAX
      · simp only [hd, hmax, if_true, if_false]
      · by_cases hlim : (10 : Int) < s.depth + 1
        · simp only [hd, hmax, hlim, if_true, if_false]
        · simp only [hd, hmax, hlim, if_false] at h ⊢
          cases hin : r.input with
          | none => rfl
          | some ins =>
            simp only [hin] at h ⊢
            have hp : prereqs os mkbn ins false ⟨0, 0⟩ (enter fl r src target s)
                ≠ .error .fuel := by
              intro hp
              rw [hp] at h
              exact h rfl
            rw [prereqs_agree os mkbn mkbn' hag ins false ⟨0, 0⟩ _ hp]

theorem makebynameWith_agree {W : Type} (os : OS W)
    (mk mk' : Nat → Option Str → Option Str → State W → Res W)
    (hag : ∀ i src target s, mk i src target s ≠ .error .fuel →
      mk' i src target s = mk i src target s)
    (name : Str) (s : State W) (h : makebynameWith os mk name s ≠ .error .fuel) :
    makebynameWith os mk' name s = makebynameWith os mk name s := by
  unfold makebynameWith at h ⊢
  cases hfe : findExplicit name s.rules 0 with
  | some k => simp only [hfe] at h ⊢; exact hag _ _ _ _ h
  | none =>
    simp only [hfe] at h ⊢
    cases hdot : strchr name '.' with
    | some i =>
      simp only [hdot] at h ⊢
      cases hft : findTwoSuffix name i s.rules 0 with
      | some p => simp only [hft] at h ⊢; exact hag _ _ _ _ h
      | none => rfl
    | none =>
      simp only [hdot] at h ⊢
      cases hfo : findOneSuffix name s.rules 0 with
      | some p => simp only [hfo] at h ⊢; exact hag _ _ _ _ h
      | none => rfl

theorem make_fuel_succ {W : Type} (os : OS W) (fl : Flags) :
    ∀ (n i : Nat) (src target : Option Str) (s : State W),
      make os fl n i src target s ≠ .error .fuel →
      make os fl (n + 1) i src target s = make os fl n i src target s := by
  intro n
  induction n with
  | zero => intro i src target s h; exact absurd rfl h
  | succ n ih =>
    intro i src target s h
    exact makeWith_agree os fl _ _
      (fun x s hx => makebynameWith_agree os _ _ ih x s hx) i src target s h

theorem makebyname_fuel_succ {W : Type} (os : OS W) (fl : Flags) (n : Nat) (name : Str)
    (s : State W) (h : makebyname os fl n name s ≠ .error .fuel) :
    makebyname os fl (n + 1) name s = makebyname os fl n name s :=
  makebynameWith_agree os _ _ (make_fuel_succ os fl n) name s h

theorem depthLog_le {W : Type} {s s' : State W} (h : DepthLog s s') : s.depth ≤ s'.depth := by
  obtain ⟨evs, _, hd⟩ := h
  rw [hd]; omega

theorem prereqs_no_fuel {W : Type} (os : OS W) (mkbn : Str → State W → Res W) (d : Int)
    (hm : ∀ x s ret s', mkbn x s = .ok (ret, s') → s.depth ≤ s'.depth)
    (hnf : ∀ x s, d ≤ s.depth → mkbn x s ≠ .error .fuel) :
    ∀ (ins : List Str) (f : Bool) (stv : Timespec) (s : State W), d ≤ s.depth →
      prereqs os mkbn ins f stv s ≠ .error .fuel := by
  intro ins
  induction ins with
  | nil => intro f stv s _; simp [prereqs]
  | cons x xs ih =>
    intro f stv s hd
    rw [prereqs]
    split
    · rename_i e he
      intro h
      simp only [Except.error.injEq] at h
      subst h
      exact hnf x s hd he
    · rename_i ret s1 hx
      exact ih _ _ s1 (le_trans hd (hm x s ret s1 hx))

theorem make_no_fuel {W : Type} (os : OS W) (fl : Flags) :
    ∀ (n i : Nat) (src target : Option Str) (s : State W), 10 ≤ s.depth + (n : Nat) →
      make os fl (n + 1) i src target s ≠ .error .fuel := by
  intro n
  induction n with
  | zero =>
    intro i src target s hd
    have h10 : 10 ≤ s.depth := by simpa using hd
    have hlim : (10 : Int) < s.depth + 1 := by omega
    rw [make_succ]
    unfold makeWith
    split
    · simp
    · split
      · simp
      · split
        · simp
        · simp [hlim]
  | succ n ih =>
    intro i src target s hd
    rw [make_succ]
    unfold makeWith
    split
    · simp
    · rename_i r hr
      split
      · simp
      · split
        · simp
        · split
          · simp
          · rename_i hlim
            split
            · simp
            · rename_i ins hin
              obtain ⟨_, _, hdE⟩ := enter_facts fl r src target s
              have hp := prereqs_no_fuel os (makebyname os fl (n + 1)) (s.depth + 1)
                (fun x s ret s' hx => depthLog_le (makebyname_depthLog os fl (n + 1) x s ret s' hx))
                (fun x t ht => by
                  unfold makebyname makebynameWith
                  have hmk : ∀ j a b, make os fl (n + 1) j a b t ≠ .error .fuel :=
                    fun j a b => ih j a b t (by push_cast at hd ⊢; omega)
                  split
                  · exact hmk _ _ _
                  · split
                    · split
                      · exact hmk _ _ _
                      · exact leaf_ne_fuel os x t
                    · split
                      · exact hmk _ _ _
                      · exact leaf_ne_fuel os x t)
                ins false ⟨0, 0⟩ (enter fl r src target s) (by rw [hdE])
              split
              · rename_i e he
                intro h
                simp only [Except.error.injEq] at h
                subst h
                exact hp he
              · split
                · simp
                · split
                  · simp
                  · exact rebuild_ne_fuel os fl r i _ _ _

theorem makebyname_no_fuel {W : Type} (os : OS W) (fl : Flags) (n : Nat) (name : Str)
    (s : State W) (hd : 10 ≤ s.depth + (n : Nat)) :
    makebyname os fl (n + 1) name s ≠ .error .fuel := by
  have hmk : ∀ j a b, make os fl (n + 1) j a b s ≠ .error .fuel :=
    fun j a b => make_no_fuel os fl n j a b s hd
  unfold makebyname makebynameWith
  split
  · exact hmk _ _ _
  · split
    · split
      · exact hmk _ _ _
      · exact leaf_ne_fuel os name s
    · split
      · exact hmk _ _ _
      · exact leaf_ne_fuel os name s

/-- C19: for every rule table, cyclic or not, every environment and every
requested name, `makebyname` started at depth 0 (or above) comes to an end
within eleven nested `make` calls: with the nesting bound 11 the embedding
never exhausts its bound, and any larger bound gives the same outcome, which
is a returned value or one of the undefined behaviours of the C text, never
an unbounded recursion. -/
theorem makebyname_terminates {W : Type} (os : OS W) (fl : Flags) (name : Str) (s : State W)
    (hd : 0 ≤ s.depth) :
    makebyname os fl 11 name s ≠ .error .fuel
    ∧ ∀ n, 11 ≤ n → makebyname os fl n name s = makebyname os fl 11 name s := by
  have h11 : makebyname os fl 11 name s ≠ .error .fuel :=
    makebyname_no_fuel os fl 10 name s (by omega)
  refine ⟨h11, ?_⟩
  intro n hn
  induction n with
  | zero => omega
  | succ n ih =>
    by_cases h : n + 1 = 11
    · rw [h]
    · have hn' : 11 ≤ n := by omega
      have hn11 := ih hn'
      rw [makebyname_fuel_succ os fl n name s (by rw [hn11]; exact h11), hn11]

/-- Instance of C19: the rules `a: b` and `b: a` depend on each other;
requesting `a` ends with the recursion-limit failure, with bound 11 as with
bound 50, whereas ten nested calls do not suffice. -/
theorem makebyname_terminates_witness :
    makebyname failingOS ⟨false, false, false⟩ 11 "a".data
        ⟨[⟨"a".data, some ["b".data], none, false⟩, ⟨"b".data, some ["a".data], none, false⟩],
          0, 0, (), []⟩
      = .ok (1, ⟨[⟨"a".data, some ["b".data], none, false⟩,
          ⟨"b".data, some ["a".data], none, false⟩], 1, 0, (), [Event.recursionLimit]⟩)
    ∧ makebyname failingOS ⟨false, false, false⟩ 50 "a".data
        ⟨[⟨"a".data, some ["b".data], none, false⟩, ⟨"b".data, some ["a".data], none, false⟩],
          0, 0, (), []⟩
      = .ok (1, ⟨[⟨"a".data, some ["b".data], none, false⟩,
          ⟨"b".data, some ["a".data], none, false⟩], 1, 0, (), [Event.recursionLimit]⟩)
    ∧ makebyname failingOS ⟨false, false, false⟩ 10 "a".data
        ⟨[⟨"a".data, some ["b".data], none, false⟩, ⟨"b".data, some ["a".data], none, false⟩],
          0, 0, (), []⟩
      = .error .fuel := by
  have h := makebyname_terminates failingOS ⟨false, false, false⟩ "a".data
    ⟨[⟨"a".data, some ["b".data], none, false⟩, ⟨"b".data, some ["a".data], none, false⟩],
      0, 0, (), []⟩ (by decide)
  refine ⟨rfl, ?_, rfl⟩
  rw [h.2 50 (by decide)]
  rfl

/-! ## The source of a pattern rule -/

theorem runcmds_fail {W : Type} (os : OS W) (fl : Flags) (src target : Option Str) :
    ∀ (cmds : List Str) (s s' : State W), runcmds os fl src target cmds s = .ok s' →
      s'.fail = s.fail
        ∧ ∃ evs, s'.log = s.log ++ evs ∧ ∀ e ∈ evs, Event.isCmd e = true := by
  intro cmds
  induction cmds with
  | nil =>
    intro s s' h
    simp only [runcmds, Except.ok.injEq] at h
    rw [← h]; exact ⟨rfl, [], by simp, by simp⟩
  | cons c cs ih =>
    intro s s' h
    rw [runcmds] at h
    split at h
    · cases h
    · rename_i ret s1 hd
      obtain ⟨e1, h1, h2, h3, _⟩ := docmd_fail os fl c src target s ret s1 hd
      obtain ⟨h4, e2, h5, h6⟩ := ih s1 s' h
      refine ⟨h4.trans h3, e1 ++ e2, by rw [h5, h1, List.append_assoc], ?_⟩
      intro e he
      rcases List.mem_append.mp he with he | he
      · exact h2 e he
      · exact h6 e he

/-- C20: when no explicit rule bears the requested name and a pattern rule
applies to it (the first two-suffix rule with the name's suffix when the name
has a `.`, the first single-suffix rule when it has none), `makebyname` is the
`make` call on that rule with the synthesized source, whether or not a file or
a rule of the source's name exists: the failure path is not taken.  In that
call only the rule's own prerequisites go through `makebyname`; after their
loop the fail indicator is not touched and nothing is reported missing; and
when the prerequisites succeed and the target does not exist, the commands
are run with the synthesized source name. -/
theorem pattern_source_not_resolved {W : Type} (os : OS W) (fl : Flags) (n : Nat) (name : Str)
    (s : State W) (k : Nat) (r : Rule) (src : Str)
    (hex : ¬ hasExplicit name s.rules) (hk : ruleAt s.rules k = some r)
    (hpat : ('.' ∈ name ∧ matchesTwoSuffix name r = true
        ∧ (∀ j r', j < k → ruleAt s.rules j = some r' → matchesTwoSuffix name r' = false)
        ∧ src = beforeDot name ++ beforeSecondDot r.output)
      ∨ ('.' ∉ name ∧ isOneSuffix r = true
        ∧ (∀ j r', j < k → ruleAt s.rules j = some r' → isOneSuffix r' = false)
        ∧ src = name ++ r.output)) :
    makebyname os fl (n + 1) name s = make os fl (n + 1) k (some src) (some name) s
    ∧ (∀ (ins : List Str) (stv0 : Timespec) (s3 : State W),
        r.done = false → s.depth < 10 → r.input = some ins →
        prereqs os (makebyname os fl n) ins false ⟨0, 0⟩ (enter fl r (some src) (some name) s)
          = .ok (false, stv0, s3) →
        os.stat s3.world name = none →
        makebyname os fl (n + 1) name s = rebuild os fl r k (some src) name s3)
    ∧ (∀ (ins : List Str) (f : Bool) (stv0 : Timespec) (s3 : State W) (ret : Int)
        (s' : State W),
        r.done = false → s.depth < 10 → r.input = some ins →
        prereqs os (makebyname os fl n) ins false ⟨0, 0⟩ (enter fl r (some src) (some name) s)
          = .ok (f, stv0, s3) →
        makebyname os fl (n + 1) name s = .ok (ret, s') →
        s'.fail = s3.fail
          ∧ ∃ evs, s'.log = s3.log ++ evs ∧ ∀ x, Event.noRule x ∉ evs) := by
  have hmk : makebyname os fl (n + 1) name s
      = make os fl (n + 1) k (some src) (some name) s := by
    rcases hpat with ⟨hdot, hm, hfirst, hsrc⟩ | ⟨hdot, hm, hfirst, hsrc⟩
    · obtain ⟨i, hi, h1, h2⟩ := strchr_dot_name name hdot
      have hf := findTwoSuffix_first name i h1 h2 s.rules 0 k r hk hm hfirst
      simp only [Nat.zero_add] at hf
      simp only [makebyname, makebynameWith, findExplicit_none name s.rules 0 hex, hi, hf, hsrc]
    · have hf := findOneSuffix_first name s.rules 0 k r hk hm hfirst
      simp only [Nat.zero_add] at hf
      simp only [makebyname, makebynameWith, findExplicit_none name s.rules 0 hex,
        strchr_of_not_mem '.' name hdot, hf, hsrc]
  have hds : defaultSrc r (some src) = some src := rfl
  have hdt : defaultTarget r (some name) = name := rfl
  refine ⟨hmk, ?_, ?_⟩
  · intro ins stv0 s3 hd hdepth hin hpre htgt
    rw [hmk, make_body os fl n k (some src) (some name) s r ins hk hd hdepth hin, hpre]
    have hf : ∀ stv, fresh os s3.world (some src) name stv = false := by
      intro stv; unfold fresh; rw [htgt]
    simp [hds, hdt, hf]
  · intro ins f stv0 s3 ret s' hd hdepth hin hpre hres
    rw [hmk, make_body os fl n k (some src) (some name) s r ins hk hd hdepth hin, hpre] at hres
    simp only at hres
    split at hres
    · simp only [Except.ok.injEq, Prod.mk.injEq] at hres
      rw [← hres.2]; exact ⟨rfl, [], by simp, by simp⟩
    · split at hres
      · simp only [Except.ok.injEq, Prod.mk.injEq] at hres
        rw [← hres.2]; exact ⟨rfl, [], by simp, by simp⟩
      · unfold rebuild at hres
        split at hres
        · cases hres
        · rename_i s4 hc
          obtain ⟨hf4, evs, hl4, hcmd⟩ := runcmds_fail os fl _ _ _ s3 s4 hc
          simp only [Except.ok.injEq, Prod.mk.injEq] at hres
          rw [← hres.2]
          refine ⟨?_, evs, ?_, ?_⟩
          · split <;> exact hf4
          · split <;> exact hl4
          · intro x hx
            have := hcmd _ hx
            simp [Event.isCmd] at this

/-- Instance of C20: `foo.o` is requested, `.c.o` applies, and neither a file
nor a rule `foo.c` exists: the command is run with `foo.c` all the same and
`fail` stays 0. -/
theorem pattern_source_not_resolved_witness :
    makebyname failingOS ⟨false, false, false⟩ 1 "foo.o".data
        ⟨[⟨".c.o".data, some [], some ["@cc -c $<".data], false⟩], 0, 0, (), []⟩
      = .ok (0, ⟨[⟨".c.o".data, some [], some ["@cc -c $<".data], false⟩], 0, 0, (),
          [Event.exec "cc -c foo.c".data]⟩) := by
  have h := (pattern_source_not_resolved failingOS ⟨false, false, false⟩ 0 "foo.o".data
    ⟨[⟨".c.o".data, some [], some ["@cc -c $<".data], false⟩], 0, 0, (), []⟩ 0
    ⟨".c.o".data, some [], some ["@cc -c $<".data], false⟩ "foo.c".data
    (by simp [hasExplicit]) rfl
    (Or.inl ⟨by decide, by decide, fun j r' hj _ => absurd hj (Nat.not_lt_zero j), by decide⟩)).1
  rw [h]; rfl

end Umake
